import Mathlib

/-!
# Verification of `queue.c` (lab0-c)

A shallow embedding of the singly linked queue of `queue.c`.

* Node addresses are natural numbers; the heap of list elements is a partial
  map from addresses to nodes.  A `NULL` pointer is `none`.
* The text owned by a node is stored inline in the node: it is the byte
  sequence before the terminator, so `strlen` is the length of the list.
* Every operation that dereferences a pointer returns `none` when the pointer
  is `NULL` or dangling (undefined behaviour in C), and every loop is bounded
  by a fuel argument: `none` is also the answer when the fuel runs out.
* `malloc` is an oracle: its result is an argument of the operation.
* The element count is a C `int` of 32 bits: incrementing `INT_MAX` gives
  `INT_MIN` (`int_wrap`).
* `strnatcasecmp` (strnatcmp.h) is an argument `cmp` of the sorting functions.
-/

namespace QueueC

/-- Address of a heap-allocated list element. -/
abbrev Addr := Nat

/-- Bytes of a C string before its terminator. -/
abbrev Text := List Nat

/-- Contents of a caller-owned character array; its length is the real
capacity of the array. -/
abbrev Buffer := List Nat

/-- Modelled from the spec: the declaration of `list_ele_t` lives in queue.h,
which is missing; the fields are the ones `queue.c` uses (`value`, `next`),
"an owned text payload plus a forward link". -/
structure list_ele_t where
  value : Text
  next : Option Addr
deriving DecidableEq, Repr

/-- Modelled from the spec: the declaration of `queue_t` lives in queue.h,
which is missing; the fields are the ones `queue.c` uses (`head`, `tail`,
`size`), "a reference to the head Node, a reference to the tail Node, and a
cached element count".  The count is a C `int` (`q_size` returns it as
`int`): the field holds an integer, and `q->size++` and `q->size--` store
their result through `int_wrap`, the value kept by a 32-bit two's-complement
`int`. -/
structure queue_t where
  head : Option Addr
  tail : Option Addr
  size : Int
deriving DecidableEq, Repr

/-- Heap of list elements. -/
abbrev Heap := Addr → Option list_ele_t

/-- Store a node at an address. -/
def Heap.write (h : Heap) (a : Addr) (n : list_ele_t) : Heap :=
  fun x => if x = a then some n else h x

/-- Release the node at an address (`free`). -/
def Heap.free (h : Heap) (a : Addr) : Heap :=
  fun x => if x = a then none else h x

/-- The heap with no node allocated. -/
def Heap.empty : Heap := fun _ => none

/-- Number of values of `size_t` (64-bit target). -/
def SIZE_MOD : Nat := 18446744073709551616

/-- The C expression `n - 1` on a `size_t`. -/
def size_dec (n : Nat) : Nat := (n + (SIZE_MOD - 1)) % SIZE_MOD

/-- Length of a C string. -/
def strlen (s : Text) : Nat := s.length

/-- The call `strncpy(dst, src, n)`: exactly `n` bytes of `dst` are written,
the first `min n (strlen src)` from `src` and the rest zero.  Writing past the
end of the array is undefined. -/
def strncpy (dst : Buffer) (src : Text) (n : Nat) : Option Buffer :=
  if n ≤ dst.length then
    some (src.take n ++ List.replicate (n - strlen src) 0 ++ dst.drop n)
  else none

/-- The assignment `sp[i] = c`.  Writing past the end of the array is
undefined. -/
def poke (sp : Buffer) (i : Nat) (c : Nat) : Option Buffer :=
  if i < sp.length then some (sp.set i c) else none

/-- Largest value of a C `int` (32-bit target). -/
def INT_MAX : Int := 2147483647

/-- Value kept by a C `int` when the integer `x` is stored in it: `x` modulo
2^32, taken in the range from `INT_MIN` to `INT_MAX`. -/
def int_wrap (x : Int) : Int := (x + 2147483648) % 4294967296 - 2147483648

/-- Create an empty queue; `NULL` when `malloc` fails. -/
def q_new (malloc_ok : Bool) : Option queue_t :=
  if malloc_ok then some { head := none, tail := none, size := 0 } else none

/-- Insert at the head.  `newh` is the result of the first `malloc` and
`tmp_ok` says whether the second one (for the text) succeeds. -/
def q_insert_head (h : Heap) (q : Option queue_t) (s : Text)
    (newh : Option Addr) (tmp_ok : Bool) : Bool × Heap × Option queue_t :=
  match q with
  | none => (false, h, none)
  | some q =>
    match newh with
    | none => (false, h, some q)
    | some a =>
      if tmp_ok = false then (false, h, some q)
      else
        let h1 := h.write a { value := s, next := q.head }
        let q1 : queue_t := { q with head := some a }
        let q2 : queue_t := if q1.size = 0 then { q1 with tail := some a } else q1
        (true, h1, some { q2 with size := int_wrap (q2.size + 1) })

/-- Insert at the tail.  `newh` is the result of the first `malloc` and
`tmp_ok` says whether the second one (for the text) succeeds. -/
def q_insert_tail (h : Heap) (q : Option queue_t) (s : Text)
    (newh : Option Addr) (tmp_ok : Bool) : Option (Bool × Heap × Option queue_t) :=
  match q with
  | none => some (false, h, none)
  | some q =>
    match newh with
    | none => some (false, h, some q)
    | some a =>
      if tmp_ok = false then some (false, h, some q)
      else
        let h1 := h.write a { value := s, next := none }
        if q.size = 0 then
          some (true, h1,
            some { q with tail := some a, head := some a, size := int_wrap (q.size + 1) })
        else
          match q.tail with
          | none => none
          | some t =>
            match h1 t with
            | none => none
            | some nt =>
              some (true, h1.write t { nt with next := some a },
                some { q with tail := some a, size := int_wrap (q.size + 1) })

/-- The copy made by `q_remove_head` (its `if (bufsize > strlen(...))`
statement): the text `value` of the head goes to the array `sp`, announced to
hold `bufsize` bytes. -/
def q_remove_head_copy (sp : Buffer) (value : Text) (bufsize : Nat) : Option Buffer :=
  if bufsize > strlen value then
    (strncpy sp value (strlen value)).bind fun b => poke b (strlen value) 0
  else
    (strncpy sp value (size_dec bufsize)).bind fun b => poke b (size_dec bufsize) 0

/-- Remove the head, copying its text to `sp` (an array announced to hold
`bufsize` bytes). -/
def q_remove_head (h : Heap) (q : Option queue_t) (sp : Option Buffer) (bufsize : Nat) :
    Option (Bool × Heap × Option queue_t × Option Buffer) :=
  match q with
  | none => some (false, h, none, sp)
  | some q =>
    match sp, q.head with
    | none, _ => some (false, h, some q, none)
    | some buf, none => some (false, h, some q, some buf)
    | some buf, some a =>
      match h a with
      | none => none
      | some n =>
        match q_remove_head_copy buf n.value bufsize with
        | none => none
        | some buf1 =>
          let h1 := h.free a
          let q1 : queue_t := { q with head := n.next, size := int_wrap (q.size - 1) }
          let q2 : queue_t := if q1.size = 0 then { q1 with tail := none } else q1
          some (true, h1, some q2, some buf1)

/-- Number of elements: 0 for a null queue or a null head, otherwise the `int`
field `size`, which `q_new` sets to 0 and every later write stores through
`int_wrap`. -/
def q_size (q : Option queue_t) : Int :=
  match q with
  | none => 0
  | some q => if q.head = none then 0 else q.size

/-- The `while (next != NULL)` loop of `q_reverse`; the result is the final
heap and the final `cur`. -/
def q_reverse_loop : Nat → Heap → Addr → Option Addr → Option (Heap × Addr)
  | _, h, cur, none => some (h, cur)
  | 0, _, _, some _ => none
  | fuel + 1, h, cur, some nx =>
    match h nx with
    | none => none
    | some n => q_reverse_loop fuel (h.write nx { n with next := some cur }) nx n.next

/-- Reverse the queue in place. -/
def q_reverse (fuel : Nat) (h : Heap) (q : Option queue_t) : Option (Heap × Option queue_t) :=
  match q with
  | none => some (h, none)
  | some q =>
    if q.size = 0 then some (h, some q)
    else
      match q.head with
      | none => none
      | some hd =>
        match h hd with
        | none => none
        | some n =>
          match q_reverse_loop fuel h hd n.next with
          | none => none
          | some (h1, cur) =>
            match h1 hd with
            | none => none
            | some nt =>
              some (h1.write hd { nt with next := none },
                some { q with tail := some hd, head := some cur })

/-- Target of the local `tail` pointer of `sorted_merge`: the dummy node on
the stack or a list element. -/
inductive TailPtr where
  | dummy : TailPtr
  | node (a : Addr) : TailPtr
deriving DecidableEq, Repr

/-- Memory seen by `sorted_merge`: the heap and the `next` field of its
stack-allocated dummy node. -/
structure MergeMem where
  heap : Heap
  dummy_next : Option Addr

/-- Read `tail->next`. -/
def MergeMem.getNext (m : MergeMem) : TailPtr → Option (Option Addr)
  | .dummy => some m.dummy_next
  | .node a => (m.heap a).map fun n => n.next

/-- Write `tail->next`. -/
def MergeMem.setNext (m : MergeMem) (t : TailPtr) (v : Option Addr) : Option MergeMem :=
  match t with
  | .dummy => some { m with dummy_next := v }
  | .node a =>
    match m.heap a with
    | none => none
    | some n => some { m with heap := m.heap.write a { n with next := v } }

/-- The call `move_node(&(dest->next), &source)`; the result is the memory
and the new value of the variable `source`. -/
def move_node (m : MergeMem) (dest : TailPtr) (source : Option Addr) :
    Option (MergeMem × Option Addr) :=
  match source with
  | none => none
  | some newNode =>
    match m.heap newNode with
    | none => none
    | some n =>
      match m.getNext dest with
      | none => none
      | some d =>
        let m1 : MergeMem := { m with heap := m.heap.write newNode { n with next := d } }
        match m1.setNext dest (some newNode) with
        | none => none
        | some m2 => some (m2, n.next)

/-- The `while (1)` loop of `sorted_merge`.  After `tail = tail->next` a
`NULL` tail is dereferenced on every path, hence `none`. -/
def sorted_merge_loop (cmp : Text → Text → Int) :
    Nat → MergeMem → Option Addr → Option Addr → TailPtr → Option MergeMem
  | 0, _, _, _, _ => none
  | fuel + 1, m, a, b, tail =>
    match a, b with
    | none, _ => m.setNext tail b
    | some _, none => m.setNext tail a
    | some pa, some pb =>
      match m.heap pa, m.heap pb with
      | some na, some nb =>
        let moved := if cmp na.value nb.value < 0 then
            (move_node m tail a).map fun r => (r.1, r.2, b)
          else
            (move_node m tail b).map fun r => (r.1, a, r.2)
        match moved with
        | none => none
        | some (m1, a1, b1) =>
          match m1.getNext tail with
          | some (some t) => sorted_merge_loop cmp fuel m1 a1 b1 (.node t)
          | _ => none
      | _, _ => none

/-- Merge two chains; the result is the heap and the head of the merged
chain (`dummy.next`). -/
def sorted_merge (cmp : Text → Text → Int) (fuel : Nat) (h : Heap) (a b : Option Addr) :
    Option (Heap × Option Addr) :=
  (sorted_merge_loop cmp fuel { heap := h, dummy_next := none } a b .dummy).map
    fun m => (m.heap, m.dummy_next)

/-- The `while (fast != NULL)` loop of `front_back_split`; the result is the
final `slow`.  A `slow` that becomes `NULL` is dereferenced on every path,
hence `none`. -/
def front_back_split_loop : Nat → Heap → Addr → Option Addr → Option Addr
  | _, _, slow, none => some slow
  | 0, _, _, some _ => none
  | fuel + 1, h, slow, some f =>
    match h f with
    | none => none
    | some nf =>
      match nf.next with
      | none => some slow
      | some f2 =>
        match h slow, h f2 with
        | some ns, some nf2 =>
          match ns.next with
          | none => none
          | some s1 => front_back_split_loop fuel h s1 nf2.next
        | _, _ => none

/-- Split a chain in two halves; the result is the heap, `*front_ref` and
`*back_ref`. -/
def front_back_split (fuel : Nat) (h : Heap) (head : Option Addr) :
    Option (Heap × Option Addr × Option Addr) :=
  match head with
  | none => some (h, none, none)
  | some p =>
    match h p with
    | none => none
    | some n =>
      match n.next with
      | none => some (h, head, none)
      | some _ =>
        match front_back_split_loop fuel h p n.next with
        | none => none
        | some slow =>
          match h slow with
          | none => none
          | some ns => some (h.write slow { ns with next := none }, head, ns.next)

/-- Recursive merge sort on a chain; the result is the heap and the new
value of `*head`. -/
def merge_sort (cmp : Text → Text → Int) : Nat → Heap → Option Addr → Option (Heap × Option Addr)
  | 0, _, _ => none
  | fuel + 1, h, head =>
    match head with
    | none => some (h, none)
    | some p =>
      match h p with
      | none => none
      | some n =>
        match n.next with
        | none => some (h, head)
        | some _ =>
          match front_back_split fuel h head with
          | none => none
          | some (h1, a, b) =>
            match merge_sort cmp fuel h1 a with
            | none => none
            | some (h2, a1) =>
              match merge_sort cmp fuel h2 b with
              | none => none
              | some (h3, b1) => sorted_merge cmp fuel h3 a1 b1

/-- The `while (tmp->next != NULL)` loop of `q_sort`; the result is the final
`tmp`. -/
def q_sort_tail_loop : Nat → Heap → Addr → Option Addr
  | 0, _, _ => none
  | fuel + 1, h, tmp =>
    match h tmp with
    | none => none
    | some n =>
      match n.next with
      | none => some tmp
      | some nx => q_sort_tail_loop fuel h nx

/-- Sort the queue in ascending order of `cmp`. -/
def q_sort (cmp : Text → Text → Int) (fuel : Nat) (h : Heap) (q : Option queue_t) :
    Option (Heap × Option queue_t) :=
  match q with
  | none => some (h, none)
  | some q =>
    match q.head with
    | none => some (h, some q)
    | some _ =>
      match merge_sort cmp fuel h q.head with
      | none => none
      | some (h1, hd) =>
        match hd with
        | none => none
        | some t =>
          match q_sort_tail_loop fuel h1 t with
          | none => none
          | some last => some (h1, some { q with head := hd, tail := some last })

/-! ## Specification-level definitions -/

/-- The chain starting at pointer `p` visits exactly the nodes `ns`, in this
order, and then reaches `NULL`. -/
def IsChain (h : Heap) : Option Addr → List Addr → Prop
  | p, [] => p = none
  | p, a :: as => p = some a ∧ ∃ n, h a = some n ∧ IsChain h n.next as

/-- Nodes met when walking at most `fuel` links from `p`; `none` when the
walk meets a dangling pointer or does not reach `NULL` in time. -/
def nodesFrom : Nat → Heap → Option Addr → Option (List Addr)
  | _, _, none => some []
  | 0, _, some _ => none
  | k + 1, h, some a =>
    match h a with
    | none => none
    | some n => (nodesFrom k h n.next).map fun l => a :: l

/-- Payload of the node at an address (empty for an unallocated address). -/
def val (h : Heap) (a : Addr) : Text :=
  match h a with
  | some n => n.value
  | none => []

/-- Payload sequence of a list of nodes. -/
def payloads (h : Heap) (ns : List Addr) : List Text := ns.map (val h)

/-- Two heaps allocate the same addresses and store the same payloads. -/
def SameValues (h1 h2 : Heap) : Prop :=
  ∀ x, (h1 x).map (fun n => n.value) = (h2 x).map (fun n => n.value)

/-- The comparator seen on nodes: compare the payloads. -/
def cmpAt (cmp : Text → Text → Int) (h : Heap) (x y : Addr) : Int :=
  cmp (val h x) (val h y)

/-- A three-way comparator that is sign-antisymmetric and transitive. -/
structure TotalPreorder {α : Type} (cmp : α → α → Int) : Prop where
  antisymm : ∀ x y, cmp x y < 0 ↔ 0 < cmp y x
  trans : ∀ x y z, cmp x y ≤ 0 → cmp y z ≤ 0 → cmp x z ≤ 0

/-- The merge performed by `sorted_merge`, on sequences: the head of the left
sequence is taken when it compares strictly less, the head of the right one
otherwise. -/
def mergeL {α : Type} (cmp : α → α → Int) : List α → List α → List α
  | [], b => b
  | x :: a, [] => x :: a
  | x :: a, y :: b =>
    if cmp x y < 0 then x :: mergeL cmp a (y :: b) else y :: mergeL cmp (x :: a) b

/-- The sort performed by `merge_sort`, on sequences: the front half has
`(n + 1) / 2` elements. -/
def msortL {α : Type} (cmp : α → α → Int) (l : List α) : List α :=
  if l.length < 2 then l
  else
    mergeL cmp (msortL cmp (l.take ((l.length + 1) / 2)))
      (msortL cmp (l.drop ((l.length + 1) / 2)))
termination_by l.length
decreasing_by
  all_goals simp_wf
  all_goals omega

/-- The well-formedness invariant of a queue: the count is a non-negative
value of type `int`; it is zero exactly when the head is `NULL`, exactly when
the tail is `NULL`; and for a positive count the chain from the head is
acyclic, has `size` nodes, ends at the tail, whose link is `NULL`. -/
def WellFormed (h : Heap) (q : queue_t) : Prop :=
  0 ≤ q.size ∧ q.size ≤ INT_MAX ∧ (q.size = 0 ↔ q.head = none) ∧
  (q.head = none ↔ q.tail = none) ∧
  (0 < q.size → ∃ ns, IsChain h q.head ns ∧ ns.Nodup ∧ (ns.length : Int) = q.size ∧
    ns.getLast? = q.tail ∧ ∀ t, q.tail = some t → ∃ n, h t = some n ∧ n.next = none)

/-- Heap holding the listed nodes. -/
def Heap.ofList (l : List (Addr × list_ele_t)) : Heap := fun a => l.lookup a

/-- A comparator with ties between different texts: it compares the first
byte of each text without regard to letter case. -/
def firstByteCaseCmp (x y : Text) : Int := ((x.headD 0 % 32 : Nat) : Int) - ((y.headD 0 % 32 : Nat) : Int)

/-- Order left by the sort between an element `u` and a later element `v` of
its result: `u` is strictly less, or they compare equal and `v` came before
`u` in the sequence `l0`. -/
def TieRev {α : Type} (cmp : α → α → Int) (l0 : List α) (u v : α) : Prop :=
  cmp u v < 0 ∨ (cmp u v = 0 ∧ List.Sublist [v, u] l0)

/-- Payload sequence read from the head of a queue, walking at most `fuel`
links. -/
def readQueue (fuel : Nat) (h : Heap) (q : queue_t) : Option (List Text) :=
  (nodesFrom fuel h q.head).map (payloads h)

/-- Example heap: the chain 1 → 2 → 3 holds "b", "a", "c". -/
def exHeap : Heap :=
  Heap.ofList [(1, ⟨[98], some 2⟩), (2, ⟨[97], some 3⟩), (3, ⟨[99], none⟩)]

/-- Example queue over `exHeap`. -/
def exQueue : queue_t := ⟨some 1, some 3, 3⟩

/-- Example heap: the chain 1 → 2 holds "a", "A". -/
def tieHeap : Heap := Heap.ofList [(1, ⟨[97], some 2⟩), (2, ⟨[65], none⟩)]

/-- Example queue over `tieHeap`. -/
def tieQueue : queue_t := ⟨some 1, some 2, 2⟩

/-- A call of one of the three operations that change the number of
elements, together with what its environment provides: the results of
`malloc` for an insertion, the caller's array and its announced size for a
removal. -/
inductive Op where
  | insert_head (s : Text) (newh : Option Addr) (tmp_ok : Bool) : Op
  | insert_tail (s : Text) (newh : Option Addr) (tmp_ok : Bool) : Op
  | remove_head (sp : Option Buffer) (bufsize : Nat) : Op

/-- The call is an insertion. -/
def Op.isInsert : Op → Bool
  | .insert_head _ _ _ => true
  | .insert_tail _ _ _ => true
  | .remove_head _ _ => false

/-- The call is a removal. -/
def Op.isRemove : Op → Bool
  | .remove_head _ _ => true
  | _ => false

/-- Perform one call; the result is its return value, the heap, the queue
and the array of a removal. -/
def step (h : Heap) (q : Option queue_t) :
    Op → Option (Bool × Heap × Option queue_t × Option Buffer)
  | .insert_head s newh tmp_ok =>
    some ((q_insert_head h q s newh tmp_ok).1, (q_insert_head h q s newh tmp_ok).2.1,
      (q_insert_head h q s newh tmp_ok).2.2, none)
  | .insert_tail s newh tmp_ok =>
    (q_insert_tail h q s newh tmp_ok).map fun r => (r.1, r.2.1, r.2.2, none)
  | .remove_head sp bufsize => q_remove_head h q sp bufsize

/-- Perform a sequence of calls; the result is the final heap and queue and,
for each call in order, its return value and output array. -/
def run (h : Heap) (q : Option queue_t) :
    List Op → Option (Heap × Option queue_t × List (Bool × Option Buffer))
  | [] => some (h, q, [])
  | op :: ops =>
    match step h q op with
    | none => none
    | some (b, h1, q1, out) => (run h1 q1 ops).map fun r => (r.1, r.2.1, (b, out) :: r.2.2)

/-- Number of calls of the kind `p` that returned true. -/
def countOk (p : Op → Bool) : List Op → List (Bool × Option Buffer) → Int
  | op :: ops, r :: rs => (if p op && r.1 then 1 else 0) + countOk p ops rs
  | _, _ => 0

/-- What an insertion may expect of `malloc`: it returns `NULL` or an address
that is not allocated. -/
def MallocOk (h : Heap) : Op → Prop
  | .insert_head _ newh _ => ∀ a, newh = some a → h a = none
  | .insert_tail _ newh _ => ∀ a, newh = some a → h a = none
  | .remove_head _ _ => True

/-- What a removal may expect of its caller: a non-null array has at least
the announced size, which is a positive `size_t`. -/
def BufferOk : Op → Prop
  | .remove_head sp bufsize =>
    ∀ buf, sp = some buf → 1 ≤ bufsize ∧ bufsize ≤ buf.length ∧ bufsize < SIZE_MOD
  | _ => True

/-- The room an insertion needs for the `int` count to tell an empty queue
from a non-empty one: the chain of the queue has fewer than 2^32 nodes. -/
def RoomOk (h : Heap) (q : Option queue_t) : Op → Prop
  | .remove_head _ _ => True
  | _ => ∀ q0 ns, q = some q0 → IsChain h q0.head ns → ns.length < 4294967296

/-- Every insertion of the sequence finds the allocator of `MallocOk` in the
state in which it is made. -/
def Admissible (h : Heap) (q : Option queue_t) : List Op → Prop
  | [] => True
  | op :: ops =>
    MallocOk h op ∧ ∀ b h1 q1 out, step h q op = some (b, h1, q1, out) → Admissible h1 q1 ops

/-- Every insertion of the sequence finds the room of `RoomOk` in the state
in which it is made. -/
def Roomy (h : Heap) (q : Option queue_t) : List Op → Prop
  | [] => True
  | op :: ops =>
    RoomOk h q op ∧ ∀ b h1 q1 out, step h q op = some (b, h1, q1, out) → Roomy h1 q1 ops

/-- State of a run in which `k` more insertions than removals have succeeded:
the queue is null and `k = 0`, or the chain from the head has `k` nodes less a
multiple of 2^32, the count is the number of nodes kept as an `int`, and a
non-null tail is a node of the chain followed by a multiple of 2^32 nodes. -/
def Counts (h : Heap) (q : Option queue_t) (k : Nat) : Prop :=
  match q with
  | none => k = 0
  | some q0 =>
    ∃ ns m, IsChain h q0.head ns ∧ k = ns.length + m * 4294967296 ∧
      int_wrap (ns.length : Int) = q0.size ∧
      ∀ t, q0.tail = some t → ∃ l1 l2 j, ns = l1 ++ t :: l2 ∧ l2.length = j * 4294967296

/-- State of a run that holds `n` elements: the queue is null and `n = 0`, or
the record of the queue describes a chain of `n` nodes, the count being kept
as an `int`. -/
def Holds (h : Heap) (q : Option queue_t) (n : Nat) : Prop :=
  match q with
  | none => n = 0
  | some q0 =>
    ∃ ns, IsChain h q0.head ns ∧ int_wrap (ns.length : Int) = q0.size ∧
      ns.getLast? = q0.tail ∧ ns.length = n

/-- Heap of `n` nodes with empty texts at the addresses `0, ..., n - 1`, each
linked to the next address and the last one to `NULL`. -/
def lineHeap (n : Nat) : Heap :=
  fun a =>
    if a < n then some { value := [], next := if a + 1 < n then some (a + 1) else none }
    else none

/-- Heap of `INT_MAX` nodes in one chain. -/
def fullHeap : Heap := lineHeap 2147483647

/-- Queue over `fullHeap`: it holds `INT_MAX` elements. -/
def fullQueue : queue_t := { head := some 0, tail := some 2147483646, size := 2147483647 }

/-- Example run: a successful `q_insert_tail`, a `q_insert_head` whose
`malloc` fails, a successful `q_remove_head`, and a `q_remove_head` on the
queue that is empty by then. -/
def exOps : List Op :=
  [Op.insert_tail [98] (some 1) true, Op.insert_head [99] none true,
    Op.remove_head (some [7, 7, 7]) 3, Op.remove_head (some [7, 7, 7]) 3]

/-- The calls `q_insert_tail(s1)`, ..., `q_insert_tail(sn)`, each with the
node that `malloc` returns for it. -/
def insertTailOps (items : List (Text × Addr)) : List Op :=
  items.map fun p => Op.insert_tail p.1 (some p.2) true

/-- One `q_remove_head` call for each array and announced size. -/
def removeHeadOps (bufs : List (Buffer × Nat)) : List Op :=
  bufs.map fun b => Op.remove_head (some b.1) b.2

/-- Example heap: two separate chains, 1 → 3 holding "a", "c" and 2 holding
"b". -/
def mergeHeap : Heap :=
  Heap.ofList [(1, ⟨[97], some 3⟩), (3, ⟨[99], none⟩), (2, ⟨[98], none⟩)]

/-- Example heap: two separate one-node chains, 1 holding "a" and 2 holding
"A". -/
def tiePairHeap : Heap := Heap.ofList [(1, ⟨[97], none⟩), (2, ⟨[65], none⟩)]

/-- The text `s` together with each of the addresses `0, ..., n - 1`: what
`n` calls inserting `s` receive from an allocator that hands out the
addresses in order. -/
@[irreducible] def lineItems (s : Text) (n : Nat) : List (Text × Addr) :=
  (List.range n).map fun a => (s, a)

/-- Reverse every maximal run of elements that compare equal to the first
element of the run: the elements after `x` that compare equal to `x` are put,
in reverse order, in front of `x`, and the rest is treated in the same way. -/
def revTies {α : Type} (cmp : α → α → Int) : List α → List α
  | [] => []
  | x :: l =>
    (l.takeWhile fun y => decide (cmp x y = 0)).reverse ++
      x :: revTies cmp (l.dropWhile fun y => decide (cmp x y = 0))
termination_by l => l.length
decreasing_by
  simp_wf
  exact Nat.lt_succ_of_le (List.dropWhile_sublist _).length_le

/-! ## Chains -/

theorem IsChain_nil {h : Heap} {p : Option Addr} : IsChain h p [] ↔ p = none := Iff.rfl

theorem IsChain_cons {h : Heap} {p : Option Addr} {a : Addr} {as : List Addr} :
    IsChain h p (a :: as) ↔ p = some a ∧ ∃ n, h a = some n ∧ IsChain h n.next as := Iff.rfl

theorem IsChain_none {h : Heap} {l : List Addr} (hc : IsChain h none l) : l = [] := by
  cases l with
  | nil => rfl
  | cons a as => exact absurd hc.1 (by simp)

/-- A chain only depends on the nodes it visits. -/
theorem IsChain_congr {h h1 : Heap} : ∀ {l : List Addr} {p : Option Addr},
    (∀ a ∈ l, h1 a = h a) → IsChain h p l → IsChain h1 p l
  | [], _, _, hc => hc
  | a :: as, _, hag, ⟨hp, n, hn, hc⟩ =>
    ⟨hp, n, by rw [hag a (List.mem_cons_self _ _)]; exact hn,
      IsChain_congr (fun x hx => hag x (List.mem_cons_of_mem _ hx)) hc⟩

/-- The chain from a pointer is unique. -/
theorem IsChain_det {h : Heap} : ∀ {l1 l2 : List Addr} {p : Option Addr},
    IsChain h p l1 → IsChain h p l2 → l1 = l2
  | [], l2, _, h1, h2 => by
    rw [IsChain_nil] at h1; subst h1; exact (IsChain_none h2).symm
  | a :: as, [], _, h1, h2 => by
    rw [IsChain_nil] at h2; subst h2; exact absurd h1.1 (by simp)
  | a :: as, b :: bs, _, ⟨hp1, n1, hn1, hc1⟩, ⟨hp2, n2, hn2, hc2⟩ => by
    have hab : a = b := by rw [hp1] at hp2; exact Option.some.inj hp2
    subst hab
    have hn : n1 = n2 := by rw [hn1] at hn2; exact Option.some.inj hn2
    subst hn
    rw [IsChain_det hc1 hc2]

/-- The chain from an inner node is the rest of the chain. -/
theorem IsChain_suffix {h : Heap} : ∀ (l1 : List Addr) {l2 : List Addr} {p : Option Addr} {a : Addr},
    IsChain h p (l1 ++ a :: l2) → IsChain h (some a) (a :: l2)
  | [], _, _, _, hc => ⟨rfl, hc.2⟩
  | _ :: l1, _, _, _, ⟨_, _, _, hc⟩ => IsChain_suffix l1 hc

/-- A chain that reaches `NULL` visits no node twice. -/
theorem IsChain_nodup {h : Heap} : ∀ {l : List Addr} {p : Option Addr}, IsChain h p l → l.Nodup
  | [], _, _ => List.nodup_nil
  | a :: as, _, hc => by
    obtain ⟨hp, n, hn, hc1⟩ := hc
    refine List.nodup_cons.2 ⟨fun hmem => ?_, IsChain_nodup hc1⟩
    obtain ⟨l1, l2, rfl⟩ := List.append_of_mem hmem
    have h2 : IsChain h (some a) (a :: l2) := IsChain_suffix l1 hc1
    have h3 : IsChain h (some a) (a :: (l1 ++ a :: l2)) := ⟨rfl, n, hn, hc1⟩
    have := congrArg List.length (IsChain_det h2 h3)
    simp at this
    omega

/-! ## Heap updates -/

@[simp] theorem Heap.write_same (h : Heap) (a : Addr) (n : list_ele_t) : h.write a n a = some n := by
  simp [Heap.write]

theorem Heap.write_other (h : Heap) {a x : Addr} (n : list_ele_t) (hx : x ≠ a) :
    h.write a n x = h x := by
  simp [Heap.write, hx]

theorem SameValues.refl (h : Heap) : SameValues h h := fun _ => rfl

theorem SameValues.trans {h1 h2 h3 : Heap} (h12 : SameValues h1 h2) (h23 : SameValues h2 h3) :
    SameValues h1 h3 := fun x => (h12 x).trans (h23 x)

theorem SameValues.symm {h1 h2 : Heap} (h12 : SameValues h1 h2) : SameValues h2 h1 :=
  fun x => (h12 x).symm

/-- Rewriting the link of an allocated node keeps the payloads. -/
theorem SameValues_write {h : Heap} {a : Addr} {n : list_ele_t} (hn : h a = some n)
    (v : Option Addr) : SameValues (h.write a { n with next := v }) h := by
  intro x
  by_cases hx : x = a
  · subst hx; simp [hn]
  · rw [Heap.write_other _ _ hx]

theorem SameValues.val_eq {h1 h2 : Heap} (hs : SameValues h1 h2) (x : Addr) : val h1 x = val h2 x := by
  have := hs x
  unfold val
  cases h1x : h1 x <;> cases h2x : h2 x <;> simp_all

theorem SameValues.cmpAt_eq {h1 h2 : Heap} (hs : SameValues h1 h2) (cmp : Text → Text → Int) :
    cmpAt cmp h1 = cmpAt cmp h2 := by
  funext x y
  simp [cmpAt, hs.val_eq]

theorem SameValues.payloads_eq {h1 h2 : Heap} (hs : SameValues h1 h2) (l : List Addr) :
    payloads h1 l = payloads h2 l := by
  simp [payloads, hs.val_eq]

theorem val_of_eq {h : Heap} {a : Addr} {n : list_ele_t} (hn : h a = some n) : val h a = n.value := by
  simp [val, hn]

/-- Every node of a chain is allocated. -/
theorem IsChain_alloc {h : Heap} : ∀ {l : List Addr} {p : Option Addr},
    IsChain h p l → ∀ a ∈ l, ∃ n, h a = some n
  | [], _, _, a, ha => by simp at ha
  | b :: bs, _, ⟨_, n, hn, hc⟩, a, ha => by
    rcases List.mem_cons.1 ha with rfl | hm
    · exact ⟨n, hn⟩
    · exact IsChain_alloc hc a hm

/-- The last node of a chain has a `NULL` link. -/
theorem IsChain_last {h : Heap} : ∀ {l : List Addr} {p : Option Addr},
    IsChain h p l → ∀ t, l.getLast? = some t → ∃ n, h t = some n ∧ n.next = none
  | [], _, _, t, ht => by simp at ht
  | [a], _, ⟨_, n, hn, hc⟩, t, ht => by
    simp at ht; subst ht
    exact ⟨n, hn, hc⟩
  | a :: b :: bs, _, ⟨_, n, hn, hc⟩, t, ht => by
    rw [List.getLast?_cons_cons] at ht
    exact IsChain_last hc t ht

/-- Cutting a chain after the node `a`: the front part ends at `a` once the
link of `a` is cleared, and the back part starts at the old link of `a`. -/
theorem IsChain_cut {h : Heap} {a : Addr} {na : list_ele_t} {l2 : List Addr} (hna : h a = some na) :
    ∀ {l1 : List Addr} {p : Option Addr}, IsChain h p (l1 ++ a :: l2) → a ∉ l1 →
      IsChain (h.write a { na with next := none }) p (l1 ++ [a]) ∧ IsChain h na.next l2
  | [], _, ⟨hp, n, hn, hc⟩, _ => by
    have : n = na := by rw [hna] at hn; exact (Option.some.inj hn).symm
    subst this
    exact ⟨⟨hp, _, Heap.write_same _ _ _, rfl⟩, hc⟩
  | b :: l1, _, ⟨hp, n, hn, hc⟩, hnot => by
    have hba : b ≠ a := fun e => hnot (e ▸ List.mem_cons_self _ _)
    have hnot1 : a ∉ l1 := fun e => hnot (List.mem_cons_of_mem _ e)
    obtain ⟨h1, h2⟩ := IsChain_cut hna hc hnot1
    exact ⟨⟨hp, n, by rw [Heap.write_other _ _ hba]; exact hn, h1⟩, h2⟩

/-! ## `front_back_split` -/

theorem front_back_split_loop_none (fuel : Nat) (h : Heap) (slow : Addr) :
    front_back_split_loop fuel h slow none = some slow := by
  cases fuel <;> rfl

/-- The slow pointer advances one node for every two nodes of the fast
chain. -/
theorem front_back_split_loop_spec (h : Heap) : ∀ (fuel : Nat) (lf ls : List Addr) (slow : Addr)
    (fast : Option Addr), IsChain h (some slow) ls → IsChain h fast lf →
    lf.length / 2 < ls.length → lf.length ≤ fuel →
    ∃ s1, front_back_split_loop fuel h slow fast = some s1 ∧
      IsChain h (some s1) (ls.drop (lf.length / 2))
  | fuel, [], ls, slow, fast, hs, hf, _, _ => by
    rw [IsChain_nil] at hf; subst hf
    exact ⟨slow, front_back_split_loop_none _ _ _, by simpa using hs⟩
  | 0, _ :: _, _, _, _, _, _, _, hfuel => by simp at hfuel
  | fuel + 1, [x], ls, slow, fast, hs, ⟨hp, n, hn, hc⟩, _, _ => by
    subst hp
    rw [IsChain_nil] at hc
    refine ⟨slow, ?_, by simpa using hs⟩
    simp [front_back_split_loop, hn, hc]
  | fuel + 1, x :: y :: r, ls, slow, fast, hs, ⟨hp, n, hn, hy, ny, hny, hc⟩, hlen, hfuel => by
    subst hp
    cases ls with
    | nil => simp at hlen
    | cons s0 ls1 =>
      obtain ⟨hs0, ns, hns, hcs⟩ := hs
      have hs0 : slow = s0 := Option.some.inj hs0
      subst hs0
      cases ls1 with
      | nil => simp at hlen; omega
      | cons s1 ls2 =>
        obtain ⟨hs1, rest⟩ := hcs
        have hlen1 : r.length / 2 < (s1 :: ls2).length := by
          simp at hlen ⊢; omega
        have hfuel1 : r.length ≤ fuel := by simp at hfuel; omega
        obtain ⟨s2, he, hc2⟩ := front_back_split_loop_spec h fuel r (s1 :: ls2) s1 ny.next
          ⟨rfl, rest⟩ hc hlen1 hfuel1
        refine ⟨s2, ?_, ?_⟩
        · simp [front_back_split_loop, hn, hy, hny, hns, hs1, he]
        · have : (x :: y :: r).length / 2 = r.length / 2 + 1 := by simp; omega
          rw [this]
          simpa using hc2

theorem take_drop_of_drop_eq {α : Type} : ∀ {l : List α} {k : Nat} {a : α} {b : List α},
    l.drop k = a :: b → l.take (k + 1) = l.take k ++ [a] ∧ l.drop (k + 1) = b
  | [], k, _, _, h => by simp at h
  | x :: l, 0, _, _, h => by
    simp at h
    obtain ⟨rfl, rfl⟩ := h
    simp
  | x :: l, k + 1, a, b, h => by
    have h1 : l.drop k = a :: b := by simpa using h
    obtain ⟨h2, h3⟩ := take_drop_of_drop_eq h1
    exact ⟨by rw [List.take_succ_cons, h2]; rfl, by simpa using h3⟩

/-- `front_back_split` cuts a chain of `n` nodes after its first `(n + 1) / 2`
nodes, touching only the link of the last node of the front half. -/
theorem front_back_split_spec (h : Heap) (fuel : Nat) (l : List Addr) (p : Option Addr)
    (hc : IsChain h p l) (hfuel : l.length ≤ fuel + 1) :
    ∃ h1 a b, front_back_split fuel h p = some (h1, a, b) ∧
      IsChain h1 a (l.take ((l.length + 1) / 2)) ∧
      IsChain h1 b (l.drop ((l.length + 1) / 2)) ∧
      (∀ x, x ∉ l → h1 x = h x) ∧ SameValues h1 h := by
  have hnd := IsChain_nodup hc
  match l, hc with
  | [], hc =>
    rw [IsChain_nil] at hc; subst hc
    exact ⟨h, none, none, rfl, rfl, rfl, fun _ _ => rfl, SameValues.refl h⟩
  | [x], ⟨hp, n, hn, hc1⟩ =>
    subst hp
    rw [IsChain_nil] at hc1
    refine ⟨h, some x, none, ?_, ?_, ?_, fun _ _ => rfl, SameValues.refl h⟩
    · simp [front_back_split, hn, hc1]
    · have h1 : ([x].length + 1) / 2 = 1 := by simp
      rw [h1]
      exact ⟨rfl, n, hn, hc1⟩
    · have h1 : ([x].length + 1) / 2 = 1 := by simp
      rw [h1]
      exact rfl
  | x :: y :: r, ⟨hp, n, hn, hc1⟩ =>
    subst hp
    have hy : n.next = some y := hc1.1
    have hfull : IsChain h (some x) (x :: y :: r) := ⟨rfl, n, hn, hc1⟩
    obtain ⟨s1, he, hs1⟩ := front_back_split_loop_spec h fuel (y :: r) (x :: y :: r) x n.next
      hfull hc1 (by simp; omega) (by simp at hfuel ⊢; omega)
    rw [hy] at he
    set k := (y :: r).length / 2 with hk
    cases hd : (x :: y :: r).drop k with
    | nil => rw [hd] at hs1; exact absurd hs1 (by simp [IsChain])
    | cons s back =>
      rw [hd] at hs1
      obtain ⟨hs, ns, hns, hback⟩ := hs1
      have hs : s1 = s := Option.some.inj hs
      subst hs
      obtain ⟨ht, hdr⟩ := take_drop_of_drop_eq hd
      have hsplit : x :: y :: r = (x :: y :: r).take k ++ s1 :: back := by
        conv_lhs => rw [← List.take_append_drop k (x :: y :: r), hd]
      have hnd2 : ((x :: y :: r).take k ++ s1 :: back).Nodup := by rw [← hsplit]; exact hnd
      have hnot1 : s1 ∉ (x :: y :: r).take k := by
        intro hm
        exact (List.nodup_append.1 hnd2).2.2 hm (List.mem_cons_self _ _)
      have hnot2 : s1 ∉ back := (List.nodup_cons.1 (List.nodup_append.1 hnd2).2.1).1
      have hfull2 : IsChain h (some x) ((x :: y :: r).take k ++ s1 :: back) := by
        rw [← hsplit]; exact hfull
      obtain ⟨hfront, _⟩ := IsChain_cut hns hfull2 hnot1
      have hkk : ((x :: y :: r).length + 1) / 2 = k + 1 := by simp [hk]; omega
      refine ⟨h.write s1 { ns with next := none }, some x, ns.next, ?_, ?_, ?_, ?_, ?_⟩
      · simp [front_back_split, hn, hy, he, hns]
      · rw [hkk, ht]; exact hfront
      · rw [hkk, hdr]
        refine IsChain_congr (fun a ha => ?_) hback
        exact Heap.write_other _ _ (fun e => hnot2 (e ▸ ha))
      · intro a ha
        refine Heap.write_other _ _ (fun e => ha ?_)
        rw [hsplit, e]; simp
      · exact SameValues_write hns none

/-! ## `sorted_merge` -/

theorem getNext_node {m : MergeMem} {a : Addr} {r : Option Addr} :
    m.getNext (.node a) = some r ↔ ∃ n, m.heap a = some n ∧ n.next = r := by
  simp [MergeMem.getNext]

/-- Writing `tail->next` succeeds when `tail` can be read, and touches only
that link. -/
theorem setNext_spec {m : MergeMem} {t : TailPtr} {v0 : Option Addr} (hg : m.getNext t = some v0)
    (v : Option Addr) :
    ∃ m1, m.setNext t v = some m1 ∧ m1.getNext t = some v ∧
      (∀ x, t ≠ .node x → m1.heap x = m.heap x) ∧ SameValues m1.heap m.heap ∧
      (t ≠ .dummy → m1.dummy_next = m.dummy_next) := by
  cases t with
  | dummy =>
    exact ⟨{ m with dummy_next := v }, rfl, rfl, fun _ _ => rfl, SameValues.refl _,
      fun hne => absurd rfl hne⟩
  | node a =>
    obtain ⟨n, hn, _⟩ := getNext_node.1 hg
    refine ⟨{ m with heap := m.heap.write a { n with next := v } }, ?_, ?_, ?_, ?_, fun _ => rfl⟩
    · simp [MergeMem.setNext, hn]
    · simp [MergeMem.getNext]
    · intro x hx
      exact Heap.write_other _ _ (fun e => hx (by rw [e]))
    · exact SameValues_write hn v

/-- Moving the first node `s` of a chain behind a tail whose link is `NULL`. -/
theorem move_node_spec {m : MergeMem} {tail : TailPtr} {s : Addr} {n : list_ele_t}
    (hn : m.heap s = some n) (hg : m.getNext tail = some none) (hts : tail ≠ .node s) :
    ∃ m2, move_node m tail (some s) = some (m2, n.next) ∧ m2.getNext tail = some (some s) ∧
      m2.getNext (.node s) = some none ∧
      (∀ x, x ≠ s → tail ≠ .node x → m2.heap x = m.heap x) ∧ SameValues m2.heap m.heap ∧
      (tail ≠ .dummy → m2.dummy_next = m.dummy_next) := by
  let m1 : MergeMem := { m with heap := m.heap.write s { n with next := none } }
  have hg1 : m1.getNext tail = some none := by
    cases tail with
    | dummy => exact hg
    | node t =>
      have hne : t ≠ s := fun e => hts (by rw [e])
      simpa [m1, MergeMem.getNext, Heap.write_other _ _ hne] using hg
  obtain ⟨m2, he, hnext, hframe, hsv, hd⟩ := setNext_spec hg1 (some s)
  refine ⟨m2, ?_, hnext, ?_, ?_, ?_, ?_⟩
  · simp only [move_node, hn, hg]
    show (match m1.setNext tail (some s) with
      | none => none
      | some m2 => some (m2, n.next)) = some (m2, n.next)
    rw [he]
  · rw [getNext_node]
    refine ⟨{ n with next := none }, ?_, rfl⟩
    rw [hframe s hts]
    simp [m1]
  · intro x hx htx
    rw [hframe x htx]
    exact Heap.write_other _ _ hx
  · exact hsv.trans (SameValues_write hn none)
  · intro hne
    rw [hd hne]

/-- One step of the merge loop followed by the rest of the loop. -/
theorem merge_lift {m m2 m3 : MergeMem} {tail : TailPtr} {s : Addr} {r : Option Addr}
    {L rest : List Addr} (all : List Addr)
    (htail : ∀ t, tail = .node t → t ∉ all) (hs : s ∈ all) (hrest : ∀ x, x ∈ rest → x ∈ all)
    (h2next : m2.getNext tail = some (some s))
    (h2frame : ∀ x, x ≠ s → tail ≠ .node x → m2.heap x = m.heap x)
    (h2sv : SameValues m2.heap m.heap) (h2d : tail ≠ .dummy → m2.dummy_next = m.dummy_next)
    (h3next : m3.getNext (.node s) = some r) (h3c : IsChain m3.heap r L)
    (h3frame : ∀ x, x ∉ rest → TailPtr.node s ≠ .node x → m3.heap x = m2.heap x)
    (h3sv : SameValues m3.heap m2.heap)
    (h3d : TailPtr.node s ≠ .dummy → m3.dummy_next = m2.dummy_next) :
    m3.getNext tail = some (some s) ∧ IsChain m3.heap (some s) (s :: L) ∧
      (∀ x, x ∉ all → tail ≠ .node x → m3.heap x = m.heap x) ∧ SameValues m3.heap m.heap ∧
      (tail ≠ .dummy → m3.dummy_next = m.dummy_next) := by
  refine ⟨?_, ?_, ?_, h3sv.trans h2sv, ?_⟩
  · cases tail with
    | dummy =>
      have : m3.dummy_next = m2.dummy_next := h3d (by simp)
      simpa [MergeMem.getNext, this] using h2next
    | node t =>
      have ht : t ∉ all := htail t rfl
      have hts : s ≠ t := fun e => ht (e ▸ hs)
      have : m3.heap t = m2.heap t :=
        h3frame t (fun hm => ht (hrest t hm)) (by simpa using hts)
      simpa [MergeMem.getNext, this] using h2next
  · obtain ⟨n3, hn3, hr⟩ := getNext_node.1 h3next
    exact ⟨rfl, n3, hn3, hr ▸ h3c⟩
  · intro x hx htx
    have hxs : x ≠ s := fun e => hx (e ▸ hs)
    rw [h3frame x (fun hm => hx (hrest x hm)) (by simpa using hxs.symm), h2frame x hxs htx]
  · intro hne
    rw [h3d (by simp), h2d hne]

/-- The merge loop links the nodes of the two chains behind `tail` in the
order given by `mergeL`, and touches only the links of these nodes and of
`tail`. -/
theorem sorted_merge_loop_spec (cmp : Text → Text → Int) : ∀ (fuel : Nat) (la lb : List Addr)
    (m : MergeMem) (a b : Option Addr) (tail : TailPtr),
    IsChain m.heap a la → IsChain m.heap b lb → (la ++ lb).Nodup →
    (∀ t, tail = .node t → t ∉ la ++ lb) → m.getNext tail = some none →
    la.length + lb.length < fuel →
    ∃ m1 r, sorted_merge_loop cmp fuel m a b tail = some m1 ∧ m1.getNext tail = some r ∧
      IsChain m1.heap r (mergeL (cmpAt cmp m.heap) la lb) ∧
      (∀ x, x ∉ la ++ lb → tail ≠ .node x → m1.heap x = m.heap x) ∧
      SameValues m1.heap m.heap ∧ (tail ≠ .dummy → m1.dummy_next = m.dummy_next)
  | 0, _, _, _, _, _, _, _, _, _, _, _, hfuel => by simp at hfuel
  | fuel + 1, [], lb, m, a, b, tail, ha, hb, _, htail, hg, _ => by
    rw [IsChain_nil] at ha; subst ha
    obtain ⟨m1, he, hnext, hframe, hsv, hd⟩ := setNext_spec hg b
    refine ⟨m1, b, ?_, hnext, ?_, fun x _ hx => hframe x hx, hsv, hd⟩
    · simp [sorted_merge_loop, he]
    · have : mergeL (cmpAt cmp m.heap) [] lb = lb := by simp [mergeL]
      rw [this]
      refine IsChain_congr (fun x hx => hframe x ?_) hb
      intro e
      exact htail x e (by simpa using hx)
  | fuel + 1, x :: la, [], m, a, b, tail, ha, hb, _, htail, hg, _ => by
    rw [IsChain_nil] at hb; subst hb
    have hax : a = some x := ha.1
    subst hax
    obtain ⟨m1, he, hnext, hframe, hsv, hd⟩ := setNext_spec hg (some x)
    refine ⟨m1, some x, ?_, hnext, ?_, fun x _ hx => hframe x hx, hsv, hd⟩
    · simp [sorted_merge_loop, he]
    · have : mergeL (cmpAt cmp m.heap) (x :: la) [] = x :: la := by simp [mergeL]
      rw [this]
      refine IsChain_congr (fun z hz => hframe z ?_) ha
      intro e
      exact htail z e (by simpa using hz)
  | fuel + 1, x :: la, y :: lb, m, a, b, tail, ha, hb, hnd, htail, hg, hfuel => by
    obtain ⟨hax, nx, hnx, hca⟩ := ha
    obtain ⟨hby, ny, hny, hcb⟩ := hb
    subst hax; subst hby
    have hxy : x ≠ y := by
      intro e
      have := (List.nodup_append.1 hnd).2.2 (List.mem_cons_self x la)
        (e ▸ List.mem_cons_self y lb)
      exact this
    have htx : tail ≠ .node x := fun e => htail x e (by simp)
    have hty : tail ≠ .node y := fun e => htail y e (by simp)
    have hcmp : cmpAt cmp m.heap x y = cmp nx.value ny.value := by
      simp [cmpAt, val_of_eq hnx, val_of_eq hny]
    by_cases hlt : cmp nx.value ny.value < 0
    · -- the node of `a` is moved
      obtain ⟨m2, hmv, h2next, h2s, h2frame, h2sv, h2d⟩ := move_node_spec hnx hg htx
      have hnd1 : (la ++ y :: lb).Nodup := (List.nodup_cons.1 hnd).2
      have hx1 : x ∉ la ++ y :: lb := (List.nodup_cons.1 hnd).1
      have hfr : ∀ z ∈ la ++ y :: lb, m2.heap z = m.heap z := by
        intro z hz
        refine h2frame z (fun e => hx1 (e ▸ hz)) (fun e => htail z e ?_)
        simp at hz ⊢; tauto
      have hca2 : IsChain m2.heap nx.next la :=
        IsChain_congr (fun z hz => hfr z (by simp [hz])) hca
      have hcb2 : IsChain m2.heap (some y) (y :: lb) :=
        IsChain_congr (fun z hz => hfr z (by simp at hz ⊢; tauto)) ⟨rfl, ny, hny, hcb⟩
      obtain ⟨m3, r, he3, h3next, h3c, h3frame, h3sv, h3d⟩ :=
        sorted_merge_loop_spec cmp fuel la (y :: lb) m2 nx.next (some y) (.node x) hca2 hcb2 hnd1
          (fun t ht => by cases ht; exact hx1) h2s (by simp at hfuel ⊢; omega)
      obtain ⟨g1, g2, g3, g4, g5⟩ := merge_lift (x :: la ++ y :: lb) htail (by simp)
        (fun z hz => List.mem_cons_of_mem _ hz) h2next h2frame h2sv h2d h3next h3c h3frame h3sv h3d
      refine ⟨m3, some x, ?_, g1, ?_, g3, g4, g5⟩
      · simp [sorted_merge_loop, hnx, hny, hlt, hmv, h2next, he3]
      · have : mergeL (cmpAt cmp m.heap) (x :: la) (y :: lb)
            = x :: mergeL (cmpAt cmp m2.heap) la (y :: lb) := by
          rw [h2sv.cmpAt_eq cmp]
          simp [mergeL, hcmp, hlt]
        rw [this]; exact g2
    · -- the node of `b` is moved
      obtain ⟨m2, hmv, h2next, h2s, h2frame, h2sv, h2d⟩ := move_node_spec hny hg hty
      have hnd0 : (x :: la ++ y :: lb).Nodup := hnd
      have hperm : (y :: (x :: la ++ lb)).Perm (x :: la ++ y :: lb) :=
        (@List.perm_middle _ y (x :: la) lb).symm
      have hnd1 : ((x :: la) ++ lb).Nodup := (List.nodup_cons.1 (hperm.nodup_iff.2 hnd0)).2
      have hy1 : y ∉ (x :: la) ++ lb := (List.nodup_cons.1 (hperm.nodup_iff.2 hnd0)).1
      have hfr : ∀ z ∈ (x :: la) ++ lb, m2.heap z = m.heap z := by
        intro z hz
        refine h2frame z (fun e => hy1 (e ▸ hz)) (fun e => htail z e ?_)
        simp at hz ⊢; tauto
      have hca2 : IsChain m2.heap (some x) (x :: la) :=
        IsChain_congr (fun z hz => hfr z (by simp at hz ⊢; tauto)) ⟨rfl, nx, hnx, hca⟩
      have hcb2 : IsChain m2.heap ny.next lb :=
        IsChain_congr (fun z hz => hfr z (by simp [hz])) hcb
      obtain ⟨m3, r, he3, h3next, h3c, h3frame, h3sv, h3d⟩ :=
        sorted_merge_loop_spec cmp fuel (x :: la) lb m2 (some x) ny.next (.node y) hca2 hcb2 hnd1
          (fun t ht => by cases ht; exact hy1) h2s (by simp at hfuel ⊢; omega)
      obtain ⟨g1, g2, g3, g4, g5⟩ := merge_lift (x :: la ++ y :: lb) htail (by simp)
        (fun z hz => by simp at hz ⊢; tauto) h2next h2frame h2sv h2d h3next h3c h3frame h3sv h3d
      refine ⟨m3, some y, ?_, g1, ?_, g3, g4, g5⟩
      · simp [sorted_merge_loop, hnx, hny, hlt, hmv, h2next, he3]
      · have : mergeL (cmpAt cmp m.heap) (x :: la) (y :: lb)
            = y :: mergeL (cmpAt cmp m2.heap) (x :: la) lb := by
          rw [h2sv.cmpAt_eq cmp]
          simp [mergeL, hcmp, hlt]
        rw [this]; exact g2

/-- `sorted_merge` on two disjoint chains yields the chain `mergeL`, touching
only the links of their nodes. -/
theorem sorted_merge_spec (cmp : Text → Text → Int) (fuel : Nat) (h : Heap) (la lb : List Addr)
    (a b : Option Addr) (ha : IsChain h a la) (hb : IsChain h b lb) (hnd : (la ++ lb).Nodup)
    (hfuel : la.length + lb.length < fuel) :
    ∃ h1 r, sorted_merge cmp fuel h a b = some (h1, r) ∧
      IsChain h1 r (mergeL (cmpAt cmp h) la lb) ∧
      (∀ x, x ∉ la ++ lb → h1 x = h x) ∧ SameValues h1 h := by
  obtain ⟨m1, r, he, hnext, hc, hframe, hsv, _⟩ :=
    sorted_merge_loop_spec cmp fuel la lb { heap := h, dummy_next := none } a b .dummy ha hb hnd
      (fun t ht => by cases ht) rfl hfuel
  refine ⟨m1.heap, r, ?_, hc, fun x hx => hframe x hx (by simp), hsv⟩
  have hr : m1.dummy_next = r := by simpa [MergeMem.getNext] using hnext
  simp [sorted_merge, he, hr]

/-! ## The sort on sequences -/

theorem mergeL_nil_left {α : Type} (cmp : α → α → Int) (b : List α) : mergeL cmp [] b = b := by
  simp [mergeL]

theorem mergeL_nil_right {α : Type} (cmp : α → α → Int) (a : List α) : mergeL cmp a [] = a := by
  cases a <;> simp [mergeL]

theorem mergeL_cons_cons {α : Type} (cmp : α → α → Int) (x y : α) (a b : List α) :
    mergeL cmp (x :: a) (y :: b) =
      if cmp x y < 0 then x :: mergeL cmp a (y :: b) else y :: mergeL cmp (x :: a) b := by
  simp [mergeL]

theorem msortL_eq {α : Type} (cmp : α → α → Int) (l : List α) :
    msortL cmp l = if l.length < 2 then l
      else mergeL cmp (msortL cmp (l.take ((l.length + 1) / 2)))
        (msortL cmp (l.drop ((l.length + 1) / 2))) := by
  rw [msortL]

theorem msortL_short {α : Type} (cmp : α → α → Int) {l : List α} (hl : l.length < 2) :
    msortL cmp l = l := by
  rw [msortL_eq, if_pos hl]

theorem msortL_long {α : Type} (cmp : α → α → Int) {l : List α} (hl : ¬ l.length < 2) :
    msortL cmp l = mergeL cmp (msortL cmp (l.take ((l.length + 1) / 2)))
        (msortL cmp (l.drop ((l.length + 1) / 2))) := by
  rw [msortL_eq, if_neg hl]

/-- The merge is a permutation of its two inputs. -/
theorem mergeL_perm {α : Type} (cmp : α → α → Int) : ∀ (a b : List α),
    (mergeL cmp a b).Perm (a ++ b)
  | [], b => by rw [mergeL_nil_left]; exact List.Perm.refl _
  | x :: a, [] => by rw [mergeL_nil_right]; simp
  | x :: a, y :: b => by
    rw [mergeL_cons_cons]
    split
    · exact (mergeL_perm cmp a (y :: b)).cons x
    · exact ((mergeL_perm cmp (x :: a) b).cons y).trans
        (@List.perm_middle _ y (x :: a) b).symm

/-- The sort is a permutation of its input. -/
theorem msortL_perm {α : Type} (cmp : α → α → Int) : ∀ (n : Nat) (l : List α), l.length ≤ n →
    (msortL cmp l).Perm l
  | 0, l, hl => by rw [msortL_short cmp (by omega)]
  | n + 1, l, hl => by
    by_cases h2 : l.length < 2
    · rw [msortL_short cmp h2]
    · rw [msortL_long cmp h2]
      have h1 := msortL_perm cmp n (l.take ((l.length + 1) / 2)) (by simp; omega)
      have h3 := msortL_perm cmp n (l.drop ((l.length + 1) / 2)) (by simp; omega)
      exact ((mergeL_perm cmp _ _).trans (h1.append h3)).trans
        (by rw [List.take_append_drop])

/-! ## `merge_sort` -/

/-- `merge_sort` relinks a chain in the order given by `msortL`, touching
only the links of its nodes. -/
theorem merge_sort_spec (cmp : Text → Text → Int) : ∀ (fuel : Nat) (l : List Addr) (h : Heap)
    (p : Option Addr), IsChain h p l → l.length + 2 ≤ fuel →
    ∃ h1 r, merge_sort cmp fuel h p = some (h1, r) ∧
      IsChain h1 r (msortL (cmpAt cmp h) l) ∧
      (∀ x, x ∉ l → h1 x = h x) ∧ SameValues h1 h
  | 0, _, _, _, _, hfuel => by omega
  | fuel + 1, [], h, p, hc, _ => by
    rw [IsChain_nil] at hc; subst hc
    exact ⟨h, none, rfl, by rw [msortL_short _ (by simp)]; rfl, fun _ _ => rfl, SameValues.refl h⟩
  | fuel + 1, [x], h, p, ⟨hp, n, hn, hc⟩, _ => by
    subst hp
    rw [IsChain_nil] at hc
    refine ⟨h, some x, ?_, ?_, fun _ _ => rfl, SameValues.refl h⟩
    · simp [merge_sort, hn, hc]
    · rw [msortL_short _ (by simp)]
      exact ⟨rfl, n, hn, hc⟩
  | fuel + 1, x :: y :: t, h, p, hc, hfuel => by
    have hnd := IsChain_nodup hc
    obtain ⟨hp, n, hn, hc1⟩ := id hc
    subst hp
    have hy : n.next = some y := hc1.1
    set l := x :: y :: t with hl
    have hlen : l.length = t.length + 2 := by simp [hl]
    set k := (l.length + 1) / 2 with hk
    obtain ⟨h1, a, b, he1, hfa, hfb, hframe1, hsv1⟩ :=
      front_back_split_spec h fuel l (some x) hc (by omega)
    have htd : l.take k ++ l.drop k = l := List.take_append_drop k l
    have hnd1 : (l.take k ++ l.drop k).Nodup := by rw [htd]; exact hnd
    have hdisj := (List.nodup_append.1 hnd1).2.2
    -- sort the front half
    obtain ⟨h2, a1, he2, hsa, hframe2, hsv2⟩ :=
      merge_sort_spec cmp fuel (l.take k) h1 a hfa (by simp; omega)
    have hfb2 : IsChain h2 b (l.drop k) :=
      IsChain_congr (fun z hz => hframe2 z (fun hm => hdisj hm hz)) hfb
    -- sort the back half
    obtain ⟨h3, b1, he3, hsb, hframe3, hsv3⟩ :=
      merge_sort_spec cmp fuel (l.drop k) h2 b hfb2 (by simp; omega)
    have hpa := msortL_perm (cmpAt cmp h1) _ (l.take k) le_rfl
    have hpb := msortL_perm (cmpAt cmp h2) _ (l.drop k) le_rfl
    have hsa3 : IsChain h3 a1 (msortL (cmpAt cmp h1) (l.take k)) :=
      IsChain_congr (fun z hz => hframe3 z (fun hm => hdisj (hpa.mem_iff.1 hz) hm)) hsa
    have hnd3 : (msortL (cmpAt cmp h1) (l.take k) ++ msortL (cmpAt cmp h2) (l.drop k)).Nodup :=
      ((hpa.append hpb).nodup_iff).2 hnd1
    obtain ⟨h4, r, he4, hm, hframe4, hsv4⟩ :=
      sorted_merge_spec cmp fuel h3 _ _ a1 b1 hsa3 hsb hnd3 (by
        rw [hpa.length_eq, hpb.length_eq, ← List.length_append, htd]; omega)
    have e1 : cmpAt cmp h1 = cmpAt cmp h := hsv1.cmpAt_eq cmp
    have e2 : cmpAt cmp h2 = cmpAt cmp h := (hsv2.trans hsv1).cmpAt_eq cmp
    have e3 : cmpAt cmp h3 = cmpAt cmp h := ((hsv3.trans hsv2).trans hsv1).cmpAt_eq cmp
    rw [e1] at hpa; rw [e2] at hpb
    rw [e1, e2, e3] at hm
    refine ⟨h4, r, ?_, ?_, ?_, ((hsv4.trans hsv3).trans hsv2).trans hsv1⟩
    · simp [merge_sort, hn, hy, he1, he2, he3, he4]
    · rw [msortL_long _ (by omega)]
      exact hm
    · intro z hz
      have hz1 : z ∉ l.take k := fun hm => hz (List.mem_of_mem_take hm)
      have hz2 : z ∉ l.drop k := fun hm => hz (List.mem_of_mem_drop hm)
      rw [hframe4 z, hframe3 z hz2, hframe2 z hz1, hframe1 z hz]
      intro hm
      rw [e1, e2] at hm
      rcases List.mem_append.1 hm with hm | hm
      · exact hz1 (hpa.mem_iff.1 hm)
      · exact hz2 (hpb.mem_iff.1 hm)

/-! ## Well-formed queues -/

theorem IsChain_head {h : Heap} {l : List Addr} {p : Option Addr} (hc : IsChain h p l) :
    p = l.head? := by
  cases l with
  | nil => exact hc
  | cons a as => exact hc.1

/-- A queue is well formed exactly when some chain from its head reaches
`NULL`, has `size` nodes and ends at its tail, and the count is a value of
type `int`. -/
theorem WellFormed_iff {h : Heap} {q : queue_t} :
    WellFormed h q ↔
      ∃ ns, IsChain h q.head ns ∧ (ns.length : Int) = q.size ∧ ns.getLast? = q.tail ∧
        q.size ≤ INT_MAX := by
  constructor
  · rintro ⟨h0, hmax, h1, h2, h3⟩
    by_cases hs : q.size = 0
    · have hh : q.head = none := h1.1 hs
      exact ⟨[], hh, by simp [hs], by simp [h2.1 hh], hmax⟩
    · obtain ⟨ns, hc, _, hl, ht, _⟩ := h3 (by omega)
      exact ⟨ns, hc, hl, ht, hmax⟩
  · rintro ⟨ns, hc, hl, ht, hmax⟩
    have hhead := IsChain_head hc
    refine ⟨by omega, hmax, ?_, ?_, ?_⟩
    · rw [← hl, hhead]
      cases ns with
      | nil => simp
      | cons a as => simp; omega
    · rw [← ht, hhead]
      cases ns <;> simp
    · intro _
      exact ⟨ns, hc, IsChain_nodup hc, hl, ht, fun t htt => IsChain_last hc t (ht.trans htt)⟩

/-- The chain of a well-formed queue. -/
theorem WellFormed.chain {h : Heap} {q : queue_t} (hwf : WellFormed h q) :
    ∃ ns, IsChain h q.head ns ∧ (ns.length : Int) = q.size ∧ ns.getLast? = q.tail := by
  obtain ⟨ns, hc, hl, ht, _⟩ := WellFormed_iff.1 hwf
  exact ⟨ns, hc, hl, ht⟩

/-- The count of a well-formed queue is a value of type `int`. -/
theorem WellFormed.range {h : Heap} {q : queue_t} (hwf : WellFormed h q) : q.size ≤ INT_MAX :=
  hwf.2.1

/-- What `int_wrap` stores is a value of type `int`. -/
theorem int_wrap_range (x : Int) : -2147483648 ≤ int_wrap x ∧ int_wrap x ≤ INT_MAX := by
  unfold int_wrap INT_MAX
  omega

theorem int_wrap_of_range {x : Int} (h0 : -2147483648 ≤ x) (h1 : x ≤ 2147483647) :
    int_wrap x = x := by
  unfold int_wrap
  omega

/-! ## `q_sort` -/

/-- The walk of `q_sort` stops at the last node of the chain. -/
theorem q_sort_tail_loop_spec (h : Heap) : ∀ (fuel : Nat) (l : List Addr) (t : Addr),
    IsChain h (some t) l → l.length ≤ fuel → q_sort_tail_loop fuel h t = l.getLast?
  | _, [], _, hc, _ => absurd hc (by simp [IsChain])
  | 0, _ :: _, _, _, hfuel => by simp at hfuel
  | fuel + 1, [a], t, ⟨hp, n, hn, hc⟩, _ => by
    have : t = a := Option.some.inj hp
    subst this
    rw [IsChain_nil] at hc
    simp [q_sort_tail_loop, hn, hc]
  | fuel + 1, a :: b :: l, t, ⟨hp, n, hn, hc⟩, hfuel => by
    have : t = a := Option.some.inj hp
    subst this
    have hb : n.next = some b := hc.1
    rw [hb] at hc
    have ih := q_sort_tail_loop_spec h fuel (b :: l) b hc (by simp at hfuel ⊢; omega)
    rw [List.getLast?_cons_cons]
    simp [q_sort_tail_loop, hn, hb, ih]

/-- `q_sort` relinks the chain of the queue in the order given by `msortL`
and sets the tail to the last node; the count is untouched. -/
theorem q_sort_spec (cmp : Text → Text → Int) (fuel : Nat) (h : Heap) (q : queue_t)
    (ns : List Addr) (hc : IsChain h q.head ns) (ht : ns.getLast? = q.tail)
    (hfuel : ns.length + 2 ≤ fuel) :
    ∃ h1 q1, q_sort cmp fuel h (some q) = some (h1, some q1) ∧
      IsChain h1 q1.head (msortL (cmpAt cmp h) ns) ∧
      q1.tail = (msortL (cmpAt cmp h) ns).getLast? ∧ q1.size = q.size ∧
      (∀ x, x ∉ ns → h1 x = h x) ∧ SameValues h1 h := by
  cases ns with
  | nil =>
    have hh : q.head = none := hc
    refine ⟨h, q, ?_, ?_, ?_, rfl, fun _ _ => rfl, SameValues.refl h⟩
    · simp [q_sort, hh]
    · rw [msortL_short _ (by simp)]; exact hc
    · rw [msortL_short _ (by simp)]; simpa using ht.symm
  | cons a as =>
    have hh : q.head = some a := hc.1
    obtain ⟨h1, r, he, hs, hframe, hsv⟩ := merge_sort_spec cmp fuel (a :: as) h q.head hc hfuel
    have hperm := msortL_perm (cmpAt cmp h) _ (a :: as) le_rfl
    cases hm : msortL (cmpAt cmp h) (a :: as) with
    | nil => rw [hm] at hperm; simpa using hperm.length_eq
    | cons b bs =>
      rw [hm] at hs
      have hr : r = some b := hs.1
      subst hr
      have hl := q_sort_tail_loop_spec h1 fuel (b :: bs) b hs (by
        rw [← hm, hperm.length_eq]; omega)
      have hlast : ∃ t, (b :: bs).getLast? = some t := by
        cases hx : (b :: bs).getLast? with
        | none => simp at hx
        | some t => exact ⟨t, rfl⟩
      obtain ⟨t, hlt⟩ := hlast
      rw [hlt] at hl
      refine ⟨h1, { q with head := some b, tail := some t }, ?_, hs, hlt.symm, rfl, hframe, hsv⟩
      rw [hh] at he
      simp [q_sort, hh, he, hl]

/-! ## `q_reverse` -/

/-- The loop of `q_reverse` turns every link of the chain `ln` backwards: in
any heap that agrees with the result on `ln`, the chain from the final `cur`
is `ln` reversed followed by the chain from the initial `cur`. -/
theorem q_reverse_loop_spec : ∀ (fuel : Nat) (ln : List Addr) (h : Heap) (cur : Addr)
    (next : Option Addr), IsChain h next ln → ln.length ≤ fuel →
    ∃ h1 c1, q_reverse_loop fuel h cur next = some (h1, c1) ∧
      (cur :: ln).getLast? = some c1 ∧
      (∀ x, x ∉ ln → h1 x = h x) ∧ SameValues h1 h ∧
      (∀ (k : Heap) (lc : List Addr), (∀ x ∈ ln, k x = h1 x) → IsChain k (some cur) lc →
        IsChain k (some c1) (ln.reverse ++ lc))
  | fuel, [], h, cur, next, hc, _ => by
    rw [IsChain_nil] at hc; subst hc
    refine ⟨h, cur, ?_, rfl, fun _ _ => rfl, SameValues.refl h, fun k lc _ hk => by simpa using hk⟩
    cases fuel <;> rfl
  | 0, _ :: _, _, _, _, _, hfuel => by simp at hfuel
  | fuel + 1, x :: rest, h, cur, next, hc, hfuel => by
    have hnd := IsChain_nodup hc
    obtain ⟨hp, n, hn, hc1⟩ := hc
    subst hp
    have hx : x ∉ rest := (List.nodup_cons.1 hnd).1
    have hc2 : IsChain (h.write x { n with next := some cur }) n.next rest :=
      IsChain_congr (fun z hz => Heap.write_other _ _ (fun e => hx (e ▸ hz))) hc1
    obtain ⟨h1, c1, he, hlast, hframe, hsv, hk⟩ :=
      q_reverse_loop_spec fuel rest _ x n.next hc2 (by simp at hfuel ⊢; omega)
    refine ⟨h1, c1, ?_, ?_, ?_, hsv.trans (SameValues_write hn _), ?_⟩
    · simp [q_reverse_loop, hn, he]
    · rw [List.getLast?_cons_cons]; exact hlast
    · intro z hz
      have hz1 : z ∉ rest := fun hm => hz (List.mem_cons_of_mem _ hm)
      have hz2 : z ≠ x := fun e => hz (e ▸ List.mem_cons_self _ _)
      rw [hframe z hz1, Heap.write_other _ _ hz2]
    · intro k lc hag hcur
      have hkx : k x = some { n with next := some cur } := by
        rw [hag x (List.mem_cons_self _ _), hframe x hx, Heap.write_same]
      have := hk k (x :: lc) (fun z hz => hag z (List.mem_cons_of_mem _ hz)) ⟨rfl, _, hkx, hcur⟩
      simpa using this

/-- `q_reverse` relinks the chain of the queue in reverse order and swaps the
head and the tail; the count is untouched. -/
theorem q_reverse_spec (fuel : Nat) (h : Heap) (q : queue_t) (ns : List Addr)
    (hc : IsChain h q.head ns) (hl : (ns.length : Int) = q.size) (ht : ns.getLast? = q.tail)
    (hfuel : ns.length ≤ fuel + 1) :
    ∃ h1 q1, q_reverse fuel h (some q) = some (h1, some q1) ∧
      IsChain h1 q1.head ns.reverse ∧ q1.head = q.tail ∧ q1.tail = q.head ∧
      q1.size = q.size ∧ (∀ x, x ∉ ns → h1 x = h x) ∧ SameValues h1 h := by
  cases ns with
  | nil =>
    have hh : q.head = none := hc
    have hs : q.size = 0 := by simpa using hl.symm
    refine ⟨h, q, ?_, ?_, ?_, ?_, rfl, fun _ _ => rfl, SameValues.refl h⟩
    · simp [q_reverse, hs]
    · simpa using hc
    · rw [hh, ← ht]; rfl
    · rw [hh, ← ht]; rfl
  | cons a as =>
    have hnd := IsChain_nodup hc
    obtain ⟨hh, n, hn, hc1⟩ := hc
    have ha : a ∉ as := (List.nodup_cons.1 hnd).1
    have hs : q.size ≠ 0 := by simp at hl; omega
    obtain ⟨h1, c1, he, hlast, hframe, hsv, hk⟩ :=
      q_reverse_loop_spec fuel as h a n.next hc1 (by simp at hfuel; omega)
    have h1a : h1 a = some n := by rw [hframe a ha]; exact hn
    refine ⟨h1.write a { n with next := none }, { q with tail := some a, head := some c1 },
      ?_, ?_, ?_, ?_, rfl, ?_, (SameValues_write h1a none).trans hsv⟩
    · simp [q_reverse, hs, hh, hn, he, h1a]
    · have := hk (h1.write a { n with next := none }) [a]
        (fun z hz => Heap.write_other _ _ (fun e => ha (e ▸ hz)))
        ⟨rfl, _, Heap.write_same _ _ _, rfl⟩
      simpa using this
    · show some c1 = q.tail
      rw [← ht, hlast]
    · exact hh.symm
    · intro z hz
      have hz1 : z ∉ as := fun hm => hz (List.mem_cons_of_mem _ hm)
      have hz2 : z ≠ a := fun e => hz (e ▸ List.mem_cons_self _ _)
      rw [Heap.write_other _ _ hz2, hframe z hz1]

/-! ## Order properties of the sort on sequences -/

theorem TotalPreorder.le_of_not_lt {α : Type} {cmp : α → α → Int} (hcmp : TotalPreorder cmp)
    {x y : α} (hxy : ¬ cmp x y < 0) : cmp y x ≤ 0 := by
  by_contra hc
  exact hxy ((hcmp.antisymm x y).2 (by omega))

theorem TotalPreorder.lt_of_lt_of_le {α : Type} {cmp : α → α → Int} (hcmp : TotalPreorder cmp)
    {x y z : α} (hxy : cmp x y < 0) (hyz : cmp y z ≤ 0) : cmp x z < 0 := by
  by_contra hc
  have hzx : cmp z x ≤ 0 := hcmp.le_of_not_lt hc
  have hyx : cmp y x ≤ 0 := hcmp.trans y z x hyz hzx
  have := (hcmp.antisymm x y).1 hxy
  omega

theorem TotalPreorder.lt_trans {α : Type} {cmp : α → α → Int} (hcmp : TotalPreorder cmp)
    {x y z : α} (hxy : cmp x y < 0) (hyz : cmp y z < 0) : cmp x z < 0 :=
  hcmp.lt_of_lt_of_le hxy (by omega)

theorem TotalPreorder.cmpAt {cmp : Text → Text → Int} (hcmp : TotalPreorder cmp) (h : Heap) :
    TotalPreorder (cmpAt cmp h) :=
  ⟨fun _ _ => hcmp.antisymm _ _, fun _ _ _ => hcmp.trans _ _ _⟩

/-- A comparator that subtracts integer keys is a total preorder. -/
theorem TotalPreorder_of_key {α : Type} (key : α → Int) :
    TotalPreorder (fun x y => key x - key y) :=
  ⟨fun x y => by constructor <;> intro h <;> omega, fun x y z h1 h2 => by omega⟩

theorem firstByteCaseCmp_totalPreorder : TotalPreorder firstByteCaseCmp :=
  TotalPreorder_of_key fun (x : Text) => ((x.headD 0 % 32 : Nat) : Int)

/-- Merging two ascending sequences gives an ascending sequence. -/
theorem mergeL_sorted {α : Type} {cmp : α → α → Int} (hcmp : TotalPreorder cmp) :
    ∀ (a b : List α), a.Pairwise (fun x y => cmp x y ≤ 0) → b.Pairwise (fun x y => cmp x y ≤ 0) →
      (mergeL cmp a b).Pairwise (fun x y => cmp x y ≤ 0)
  | [], b, _, hb => by rw [mergeL_nil_left]; exact hb
  | x :: a, [], ha, _ => by rw [mergeL_nil_right]; exact ha
  | x :: a, y :: b, ha, hb => by
    rw [mergeL_cons_cons]
    have hxa := List.pairwise_cons.1 ha
    have hyb := List.pairwise_cons.1 hb
    split
    · rename_i hlt
      refine List.pairwise_cons.2 ⟨fun z hz => ?_, mergeL_sorted hcmp a (y :: b) hxa.2 hb⟩
      rcases List.mem_append.1 ((mergeL_perm cmp a (y :: b)).mem_iff.1 hz) with hz | hz
      · exact hxa.1 z hz
      · rcases List.mem_cons.1 hz with rfl | hz
        · omega
        · exact hcmp.trans x y z (by omega) (hyb.1 z hz)
    · rename_i hlt
      have hyx : cmp y x ≤ 0 := hcmp.le_of_not_lt hlt
      refine List.pairwise_cons.2 ⟨fun z hz => ?_, mergeL_sorted hcmp (x :: a) b ha hyb.2⟩
      rcases List.mem_append.1 ((mergeL_perm cmp (x :: a) b).mem_iff.1 hz) with hz | hz
      · rcases List.mem_cons.1 hz with rfl | hz
        · exact hyx
        · exact hcmp.trans y x z hyx (hxa.1 z hz)
      · exact hyb.1 z hz

/-- The sort gives an ascending sequence. -/
theorem msortL_sorted {α : Type} {cmp : α → α → Int} (hcmp : TotalPreorder cmp) :
    ∀ (n : Nat) (l : List α), l.length ≤ n → (msortL cmp l).Pairwise (fun x y => cmp x y ≤ 0)
  | 0, l, hl => by
    have : l = [] := List.length_eq_zero.1 (by omega)
    subst this
    rw [msortL_short cmp (by simp)]
    exact List.Pairwise.nil
  | n + 1, l, hl => by
    by_cases h2 : l.length < 2
    · rw [msortL_short cmp h2]
      match l, h2 with
      | [], _ => exact List.Pairwise.nil
      | [x], _ => exact List.pairwise_singleton _ _
      | _ :: _ :: _, h2 => exact absurd h2 (by simp)
    · rw [msortL_long cmp h2]
      exact mergeL_sorted hcmp _ _
        (msortL_sorted hcmp n _ (by simp; omega)) (msortL_sorted hcmp n _ (by simp; omega))

/-- When every element of the left sequence is strictly less than every
element of the right one, the merge is the concatenation. -/
theorem mergeL_of_lt {α : Type} (cmp : α → α → Int) : ∀ (a b : List α),
    (∀ u ∈ a, ∀ v ∈ b, cmp u v < 0) → mergeL cmp a b = a ++ b
  | [], b, _ => by rw [mergeL_nil_left]; rfl
  | x :: a, [], _ => by rw [mergeL_nil_right]; simp
  | x :: a, y :: b, hlt => by
    rw [mergeL_cons_cons, if_pos (hlt x (List.mem_cons_self _ _) y (List.mem_cons_self _ _)),
      mergeL_of_lt cmp a (y :: b) (fun u hu v hv => hlt u (List.mem_cons_of_mem _ hu) v hv)]
    rfl

/-- The sort leaves a strictly ascending sequence as it is. -/
theorem msortL_of_strict {α : Type} (cmp : α → α → Int) : ∀ (n : Nat) (l : List α), l.length ≤ n →
    l.Pairwise (fun x y => cmp x y < 0) → msortL cmp l = l
  | 0, l, hl, _ => msortL_short cmp (by omega)
  | n + 1, l, hl, hp => by
    by_cases h2 : l.length < 2
    · exact msortL_short cmp h2
    · rw [msortL_long cmp h2]
      have hp1 : (l.take ((l.length + 1) / 2) ++ l.drop ((l.length + 1) / 2)).Pairwise
          (fun x y => cmp x y < 0) := by rw [List.take_append_drop]; exact hp
      obtain ⟨ht, hd, hcross⟩ := List.pairwise_append.1 hp1
      rw [msortL_of_strict cmp n _ (by simp; omega) ht,
        msortL_of_strict cmp n _ (by simp; omega) hd, mergeL_of_lt cmp _ _ hcross,
        List.take_append_drop]

/-! ## Ties -/

theorem TieRev.le {α : Type} {cmp : α → α → Int} {l0 : List α} {u v : α}
    (h : TieRev cmp l0 u v) : cmp u v ≤ 0 := by
  rcases h with h | ⟨h, _⟩ <;> omega

theorem pair_sublist_append {α : Type} {l1 l2 : List α} {u v : α} (hu : u ∈ l1) (hv : v ∈ l2) :
    List.Sublist [u, v] (l1 ++ l2) :=
  List.Sublist.append (List.singleton_sublist.2 hu) (List.singleton_sublist.2 hv)

theorem pair_sublist_or {α : Type} {x y : α} : ∀ {l : List α}, x ∈ l → y ∈ l → x ≠ y →
    List.Sublist [x, y] l ∨ List.Sublist [y, x] l
  | [], hx, _, _ => by simp at hx
  | a :: l, hx, hy, hne => by
    rcases List.mem_cons.1 hx with rfl | hx1
    · rcases List.mem_cons.1 hy with rfl | hy1
      · exact absurd rfl hne
      · exact Or.inl (List.Sublist.cons₂ _ (List.singleton_sublist.2 hy1))
    · rcases List.mem_cons.1 hy with rfl | hy1
      · exact Or.inr (List.Sublist.cons₂ _ (List.singleton_sublist.2 hx1))
      · rcases pair_sublist_or hx1 hy1 hne with h | h
        · exact Or.inl (List.Sublist.cons _ h)
        · exact Or.inr (List.Sublist.cons _ h)

theorem pair_sublist_asymm {α : Type} {x y : α} : ∀ {l : List α}, l.Nodup →
    List.Sublist [x, y] l → ¬ List.Sublist [y, x] l
  | [], _, hxy, _ => by simp at hxy
  | a :: l, hnd, hxy, hyx => by
    have ha : a ∉ l := (List.nodup_cons.1 hnd).1
    have hnd1 : l.Nodup := (List.nodup_cons.1 hnd).2
    cases hxy with
    | cons _ h1 =>
      cases hyx with
      | cons _ h2 => exact pair_sublist_asymm hnd1 h1 h2
      | cons₂ _ h2 => exact ha (h1.subset (by simp))
    | cons₂ _ h1 =>
      cases hyx with
      | cons _ h2 => exact ha (h2.subset (by simp))
      | cons₂ _ h2 => exact ha (List.singleton_sublist.1 h1)

/-- The merge puts equal elements of the right sequence before those of the
left one. -/
theorem mergeL_tieRev {α : Type} {cmp : α → α → Int} (hcmp : TotalPreorder cmp) (l0 : List α) :
    ∀ (a b : List α), (∀ u ∈ a, ∀ v ∈ b, List.Sublist [u, v] l0) →
      a.Pairwise (TieRev cmp l0) → b.Pairwise (TieRev cmp l0) →
      (mergeL cmp a b).Pairwise (TieRev cmp l0)
  | [], b, _, _, hb => by rw [mergeL_nil_left]; exact hb
  | x :: a, [], _, ha, _ => by rw [mergeL_nil_right]; exact ha
  | x :: a, y :: b, hab, ha, hb => by
    rw [mergeL_cons_cons]
    have hxa := List.pairwise_cons.1 ha
    have hyb := List.pairwise_cons.1 hb
    split
    · rename_i hlt
      refine List.pairwise_cons.2 ⟨fun z hz => ?_, mergeL_tieRev hcmp l0 a (y :: b)
        (fun u hu v hv => hab u (List.mem_cons_of_mem _ hu) v hv) hxa.2 hb⟩
      rcases List.mem_append.1 ((mergeL_perm cmp a (y :: b)).mem_iff.1 hz) with hz | hz
      · exact hxa.1 z hz
      · rcases List.mem_cons.1 hz with rfl | hz
        · exact Or.inl hlt
        · exact Or.inl (hcmp.lt_of_lt_of_le hlt (hyb.1 z hz).le)
    · rename_i hlt
      have hyx : cmp y x ≤ 0 := hcmp.le_of_not_lt hlt
      refine List.pairwise_cons.2 ⟨fun z hz => ?_, mergeL_tieRev hcmp l0 (x :: a) b
        (fun u hu v hv => hab u hu v (List.mem_cons_of_mem _ hv)) ha hyb.2⟩
      rcases List.mem_append.1 ((mergeL_perm cmp (x :: a) b).mem_iff.1 hz) with hz | hz
      · have hyz : cmp y z ≤ 0 := by
          rcases List.mem_cons.1 hz with rfl | hz1
          · exact hyx
          · exact hcmp.trans y x z hyx (hxa.1 z hz1).le
        have hsub : List.Sublist [z, y] l0 := hab z hz y (List.mem_cons_self _ _)
        by_cases h0 : cmp y z < 0
        · exact Or.inl h0
        · exact Or.inr ⟨by omega, hsub⟩
      · exact hyb.1 z hz

/-- In the result of the sort, elements that compare equal stand in the
reverse of their original order. -/
theorem msortL_tieRev {α : Type} {cmp : α → α → Int} (hcmp : TotalPreorder cmp) (l0 : List α) :
    ∀ (n : Nat) (l : List α), l.length ≤ n → List.Sublist l l0 →
      (msortL cmp l).Pairwise (TieRev cmp l0)
  | 0, l, hl, _ => by
    have : l = [] := List.length_eq_zero.1 (by omega)
    subst this
    rw [msortL_short cmp (by simp)]
    exact List.Pairwise.nil
  | n + 1, l, hl, hsub => by
    by_cases h2 : l.length < 2
    · rw [msortL_short cmp h2]
      match l, h2 with
      | [], _ => exact List.Pairwise.nil
      | [x], _ => exact List.pairwise_singleton _ _
      | _ :: _ :: _, h2 => exact absurd h2 (by simp)
    · rw [msortL_long cmp h2]
      set k := (l.length + 1) / 2
      have ht : List.Sublist (l.take k) l0 := (List.take_sublist k l).trans hsub
      have hd : List.Sublist (l.drop k) l0 := (List.drop_sublist k l).trans hsub
      refine mergeL_tieRev hcmp l0 _ _ (fun u hu v hv => ?_)
        (msortL_tieRev hcmp l0 n _ (by simp; omega) ht)
        (msortL_tieRev hcmp l0 n _ (by simp; omega) hd)
      have hu1 : u ∈ l.take k := (msortL_perm cmp _ _ le_rfl).mem_iff.1 hu
      have hv1 : v ∈ l.drop k := (msortL_perm cmp _ _ le_rfl).mem_iff.1 hv
      have := pair_sublist_append hu1 hv1
      rw [List.take_append_drop] at this
      exact this.trans hsub

/-- Two different elements that compare equal are swapped by the sort. -/
theorem msortL_ties_reversed {α : Type} {cmp : α → α → Int} (hcmp : TotalPreorder cmp)
    {l : List α} (hnd : l.Nodup) {x y : α} (hxy : List.Sublist [x, y] l) (h0 : cmp x y = 0) :
    List.Sublist [y, x] (msortL cmp l) := by
  have hne : x ≠ y := by
    have := hxy.nodup hnd
    simpa using this
  have hperm := msortL_perm cmp _ l le_rfl
  have hx : x ∈ msortL cmp l := hperm.mem_iff.2 (hxy.subset (by simp))
  have hy : y ∈ msortL cmp l := hperm.mem_iff.2 (hxy.subset (by simp))
  rcases pair_sublist_or hx hy hne with h | h
  · exfalso
    have hp := (msortL_tieRev hcmp l _ l le_rfl (List.Sublist.refl l)).sublist h
    have hxy2 : TieRev cmp l x y := (List.pairwise_cons.1 hp).1 y (by simp)
    rcases hxy2 with h1 | ⟨_, h1⟩
    · omega
    · exact pair_sublist_asymm hnd hxy h1
  · exact h

/-! ## Example queues -/

theorem exHeap_chain : IsChain exHeap (some 1) [1, 2, 3] :=
  ⟨rfl, _, rfl, rfl, _, rfl, rfl, _, rfl, rfl⟩

theorem exQueue_wellFormed : WellFormed exHeap exQueue :=
  WellFormed_iff.2 ⟨[1, 2, 3], exHeap_chain, rfl, rfl, by decide⟩

theorem tieHeap_chain : IsChain tieHeap (some 1) [1, 2] :=
  ⟨rfl, _, rfl, rfl, _, rfl, rfl⟩

theorem tieQueue_wellFormed : WellFormed tieHeap tieQueue :=
  WellFormed_iff.2 ⟨[1, 2], tieHeap_chain, rfl, rfl, by decide⟩

/-- Two heaps with the same chain, the same payloads and the same nodes off
the chain are equal. -/
theorem heap_eq_of_chain {h h1 : Heap} (hsv : SameValues h1 h) :
    ∀ {l : List Addr} {p : Option Addr}, IsChain h p l → IsChain h1 p l → ∀ x ∈ l, h1 x = h x
  | [], _, _, _, x, hx => by simp at hx
  | a :: as, _, ⟨_, n, hn, hc⟩, ⟨_, n1, hn1, hc1⟩, x, hx => by
    rcases List.mem_cons.1 hx with rfl | hm
    · have hnext : n1.next = n.next := (IsChain_head hc1).trans (IsChain_head hc).symm
      have hval : n1.value = n.value := by
        have := hsv x
        rw [hn, hn1] at this
        simpa using this
      rw [hn, hn1]
      cases n; cases n1
      simp_all
    · have hnext : n1.next = n.next := (IsChain_head hc1).trans (IsChain_head hc).symm
      exact heap_eq_of_chain hsv hc (hnext ▸ hc1) x hm

/-! ## Sorting a queue -/

/-- C1: for every well-formed queue and every comparator that is a total
preorder, `q_sort` returns (given fuel for its loops) and the payload
sequence read from the head to the terminal link is ascending: every element
`x` followed by `y` has `cmp x y ≤ 0`. -/
theorem q_sort_ascending (cmp : Text → Text → Int) (hcmp : TotalPreorder cmp) (h : Heap)
    (q : queue_t) (fuel : Nat) (hwf : WellFormed h q) (hfuel : q.size + 2 ≤ fuel) :
    ∃ h1 q1 ns, q_sort cmp fuel h (some q) = some (h1, some q1) ∧ IsChain h1 q1.head ns ∧
      List.Chain' (fun x y => cmp x y ≤ 0) (payloads h1 ns) := by
  obtain ⟨ns, hc, hl, ht⟩ := WellFormed.chain hwf
  obtain ⟨h1, q1, he, hs, _, _, _, hsv⟩ := q_sort_spec cmp fuel h q ns hc ht (by omega)
  refine ⟨h1, q1, _, he, hs, ?_⟩
  have hp := msortL_sorted (hcmp.cmpAt h) _ ns le_rfl
  rw [payloads, List.chain'_map]
  refine List.Pairwise.chain' (hp.imp ?_)
  intro a b hab
  have : cmpAt cmp h a b ≤ 0 := hab
  simpa [cmpAt, hsv.val_eq] using this

theorem q_sort_ascending_witness :
    WellFormed exHeap exQueue ∧
      ∃ h1 q1 ns, q_sort firstByteCaseCmp 5 exHeap (some exQueue) = some (h1, some q1) ∧
        IsChain h1 q1.head ns ∧
        List.Chain' (fun x y => firstByteCaseCmp x y ≤ 0) (payloads h1 ns) :=
  ⟨exQueue_wellFormed, q_sort_ascending firstByteCaseCmp firstByteCaseCmp_totalPreorder exHeap
    exQueue 5 exQueue_wellFormed (by decide)⟩

/-- C2: for every well-formed queue and every comparator, `q_sort` returns
and the chain after it is a permutation of the chain before it, node for node
and payload for payload; the cached count is unchanged. -/
theorem q_sort_permutation (cmp : Text → Text → Int) (h : Heap) (q : queue_t) (fuel : Nat)
    (hwf : WellFormed h q) (hfuel : q.size + 2 ≤ fuel) :
    ∃ h1 q1 ns ns1, q_sort cmp fuel h (some q) = some (h1, some q1) ∧
      IsChain h q.head ns ∧ IsChain h1 q1.head ns1 ∧ ns1.Perm ns ∧
      (payloads h1 ns1).Perm (payloads h ns) ∧ q1.size = q.size := by
  obtain ⟨ns, hc, hl, ht⟩ := WellFormed.chain hwf
  obtain ⟨h1, q1, he, hs, _, hsz, _, hsv⟩ := q_sort_spec cmp fuel h q ns hc ht (by omega)
  have hperm := msortL_perm (cmpAt cmp h) _ ns le_rfl
  refine ⟨h1, q1, ns, _, he, hc, hs, hperm, ?_, hsz⟩
  rw [hsv.payloads_eq]
  exact hperm.map _

theorem q_sort_permutation_witness :
    WellFormed exHeap exQueue ∧
      ∃ h1 q1 ns ns1, q_sort firstByteCaseCmp 5 exHeap (some exQueue) = some (h1, some q1) ∧
        IsChain exHeap exQueue.head ns ∧ IsChain h1 q1.head ns1 ∧ ns1.Perm ns ∧
        (payloads h1 ns1).Perm (payloads exHeap ns) ∧ q1.size = exQueue.size :=
  ⟨exQueue_wellFormed, q_sort_permutation firstByteCaseCmp exHeap exQueue 5 exQueue_wellFormed
    (by decide)⟩

/-- C3, the claim fails: the queue "a", "A" is well formed, its two payloads
compare equal under a total preorder and node 1 precedes node 2; after
`q_sort` node 2 precedes node 1 and the payload sequence is "A", "a". -/
theorem q_sort_not_stable :
    WellFormed tieHeap tieQueue ∧ TotalPreorder firstByteCaseCmp ∧
      nodesFrom 5 tieHeap tieQueue.head = some [1, 2] ∧
      firstByteCaseCmp (val tieHeap 1) (val tieHeap 2) = 0 ∧
      (q_sort firstByteCaseCmp 5 tieHeap (some tieQueue)).bind
          (fun r => r.2.bind fun q1 => nodesFrom 5 r.1 q1.head) = some [2, 1] ∧
      (q_sort firstByteCaseCmp 5 tieHeap (some tieQueue)).bind
          (fun r => r.2.bind fun q1 => readQueue 5 r.1 q1) = some [[65], [97]] :=
  ⟨tieQueue_wellFormed, firstByteCaseCmp_totalPreorder, by decide, by decide, by decide,
    by decide⟩

/-- C3, amended: `q_sort` reverses ties.  For every well-formed queue, every
comparator that is a total preorder and every two nodes `x` and `y` whose
payloads compare equal, where `x` precedes `y` before the sort, `y` precedes
`x` after `q_sort`. -/
theorem q_sort_reverses_ties (cmp : Text → Text → Int) (hcmp : TotalPreorder cmp) (h : Heap)
    (q : queue_t) (fuel : Nat) (ns : List Addr) (x y : Addr) (hwf : WellFormed h q)
    (hfuel : q.size + 2 ≤ fuel) (hc : IsChain h q.head ns) (hxy : List.Sublist [x, y] ns)
    (h0 : cmp (val h x) (val h y) = 0) :
    ∃ h1 q1 ns1, q_sort cmp fuel h (some q) = some (h1, some q1) ∧ IsChain h1 q1.head ns1 ∧
      List.Sublist [y, x] ns1 := by
  obtain ⟨ns0, hc0, hl, ht⟩ := WellFormed.chain hwf
  have : ns0 = ns := IsChain_det hc0 hc
  subst this
  obtain ⟨h1, q1, he, hs, _, _, _, _⟩ := q_sort_spec cmp fuel h q ns0 hc ht (by omega)
  exact ⟨h1, q1, _, he, hs, msortL_ties_reversed (hcmp.cmpAt h) (IsChain_nodup hc) hxy h0⟩

theorem q_sort_reverses_ties_witness :
    WellFormed tieHeap tieQueue ∧ List.Sublist [1, 2] [1, 2] ∧
      ∃ h1 q1 ns1, q_sort firstByteCaseCmp 5 tieHeap (some tieQueue) = some (h1, some q1) ∧
        IsChain h1 q1.head ns1 ∧ List.Sublist [2, 1] ns1 :=
  ⟨tieQueue_wellFormed, List.Sublist.refl _,
    q_sort_reverses_ties firstByteCaseCmp firstByteCaseCmp_totalPreorder tieHeap tieQueue 5 [1, 2]
      1 2 tieQueue_wellFormed (by decide) tieHeap_chain (List.Sublist.refl _) (by decide)⟩

/-- C4, the claim fails: the queue "a", "A" is well formed and ascending
under a total preorder; `q_sort` turns its payload sequence into "A", "a",
and a second `q_sort` turns that into "a", "A" again, so that neither
sort(Q) = Q nor sort(sort(Q)) = sort(Q). -/
theorem q_sort_not_idempotent :
    WellFormed tieHeap tieQueue ∧ TotalPreorder firstByteCaseCmp ∧
      readQueue 5 tieHeap tieQueue = some [[97], [65]] ∧
      List.Chain' (fun x y => firstByteCaseCmp x y ≤ 0) [[97], [65]] ∧
      (q_sort firstByteCaseCmp 5 tieHeap (some tieQueue)).bind
          (fun r => r.2.bind fun q1 => readQueue 5 r.1 q1) = some [[65], [97]] ∧
      (q_sort firstByteCaseCmp 5 tieHeap (some tieQueue)).bind
          (fun r => (q_sort firstByteCaseCmp 5 r.1 r.2).bind
            fun r2 => r2.2.bind fun q2 => readQueue 5 r2.1 q2) = some [[97], [65]] :=
  ⟨tieQueue_wellFormed, firstByteCaseCmp_totalPreorder, by decide,
    List.chain'_cons.2 ⟨by decide, List.chain'_singleton _⟩, by decide, by decide⟩

/-! ## Reversing a queue -/

/-- C5: `q_reverse` is an involution.  For every well-formed queue, the empty
and the singleton queue included, two calls of `q_reverse` return and leave
the heap and the queue exactly as they were before the two calls: same chain
and payloads, same head, tail and count. -/
theorem q_reverse_involution (h : Heap) (q : queue_t) (fuel : Nat) (hwf : WellFormed h q)
    (hfuel : q.size ≤ fuel + 1) :
    ∃ h1 q1, q_reverse fuel h (some q) = some (h1, some q1) ∧
      q_reverse fuel h1 (some q1) = some (h, some q) := by
  obtain ⟨ns, hc, hl, ht⟩ := WellFormed.chain hwf
  obtain ⟨h1, q1, he1, hc1, hhd1, htl1, hsz1, hfr1, hsv1⟩ :=
    q_reverse_spec fuel h q ns hc hl ht (by omega)
  have hl1 : (ns.reverse.length : Int) = q1.size := by rw [hsz1, ← hl]; simp
  have ht1 : ns.reverse.getLast? = q1.tail := by
    rw [htl1, IsChain_head hc, List.getLast?_reverse]
  obtain ⟨h2, q2, he2, hc2, hhd2, htl2, hsz2, hfr2, hsv2⟩ :=
    q_reverse_spec fuel h1 q1 ns.reverse hc1 hl1 ht1 (by simp; omega)
  rw [List.reverse_reverse] at hc2
  have hq : q2 = q := by
    have e1 : q2.head = q.head := hhd2.trans htl1
    have e2 : q2.tail = q.tail := htl2.trans hhd1
    have e3 : q2.size = q.size := hsz2.trans hsz1
    cases q; cases q2
    simp_all
  have hh : h2 = h := by
    funext x
    by_cases hx : x ∈ ns
    · have hc3 : IsChain h2 q.head ns := by rw [← hq]; exact hc2
      exact heap_eq_of_chain (hsv2.trans hsv1) hc hc3 x hx
    · rw [hfr2 x (by simpa using hx), hfr1 x hx]
  exact ⟨h1, q1, he1, by rw [he2, hq, hh]⟩

theorem q_reverse_involution_witness :
    WellFormed exHeap exQueue ∧
      ∃ h1 q1, q_reverse 3 exHeap (some exQueue) = some (h1, some q1) ∧
        q_reverse 3 h1 (some q1) = some (exHeap, some exQueue) :=
  ⟨exQueue_wellFormed, q_reverse_involution exHeap exQueue 3 exQueue_wellFormed (by decide)⟩

/-- C6: on a null or empty queue `q_reverse` changes nothing; on a
well-formed queue with chain `ns` it returns and leaves the chain `ns`
reversed, hence the payload sequence reversed: the original tail is the new
head, the original head is the new tail and its link is terminal, the count
is unchanged, the same addresses are allocated, and only nodes of the chain
are touched. -/
theorem q_reverse_reverses (h : Heap) (q : queue_t) (fuel : Nat) (ns : List Addr)
    (hwf : WellFormed h q) (hc : IsChain h q.head ns) (hfuel : q.size ≤ fuel + 1) :
    q_reverse fuel h none = some (h, none) ∧
    (∀ q0 : queue_t, q0.size = 0 → q_reverse fuel h (some q0) = some (h, some q0)) ∧
    ∃ h1 q1, q_reverse fuel h (some q) = some (h1, some q1) ∧
      IsChain h1 q1.head ns.reverse ∧
      payloads h1 ns.reverse = (payloads h ns).reverse ∧
      q1.head = q.tail ∧ q1.tail = q.head ∧
      (∀ t, q1.tail = some t → ∃ n, h1 t = some n ∧ n.next = none) ∧
      q1.size = q.size ∧
      (∀ x, (h1 x).isSome = (h x).isSome) ∧ (∀ x, x ∉ ns → h1 x = h x) := by
  refine ⟨rfl, fun q0 h0 => by simp [q_reverse, h0], ?_⟩
  obtain ⟨ns0, hc0, hl, ht⟩ := WellFormed.chain hwf
  have : ns0 = ns := IsChain_det hc0 hc
  subst this
  obtain ⟨h1, q1, he1, hc1, hhd1, htl1, hsz1, hfr1, hsv1⟩ :=
    q_reverse_spec fuel h q ns0 hc hl ht (by omega)
  refine ⟨h1, q1, he1, hc1, ?_, hhd1, htl1, ?_, hsz1, ?_, hfr1⟩
  · rw [hsv1.payloads_eq]; simp [payloads]
  · intro t htt
    refine IsChain_last hc1 t ?_
    rw [List.getLast?_reverse, ← IsChain_head hc, ← htl1, htt]
  · intro x
    have := congrArg Option.isSome (hsv1 x)
    simpa using this

theorem q_reverse_reverses_witness :
    WellFormed exHeap exQueue ∧
    q_reverse 3 exHeap none = some (exHeap, none) ∧
    (∀ q0 : queue_t, q0.size = 0 → q_reverse 3 exHeap (some q0) = some (exHeap, some q0)) ∧
    ∃ h1 q1, q_reverse 3 exHeap (some exQueue) = some (h1, some q1) ∧
      IsChain h1 q1.head [1, 2, 3].reverse ∧
      payloads h1 [1, 2, 3].reverse = (payloads exHeap [1, 2, 3]).reverse ∧
      q1.head = exQueue.tail ∧ q1.tail = exQueue.head ∧
      (∀ t, q1.tail = some t → ∃ n, h1 t = some n ∧ n.next = none) ∧
      q1.size = exQueue.size ∧
      (∀ x, (h1 x).isSome = (exHeap x).isSome) ∧ (∀ x, x ∉ [1, 2, 3] → h1 x = exHeap x) :=
  ⟨exQueue_wellFormed,
    q_reverse_reverses exHeap exQueue 3 [1, 2, 3] exQueue_wellFormed exHeap_chain (by decide)⟩

/-! ## Insertion and removal -/

theorem getLast?_cons_of_ne_nil {α : Type} (a : α) {l : List α} (hl : l ≠ []) :
    (a :: l).getLast? = l.getLast? := by
  cases l with
  | nil => exact absurd rfl hl
  | cons b t => exact List.getLast?_cons_cons

theorem int_wrap_succ (x : Int) : int_wrap (int_wrap x + 1) = int_wrap (x + 1) := by
  unfold int_wrap
  omega

theorem int_wrap_pred (x : Int) : int_wrap (int_wrap x - 1) = int_wrap (x - 1) := by
  unfold int_wrap
  omega

/-- Below 2^32 elements a wrapped count is zero only for the empty chain. -/
theorem int_wrap_eq_zero {n : Nat} (hn : n < 4294967296) : int_wrap (n : Int) = 0 ↔ n = 0 := by
  unfold int_wrap
  omega

/-- The count of a well-formed queue is the length of its chain, also as an
`int`. -/
theorem int_wrap_of_wellFormed {h : Heap} {q : queue_t} (hwf : WellFormed h q) {ns : List Addr}
    (hl : (ns.length : Int) = q.size) :
    int_wrap (ns.length : Int) = q.size ∧ ns.length < 2147483648 := by
  have hmax := hwf.range
  unfold INT_MAX at hmax
  unfold int_wrap
  omega

/-- A successful `q_insert_head` puts the new node in front of the chain; the
count is incremented as an `int`. -/
theorem q_insert_head_spec (h : Heap) (q : queue_t) (s : Text) (a : Addr) (ns : List Addr)
    (hc : IsChain h q.head ns) (hl : int_wrap (ns.length : Int) = q.size)
    (ht : ns.getLast? = q.tail) (hfresh : h a = none) (hroom : ns.length < 4294967296) :
    ∃ q1, q_insert_head h (some q) s (some a) true =
        (true, h.write a { value := s, next := q.head }, some q1) ∧
      IsChain (h.write a { value := s, next := q.head }) q1.head (a :: ns) ∧
      q1.head = some a ∧ q1.size = int_wrap (q.size + 1) ∧
      int_wrap ((a :: ns).length : Int) = q1.size ∧ (a :: ns).getLast? = q1.tail ∧
      (ns ≠ [] → q1.tail = q.tail) := by
  have hsz1 : int_wrap ((a :: ns).length : Int) = int_wrap (q.size + 1) := by
    rw [← hl, int_wrap_succ]; simp
  have ha : a ∉ ns := by
    intro hm
    obtain ⟨n, hn⟩ := IsChain_alloc hc a hm
    rw [hfresh] at hn
    exact absurd hn (by simp)
  have hc1 : IsChain (h.write a { value := s, next := q.head }) q.head ns :=
    IsChain_congr (fun x hx => Heap.write_other _ _ (fun e => ha (e ▸ hx))) hc
  by_cases hs : q.size = 0
  · have hnil : ns = [] :=
      List.length_eq_zero.1 ((int_wrap_eq_zero hroom).1 (hl.trans hs))
    subst hnil
    refine ⟨{ head := some a, tail := some a, size := int_wrap (q.size + 1) }, ?_, ?_, rfl, rfl,
      hsz1, rfl, fun hne => absurd rfl hne⟩
    · simp [q_insert_head, hs]
    · exact ⟨rfl, _, Heap.write_same _ _ _, hc1⟩
  · have hne : ns ≠ [] := by
      intro e; subst e
      exact hs (hl.symm.trans (by decide))
    refine ⟨{ head := some a, tail := q.tail, size := int_wrap (q.size + 1) }, ?_, ?_, rfl, rfl,
      hsz1, ?_, fun _ => rfl⟩
    · simp [q_insert_head, hs]
    · exact ⟨rfl, _, Heap.write_same _ _ _, hc1⟩
    · rw [getLast?_cons_of_ne_nil a hne]; exact ht

/-- Linking a new node behind the last node of a chain. -/
theorem IsChain_snoc {h : Heap} {a t : Addr} {s : Text} {nt : list_ele_t} (hnt : h t = some nt)
    (hat : a ≠ t) : ∀ {ns : List Addr} {p : Option Addr}, IsChain h p ns → ns.Nodup → a ∉ ns →
      ns.getLast? = some t →
      IsChain ((h.write a { value := s, next := none }).write t { nt with next := some a }) p
        (ns ++ [a])
  | [], _, _, _, _, hlast => by simp at hlast
  | [b], _, ⟨hp, n, hn, hc⟩, _, _, hlast => by
    have hb : b = t := by simpa using hlast
    subst hb
    have hcons : IsChain ((h.write a { value := s, next := none }).write b
        { nt with next := some a }) (some a) [a] := by
      refine ⟨rfl, { value := s, next := none }, ?_, rfl⟩
      rw [Heap.write_other _ _ hat, Heap.write_same]
    exact ⟨hp, _, Heap.write_same _ _ _, hcons⟩
  | b :: c :: l, _, ⟨hp, n, hn, hc⟩, hnd, ha, hlast => by
    rw [List.getLast?_cons_cons] at hlast
    have hnd1 := List.nodup_cons.1 hnd
    have hbt : b ≠ t := by
      intro e
      exact hnd1.1 (e ▸ List.mem_of_getLast?_eq_some hlast)
    have hba : b ≠ a := fun e => ha (e ▸ List.mem_cons_self _ _)
    refine ⟨hp, n, ?_, IsChain_snoc hnt hat hc hnd1.2
      (fun hm => ha (List.mem_cons_of_mem _ hm)) hlast⟩
    rw [Heap.write_other _ _ hbt, Heap.write_other _ _ hba]
    exact hn

/-- A successful `q_insert_tail` puts the new node behind the chain; the
count is incremented as an `int`. -/
theorem q_insert_tail_spec (h : Heap) (q : queue_t) (s : Text) (a : Addr) (ns : List Addr)
    (hc : IsChain h q.head ns) (hl : int_wrap (ns.length : Int) = q.size)
    (ht : ns.getLast? = q.tail) (hfresh : h a = none) (hroom : ns.length < 4294967296) :
    ∃ h1 q1, q_insert_tail h (some q) s (some a) true = some (true, h1, some q1) ∧
      IsChain h1 q1.head (ns ++ [a]) ∧ q1.tail = some a ∧ q1.size = int_wrap (q.size + 1) ∧
      int_wrap ((ns ++ [a]).length : Int) = q1.size ∧
      h1 a = some { value := s, next := none } ∧ (ns ≠ [] → q1.head = q.head) ∧
      (ns = [] → q1.head = some a) ∧
      (∀ x, x ≠ a → (h1 x).map (fun n => n.value) = (h x).map (fun n => n.value)) := by
  have ha : a ∉ ns := by
    intro hm
    obtain ⟨n, hn⟩ := IsChain_alloc hc a hm
    rw [hfresh] at hn
    exact absurd hn (by simp)
  have hsz1 : int_wrap ((ns ++ [a]).length : Int) = int_wrap (q.size + 1) := by
    rw [← hl, int_wrap_succ]; simp
  by_cases hs : q.size = 0
  · have hnil : ns = [] :=
      List.length_eq_zero.1 ((int_wrap_eq_zero hroom).1 (hl.trans hs))
    subst hnil
    refine ⟨h.write a { value := s, next := none },
      { head := some a, tail := some a, size := int_wrap (q.size + 1) }, ?_, ?_, rfl, rfl,
      hsz1, Heap.write_same _ _ _, fun hne => absurd rfl hne, fun _ => rfl, ?_⟩
    · simp [q_insert_tail, hs]
    · exact ⟨rfl, _, Heap.write_same _ _ _, rfl⟩
    · intro x hx
      rw [Heap.write_other _ _ hx]
  · have hne : ns ≠ [] := by
      intro e; subst e
      exact hs (hl.symm.trans (by decide))
    cases hlast : ns.getLast? with
    | none => exact absurd (List.getLast?_eq_none_iff.1 hlast) hne
    | some t =>
      have hqt : q.tail = some t := by rw [← ht, hlast]
      obtain ⟨nt, hnt, _⟩ := IsChain_last hc t hlast
      have hat : a ≠ t := fun e => ha (e ▸ List.mem_of_getLast?_eq_some hlast)
      have h1t : (h.write a { value := s, next := none }) t = some nt := by
        rw [Heap.write_other _ _ hat.symm]; exact hnt
      refine ⟨(h.write a { value := s, next := none }).write t { nt with next := some a },
        { head := q.head, tail := some a, size := int_wrap (q.size + 1) }, ?_,
        IsChain_snoc hnt hat hc (IsChain_nodup hc) ha hlast, rfl, rfl, hsz1, ?_, fun _ => rfl,
        fun e => absurd e hne, ?_⟩
      · simp [q_insert_tail, hs, hqt, h1t]
      · rw [Heap.write_other _ _ hat, Heap.write_same]
      · intro x hx
        by_cases hxt : x = t
        · subst hxt
          simp [hnt]
        · rw [Heap.write_other _ _ hxt, Heap.write_other _ _ hx]

theorem set_append_length {α : Type} (x : α) : ∀ (a b : List α),
    (a ++ b).set a.length x = a ++ b.set 0 x
  | [], _ => rfl
  | y :: a, b => by simp [set_append_length x a b]

theorem size_dec_eq {c : Nat} (h1 : 1 ≤ c) (h2 : c < SIZE_MOD) : size_dec c = c - 1 := by
  unfold size_dec SIZE_MOD at *
  omega

/-- The copy made by `q_remove_head` into an array of at least `c` bytes,
`c` a positive `size_t`: the first `min (strlen v) (c - 1)` bytes of the text,
then a terminator; the rest of the array is left as it was. -/
theorem q_remove_head_copy_spec (buf : Buffer) (v : Text) (c : Nat) (h1 : 1 ≤ c)
    (hcap : c ≤ buf.length) (hsz : c < SIZE_MOD) :
    q_remove_head_copy buf v c =
      some (v.take (min (strlen v) (c - 1)) ++ 0 :: buf.drop (min (strlen v) (c - 1) + 1)) := by
  unfold q_remove_head_copy
  by_cases hgt : c > strlen v
  · have hmin : min (strlen v) (c - 1) = strlen v := by omega
    have hle : strlen v ≤ buf.length := by omega
    rw [if_pos hgt, hmin]
    have hdrop : buf.drop (strlen v) ≠ [] := by
      intro e
      have := congrArg List.length e
      simp at this; omega
    obtain ⟨d, ds, hd⟩ := List.exists_cons_of_ne_nil hdrop
    have hds : buf.drop (strlen v + 1) = ds := by
      rw [← List.drop_drop, hd]; rfl
    have e1 : v.take (strlen v) = v := List.take_length v
    have hlt : v.length < (v ++ d :: ds).length := by simp
    simp [strncpy, poke, hle, e1, hd, hds, hlt]
    simp [strlen]
  · have hmin : min (strlen v) (c - 1) = c - 1 := by omega
    have hle : c - 1 ≤ buf.length := by omega
    rw [if_neg hgt, hmin, size_dec_eq h1 hsz]
    have hdrop : buf.drop (c - 1) ≠ [] := by
      intro e
      have := congrArg List.length e
      simp at this; omega
    obtain ⟨d, ds, hd⟩ := List.exists_cons_of_ne_nil hdrop
    have hds : buf.drop (c - 1 + 1) = ds := by
      rw [← List.drop_drop, hd]; rfl
    have hz : c - 1 - strlen v = 0 := by omega
    have hlen : (v.take (c - 1)).length = c - 1 := by
      rw [List.length_take]; unfold strlen at hgt; omega
    have hlt : c - 1 < (v.take (c - 1) ++ d :: ds).length := by simp [hlen]
    simp only [strncpy, poke, hle, if_true, hz, List.replicate_zero, List.append_nil, hd, hds,
      Option.some_bind, hlt]
    have := set_append_length 0 (v.take (c - 1)) (d :: ds)
    rw [hlen] at this
    rw [this]; rfl

/-- A `q_remove_head` whose copy stays inside the array detaches the first
node of the chain and releases it. -/
theorem q_remove_head_spec (h : Heap) (q : queue_t) (a : Addr) (rest : List Addr)
    (buf buf1 : Buffer) (c : Nat) (hc : IsChain h q.head (a :: rest))
    (hl : int_wrap (((a :: rest).length : Nat) : Int) = q.size)
    (ht : (a :: rest).getLast? = q.tail)
    (hcopy : q_remove_head_copy buf (val h a) c = some buf1)
    (hroom : rest.length < 4294967296) :
    ∃ q1, q_remove_head h (some q) (some buf) c = some (true, h.free a, some q1, some buf1) ∧
      IsChain (h.free a) q1.head rest ∧ q1.size = int_wrap (q.size - 1) ∧
      int_wrap (rest.length : Int) = q1.size ∧ rest.getLast? = q1.tail ∧
      (rest ≠ [] → q1.tail = q.tail) := by
  have hsz1 : int_wrap (rest.length : Int) = int_wrap (q.size - 1) := by
    rw [← hl, int_wrap_pred]; simp
  have hnd := IsChain_nodup hc
  obtain ⟨hh, n, hn, hc1⟩ := hc
  have ha : a ∉ rest := (List.nodup_cons.1 hnd).1
  have hc2 : IsChain (h.free a) n.next rest := by
    refine IsChain_congr (fun x hx => ?_) hc1
    have hxa : x ≠ a := fun e => ha (e ▸ hx)
    simp [Heap.free, hxa]
  rw [val_of_eq hn] at hcopy
  by_cases hs : int_wrap (q.size - 1) = 0
  · have hnil : rest = [] :=
      List.length_eq_zero.1 ((int_wrap_eq_zero hroom).1 (hsz1.trans hs))
    subst hnil
    refine ⟨{ head := n.next, tail := none, size := int_wrap (q.size - 1) }, ?_, hc2, rfl, hsz1,
      rfl, fun hne => absurd rfl hne⟩
    simp [q_remove_head, hh, hn, hcopy, hs]
  · have hne : rest ≠ [] := by
      intro e; subst e
      exact hs (hsz1.symm.trans (by decide))
    refine ⟨{ head := n.next, tail := q.tail, size := int_wrap (q.size - 1) }, ?_, hc2, rfl,
      hsz1, ?_, fun _ => rfl⟩
    · simp [q_remove_head, hh, hn, hcopy, hs]
    · rw [← ht, getLast?_cons_of_ne_nil a hne]

theorem q_size_of_wellFormed {h : Heap} {q : queue_t} (hwf : WellFormed h q) :
    q_size (some q) = q.size := by
  obtain ⟨_, _, h1, _, _⟩ := hwf
  unfold q_size
  by_cases hh : q.head = none
  · simp [hh, h1.2 hh]
  · simp [hh]

/-- `q_insert_head` on a queue of fewer than `INT_MAX` elements keeps the
queue well formed and adds one to its size exactly when it returns true; a
failed call needs no room. -/
theorem q_insert_head_wf (h : Heap) (q : queue_t) (s : Text) (newh : Option Addr) (tmp_ok : Bool)
    (hwf : WellFormed h q) (hfresh : ∀ a, newh = some a → h a = none)
    (hroom : q.size < INT_MAX ∨ newh = none ∨ tmp_ok = false) :
    ∃ b h1 q1, q_insert_head h (some q) s newh tmp_ok = (b, h1, some q1) ∧ WellFormed h1 q1 ∧
      q1.size = q.size + (if b then 1 else 0) := by
  cases newh with
  | none => exact ⟨false, h, q, rfl, hwf, by simp⟩
  | some a =>
    cases tmp_ok with
    | false => exact ⟨false, h, q, rfl, hwf, by simp⟩
    | true =>
      have hlt : q.size < INT_MAX := by
        rcases hroom with hr | hr | hr
        · exact hr
        · exact absurd hr (by simp)
        · exact absurd hr (by simp)
      obtain ⟨ns, hc, hl, ht⟩ := WellFormed.chain hwf
      obtain ⟨hlw, hlen⟩ := int_wrap_of_wellFormed hwf hl
      obtain ⟨q1, he, hc1, _, hsz, _, ht1, _⟩ :=
        q_insert_head_spec h q s a ns hc hlw ht (hfresh a rfl) (by omega)
      have hsz2 : q1.size = q.size + 1 := by
        rw [hsz]; unfold INT_MAX at hlt; unfold int_wrap; omega
      exact ⟨true, _, q1, he,
        WellFormed_iff.2 ⟨a :: ns, hc1, by simp [hsz2]; omega, ht1,
          by rw [hsz2]; unfold INT_MAX at hlt ⊢; omega⟩,
        by simp [hsz2]⟩

/-- `q_insert_tail` on a queue of fewer than `INT_MAX` elements keeps the
queue well formed and adds one to its size exactly when it returns true; a
failed call needs no room. -/
theorem q_insert_tail_wf (h : Heap) (q : queue_t) (s : Text) (newh : Option Addr) (tmp_ok : Bool)
    (hwf : WellFormed h q) (hfresh : ∀ a, newh = some a → h a = none)
    (hroom : q.size < INT_MAX ∨ newh = none ∨ tmp_ok = false) :
    ∃ b h1 q1, q_insert_tail h (some q) s newh tmp_ok = some (b, h1, some q1) ∧
      WellFormed h1 q1 ∧ q1.size = q.size + (if b then 1 else 0) := by
  cases newh with
  | none => exact ⟨false, h, q, rfl, hwf, by simp⟩
  | some a =>
    cases tmp_ok with
    | false => exact ⟨false, h, q, rfl, hwf, by simp⟩
    | true =>
      have hlt : q.size < INT_MAX := by
        rcases hroom with hr | hr | hr
        · exact hr
        · exact absurd hr (by simp)
        · exact absurd hr (by simp)
      obtain ⟨ns, hc, hl, ht⟩ := WellFormed.chain hwf
      obtain ⟨hlw, hlen⟩ := int_wrap_of_wellFormed hwf hl
      obtain ⟨h1, q1, he, hc1, ht1, hsz, _⟩ :=
        q_insert_tail_spec h q s a ns hc hlw ht (hfresh a rfl) (by omega)
      have hsz2 : q1.size = q.size + 1 := by
        rw [hsz]; unfold INT_MAX at hlt; unfold int_wrap; omega
      exact ⟨true, h1, q1, he,
        WellFormed_iff.2 ⟨ns ++ [a], hc1, by simp [hsz2]; omega, by simp [ht1],
          by rw [hsz2]; unfold INT_MAX at hlt ⊢; omega⟩,
        by simp [hsz2]⟩

/-- Whenever `q_remove_head` is defined it keeps a queue well formed and
takes one from its size exactly when it returns true. -/
theorem q_remove_head_wf (h : Heap) (q : queue_t) (sp : Option Buffer) (c : Nat)
    (hwf : WellFormed h q) (r : Bool × Heap × Option queue_t × Option Buffer)
    (hr : q_remove_head h (some q) sp c = some r) :
    ∃ q1, r.2.2.1 = some q1 ∧ WellFormed r.2.1 q1 ∧ q1.size = q.size - (if r.1 then 1 else 0) := by
  obtain ⟨ns, hc, hl, ht⟩ := WellFormed.chain hwf
  cases sp with
  | none =>
    have : r = (false, h, some q, none) := by
      simpa [q_remove_head] using hr.symm
    subst this
    exact ⟨q, rfl, hwf, by simp⟩
  | some buf =>
    cases ns with
    | nil =>
      have hh : q.head = none := hc
      have : r = (false, h, some q, some buf) := by
        simpa [q_remove_head, hh] using hr.symm
      subst this
      exact ⟨q, rfl, hwf, by simp⟩
    | cons a rest =>
      cases hcopy : q_remove_head_copy buf (val h a) c with
      | none =>
        exfalso
        obtain ⟨hh, n, hn, _⟩ := hc
        rw [val_of_eq hn] at hcopy
        simp [q_remove_head, hh, hn, hcopy] at hr
      | some buf1 =>
        obtain ⟨hlw, hlen⟩ := int_wrap_of_wellFormed hwf hl
        have hmax := hwf.range
        obtain ⟨q1, he, hc1, hsz, _, ht1, _⟩ :=
          q_remove_head_spec h q a rest buf buf1 c hc hlw ht hcopy (by simp at hlen; omega)
        rw [he] at hr
        have : r = (true, h.free a, some q1, some buf1) := (Option.some.inj hr).symm
        subst this
        have hsz2 : q1.size = q.size - 1 := by
          rw [hsz]; simp at hl; unfold INT_MAX at hmax; unfold int_wrap; omega
        refine ⟨q1, rfl, WellFormed_iff.2 ⟨rest, hc1, ?_, ht1, ?_⟩, by simp [hsz2]⟩
        · simp at hl; simp [hsz2]; omega
        · rw [hsz2]; unfold INT_MAX at hmax ⊢; omega

/-- With a non-null array of at least the announced positive size,
`q_remove_head` is defined. -/
theorem q_remove_head_defined (h : Heap) (q : queue_t) (sp : Option Buffer) (c : Nat)
    (hwf : WellFormed h q)
    (hok : ∀ buf, sp = some buf → 1 ≤ c ∧ c ≤ buf.length ∧ c < SIZE_MOD) :
    ∃ r, q_remove_head h (some q) sp c = some r := by
  obtain ⟨ns, hc, hl, ht⟩ := WellFormed.chain hwf
  cases sp with
  | none => exact ⟨_, rfl⟩
  | some buf =>
    cases ns with
    | nil =>
      have hh : q.head = none := hc
      exact ⟨(false, h, some q, some buf), by simp [q_remove_head, hh]⟩
    | cons a rest =>
      obtain ⟨h1, h2, h3⟩ := hok buf rfl
      obtain ⟨hlw, hlen⟩ := int_wrap_of_wellFormed hwf hl
      obtain ⟨q1, he, _⟩ := q_remove_head_spec h q a rest buf _ c hc hlw ht
        (q_remove_head_copy_spec buf (val h a) c h1 h2 h3) (by simp at hlen; omega)
      exact ⟨_, he⟩

/-! ## A queue of `INT_MAX` elements -/

theorem getLast?_range' : ∀ (m k : Nat), (List.range' k (m + 1)).getLast? = some (k + m)
  | 0, k => by simp [List.range']
  | m + 1, k => by
    have e : List.range' k (m + 1 + 1) = k :: (k + 1) :: List.range' (k + 1 + 1) m := by
      simp [List.range']
    have e2 : List.range' (k + 1) (m + 1) = (k + 1) :: List.range' (k + 1 + 1) m := by
      simp [List.range']
    rw [e, List.getLast?_cons_cons, ← e2, getLast?_range' m (k + 1)]
    congr 1
    omega

/-- The nodes of `lineHeap n` from the address `k` on form one chain. -/
theorem lineHeap_chain (n : Nat) : ∀ (m k : Nat), k + (m + 1) = n →
    IsChain (lineHeap n) (some k) (List.range' k (m + 1))
  | 0, k, hk => by
    have e : List.range' k 1 = [k] := by simp [List.range']
    rw [e]
    refine ⟨rfl, { value := [], next := none }, ?_, rfl⟩
    have h1 : k < n := by omega
    have h2 : ¬ k + 1 < n := by omega
    simp [lineHeap, h1, h2]
  | m + 1, k, hk => by
    have e : List.range' k (m + 1 + 1) = k :: List.range' (k + 1) (m + 1) := by
      simp [List.range']
    rw [e]
    refine ⟨rfl, { value := [], next := some (k + 1) }, ?_, lineHeap_chain n m (k + 1) (by omega)⟩
    have h1 : k < n := by omega
    have h2 : k + 1 < n := by omega
    simp [lineHeap, h1, h2]

theorem fullHeap_chain : IsChain fullHeap (some 0) (List.range' 0 2147483647) :=
  lineHeap_chain 2147483647 2147483646 0 (by decide)

theorem fullQueue_wellFormed : WellFormed fullHeap fullQueue :=
  WellFormed_iff.2 ⟨List.range' 0 2147483647, fullHeap_chain,
    by rw [List.length_range']; rfl, getLast?_range' 2147483646 0, by decide⟩

/-! ## The invariant -/

theorem q_reverse_wf (h : Heap) (q : queue_t) (fuel : Nat) (hwf : WellFormed h q)
    (hfuel : q.size ≤ fuel + 1) :
    ∃ h1 q1, q_reverse fuel h (some q) = some (h1, some q1) ∧ WellFormed h1 q1 := by
  obtain ⟨ns, hc, hl, ht⟩ := WellFormed.chain hwf
  obtain ⟨h1, q1, he, hc1, _, htl, hsz, _, _⟩ := q_reverse_spec fuel h q ns hc hl ht (by omega)
  refine ⟨h1, q1, he, WellFormed_iff.2 ⟨ns.reverse, hc1, by simp [hsz, hl], ?_,
    by rw [hsz]; exact hwf.range⟩⟩
  rw [List.getLast?_reverse, htl, IsChain_head hc]

theorem q_sort_wf (cmp : Text → Text → Int) (h : Heap) (q : queue_t) (fuel : Nat)
    (hwf : WellFormed h q) (hfuel : q.size + 2 ≤ fuel) :
    ∃ h1 q1, q_sort cmp fuel h (some q) = some (h1, some q1) ∧ WellFormed h1 q1 := by
  obtain ⟨ns, hc, hl, ht⟩ := WellFormed.chain hwf
  obtain ⟨h1, q1, he, hs, ht1, hsz, _, _⟩ := q_sort_spec cmp fuel h q ns hc ht (by omega)
  refine ⟨h1, q1, he, WellFormed_iff.2 ⟨_, hs, ?_, ht1.symm, by rw [hsz]; exact hwf.range⟩⟩
  rw [(msortL_perm (cmpAt cmp h) _ ns le_rfl).length_eq, hsz, hl]

/-- C7, amended: the well-formedness invariant (the count is a non-negative
`int`; it is zero iff the head is `NULL` iff the tail is `NULL`; for a
positive count the chain from the head is acyclic, has `size` nodes, ends at
the tail, whose link is `NULL`) holds for the queue returned by `q_new` and,
from a well-formed queue, for
the queue left by `q_insert_head`, `q_insert_tail`, `q_remove_head`,
`q_reverse` and `q_sort`, whatever they return, a successful insertion being
made on a queue of fewer than `INT_MAX` elements.  `malloc` returns `NULL` or
an unallocated address; `q_remove_head` is defined when its array has the
announced positive size, and keeps the invariant whenever it is defined. -/
theorem wellFormed_preserved (h : Heap) (q : queue_t) (hwf : WellFormed h q) :
    (∃ q0, q_new true = some q0) ∧
    (∀ (ok : Bool) (q0 : queue_t) (h0 : Heap), q_new ok = some q0 → WellFormed h0 q0) ∧
    (∀ s newh tmp_ok, (∀ a, newh = some a → h a = none) →
      (q.size < INT_MAX ∨ newh = none ∨ tmp_ok = false) →
      ∃ b h1 q1, q_insert_head h (some q) s newh tmp_ok = (b, h1, some q1) ∧
        WellFormed h1 q1) ∧
    (∀ s newh tmp_ok, (∀ a, newh = some a → h a = none) →
      (q.size < INT_MAX ∨ newh = none ∨ tmp_ok = false) →
      ∃ b h1 q1, q_insert_tail h (some q) s newh tmp_ok = some (b, h1, some q1) ∧
        WellFormed h1 q1) ∧
    (∀ sp c, (∀ buf, sp = some buf → 1 ≤ c ∧ c ≤ buf.length ∧ c < SIZE_MOD) →
      ∃ r, q_remove_head h (some q) sp c = some r) ∧
    (∀ sp c b h1 q1 sp1, q_remove_head h (some q) sp c = some (b, h1, q1, sp1) →
      ∃ q2, q1 = some q2 ∧ WellFormed h1 q2) ∧
    (∀ fuel : Nat, q.size ≤ fuel + 1 →
      ∃ h1 q1, q_reverse fuel h (some q) = some (h1, some q1) ∧ WellFormed h1 q1) ∧
    (∀ (cmp : Text → Text → Int) (fuel : Nat), q.size + 2 ≤ fuel →
      ∃ h1 q1, q_sort cmp fuel h (some q) = some (h1, some q1) ∧ WellFormed h1 q1) := by
  refine ⟨⟨_, rfl⟩, ?_, ?_, ?_, ?_, ?_, ?_, ?_⟩
  · intro ok q0 h0 he
    cases ok with
    | false => simp [q_new] at he
    | true =>
      have : q0 = { head := none, tail := none, size := 0 } := by
        simpa [q_new] using he.symm
      subst this
      exact WellFormed_iff.2 ⟨[], rfl, rfl, rfl, by decide⟩
  · intro s newh tmp_ok hfresh hroom
    obtain ⟨b, h1, q1, he, hw, _⟩ := q_insert_head_wf h q s newh tmp_ok hwf hfresh hroom
    exact ⟨b, h1, q1, he, hw⟩
  · intro s newh tmp_ok hfresh hroom
    obtain ⟨b, h1, q1, he, hw, _⟩ := q_insert_tail_wf h q s newh tmp_ok hwf hfresh hroom
    exact ⟨b, h1, q1, he, hw⟩
  · intro sp c hok
    exact q_remove_head_defined h q sp c hwf hok
  · intro sp c b h1 q1 sp1 he
    obtain ⟨q2, hq, hw, _⟩ := q_remove_head_wf h q sp c hwf _ he
    exact ⟨q2, hq, hw⟩
  · intro fuel hfuel
    exact q_reverse_wf h q fuel hwf hfuel
  · intro cmp fuel hfuel
    exact q_sort_wf cmp h q fuel hwf hfuel

theorem wellFormed_preserved_witness :
    WellFormed exHeap exQueue ∧
    (∀ s newh tmp_ok, (∀ a, newh = some a → exHeap a = none) →
      ∃ b h1 q1, q_insert_tail exHeap (some exQueue) s newh tmp_ok = some (b, h1, some q1) ∧
        WellFormed h1 q1) :=
  ⟨exQueue_wellFormed, fun s newh tmp_ok hfresh =>
    (wellFormed_preserved exHeap exQueue exQueue_wellFormed).2.2.2.1 s newh tmp_ok hfresh
      (Or.inl (by decide))⟩

/-! ## The size -/

theorem int_wrap_zero : int_wrap 0 = 0 := by decide

/-- Linking a new node behind a node of a chain: the chain ends with the new
node, whatever followed the old one. -/
theorem IsChain_relink {h : Heap} {a t : Addr} {s : Text} {nt : list_ele_t} (hnt : h t = some nt)
    (hat : a ≠ t) {l2 : List Addr} : ∀ {l1 : List Addr} {p : Option Addr},
      IsChain h p (l1 ++ t :: l2) → t ∉ l1 → a ∉ l1 →
      IsChain ((h.write a { value := s, next := none }).write t { nt with next := some a }) p
        (l1 ++ [t, a])
  | [], _, ⟨hp, _, _, _⟩, _, _ =>
    ⟨hp, _, Heap.write_same _ _ _, rfl, { value := s, next := none },
      by rw [Heap.write_other _ _ hat, Heap.write_same], rfl⟩
  | b :: l1, _, ⟨hp, n, hn, hc⟩, ht, ha => by
    have hbt : b ≠ t := fun e => ht (e ▸ List.mem_cons_self _ _)
    have hba : b ≠ a := fun e => ha (e ▸ List.mem_cons_self _ _)
    refine ⟨hp, n, ?_, IsChain_relink hnt hat hc (fun hm => ht (List.mem_cons_of_mem _ hm))
      (fun hm => ha (List.mem_cons_of_mem _ hm))⟩
    rw [Heap.write_other _ _ hbt, Heap.write_other _ _ hba]
    exact hn

theorem not_mem_of_fresh {h : Heap} {p : Option Addr} {ns : List Addr} (hc : IsChain h p ns)
    {a : Addr} (hfresh : h a = none) : a ∉ ns := by
  intro hm
  obtain ⟨n, hn⟩ := IsChain_alloc hc a hm
  rw [hfresh] at hn
  exact absurd hn (by simp)

/-- A successful `q_insert_head` adds one to the number of elements. -/
theorem q_insert_head_counts (h : Heap) (q : queue_t) (s : Text) (a : Addr) (k : Nat)
    (hinv : Counts h (some q) k) (hfresh : h a = none) :
    ∃ h1 q1, q_insert_head h (some q) s (some a) true = (true, h1, some q1) ∧
      Counts h1 (some q1) (k + 1) := by
  obtain ⟨ns, m, hc, hk, hl, htl⟩ := hinv
  have ha : a ∉ ns := not_mem_of_fresh hc hfresh
  have hc1 : IsChain (h.write a { value := s, next := q.head }) (some a) (a :: ns) :=
    ⟨rfl, _, Heap.write_same _ _ _,
      IsChain_congr (fun x hx => Heap.write_other _ _ (fun e => ha (e ▸ hx))) hc⟩
  have hsz1 : int_wrap ((a :: ns).length : Int) = int_wrap (q.size + 1) := by
    rw [← hl, int_wrap_succ]; simp
  have hk1 : k + 1 = (a :: ns).length + m * 4294967296 := by simp; omega
  by_cases hs : q.size = 0
  · refine ⟨_, { head := some a, tail := some a, size := int_wrap (q.size + 1) }, ?_,
      a :: ns, m, hc1, hk1, hsz1, ?_⟩
    · simp [q_insert_head, hs]
    · intro t ht
      have hta : t = a := (Option.some.inj ht).symm
      subst hta
      refine ⟨[], ns, ns.length / 4294967296, rfl, ?_⟩
      have h0 : int_wrap (ns.length : Int) = 0 := hl.trans hs
      unfold int_wrap at h0
      omega
  · refine ⟨_, { head := some a, tail := q.tail, size := int_wrap (q.size + 1) }, ?_,
      a :: ns, m, hc1, hk1, hsz1, ?_⟩
    · simp [q_insert_head, hs]
    · intro t ht
      obtain ⟨l1, l2, j, e, hj⟩ := htl t ht
      exact ⟨a :: l1, l2, j, by rw [e]; rfl, hj⟩

/-- A `q_insert_tail` that gets its memory and is defined returns true and
adds one to the number of elements. -/
theorem q_insert_tail_counts (h : Heap) (q : queue_t) (s : Text) (a : Addr) (k : Nat)
    (hinv : Counts h (some q) k) (hfresh : h a = none) (b : Bool) (h1 : Heap)
    (q1 : Option queue_t) (he : q_insert_tail h (some q) s (some a) true = some (b, h1, q1)) :
    b = true ∧ Counts h1 q1 (k + 1) := by
  obtain ⟨ns, m, hc, hk, hl, htl⟩ := hinv
  have ha : a ∉ ns := not_mem_of_fresh hc hfresh
  by_cases hs : q.size = 0
  · have e : q_insert_tail h (some q) s (some a) true = some (true,
        h.write a { value := s, next := none },
        some { head := some a, tail := some a, size := int_wrap (q.size + 1) }) := by
      simp [q_insert_tail, hs]
    rw [e] at he
    simp only [Option.some.injEq, Prod.mk.injEq] at he
    obtain ⟨rfl, rfl, rfl⟩ := he
    have h0 : int_wrap (ns.length : Int) = 0 := hl.trans hs
    refine ⟨rfl, [a], m + ns.length / 4294967296, ⟨rfl, _, Heap.write_same _ _ _, rfl⟩, ?_, ?_, ?_⟩
    · unfold int_wrap at h0
      simp only [List.length_singleton]
      omega
    · show int_wrap (([a].length : Nat) : Int) = int_wrap (q.size + 1)
      rw [hs]; rfl
    · intro t _
      exact ⟨[], [], 0, by simp_all, rfl⟩
  · cases hqt : q.tail with
    | none => simp [q_insert_tail, hs, hqt] at he
    | some t =>
      obtain ⟨l1, l2, j, e, hj⟩ := htl t hqt
      subst e
      have hnd := IsChain_nodup hc
      have ht1 : t ∉ l1 := by
        intro hm
        exact (List.nodup_append.1 hnd).2.2 hm (List.mem_cons_self _ _)
      have hat : a ≠ t := fun e => ha (e ▸ by simp)
      have ha1 : a ∉ l1 := fun hm => ha (List.mem_append_left _ hm)
      obtain ⟨nt, hnt⟩ := IsChain_alloc hc t (by simp)
      have h1t : (h.write a { value := s, next := none }) t = some nt := by
        rw [Heap.write_other _ _ hat.symm]; exact hnt
      have e2 : q_insert_tail h (some q) s (some a) true = some (true,
          (h.write a { value := s, next := none }).write t { nt with next := some a },
          some { head := q.head, tail := some a, size := int_wrap (q.size + 1) }) := by
        simp [q_insert_tail, hs, hqt, h1t]
      rw [e2] at he
      simp only [Option.some.injEq, Prod.mk.injEq] at he
      obtain ⟨rfl, rfl, rfl⟩ := he
      refine ⟨rfl, l1 ++ [t, a], m + j, IsChain_relink hnt hat hc ht1 ha1, ?_, ?_, ?_⟩
      · simp at hk ⊢
        omega
      · show int_wrap ((l1 ++ [t, a]).length : Int) = int_wrap (q.size + 1)
        rw [← hl, int_wrap_succ]
        simp
        unfold int_wrap
        omega
      · intro t1 ht1e
        have : t1 = a := (Option.some.inj ht1e).symm
        subst this
        exact ⟨l1 ++ [t], [], 0, by simp, rfl⟩

/-- A `q_remove_head` that is defined either returns false and changes
nothing, or returns true and takes one from the number of elements. -/
theorem q_remove_head_counts (h : Heap) (q : queue_t) (sp : Option Buffer) (c : Nat) (k : Nat)
    (hinv : Counts h (some q) k) (b : Bool) (h1 : Heap) (q1 : Option queue_t)
    (out : Option Buffer) (he : q_remove_head h (some q) sp c = some (b, h1, q1, out)) :
    (b = false ∧ Counts h1 q1 k) ∨ (b = true ∧ ∃ k1, k = k1 + 1 ∧ Counts h1 q1 k1) := by
  cases sp with
  | none =>
    simp [q_remove_head] at he
    obtain ⟨rfl, rfl, rfl, rfl⟩ := he
    exact Or.inl ⟨rfl, hinv⟩
  | some buf =>
    cases hh : q.head with
    | none =>
      simp [q_remove_head, hh] at he
      obtain ⟨rfl, rfl, rfl, rfl⟩ := he
      exact Or.inl ⟨rfl, hinv⟩
    | some a =>
      obtain ⟨ns, m, hc, hk, hl, htl⟩ := hinv
      rw [hh] at hc
      cases ns with
      | nil => exact absurd hc (by simp [IsChain])
      | cons a0 rest =>
        have hnd := IsChain_nodup hc
        obtain ⟨hp, n, hn, hc1⟩ := hc
        have haa : a = a0 := Option.some.inj hp
        subst haa
        have ha : a ∉ rest := (List.nodup_cons.1 hnd).1
        have hc2 : IsChain (h.free a) n.next rest := by
          refine IsChain_congr (fun x hx => ?_) hc1
          have hxa : x ≠ a := fun e => ha (e ▸ hx)
          simp [Heap.free, hxa]
        have hsz1 : int_wrap (rest.length : Int) = int_wrap (q.size - 1) := by
          rw [← hl, int_wrap_pred]; simp
        cases hcopy : q_remove_head_copy buf n.value c with
        | none => simp [q_remove_head, hh, hn, hcopy] at he
        | some buf1 =>
          refine Or.inr ?_
          by_cases hs : int_wrap (q.size - 1) = 0
          · have e : q_remove_head h (some q) (some buf) c = some (true, h.free a,
                some { head := n.next, tail := none, size := int_wrap (q.size - 1) },
                some buf1) := by
              simp [q_remove_head, hh, hn, hcopy, hs]
            rw [e] at he
            simp only [Option.some.injEq, Prod.mk.injEq] at he
            obtain ⟨rfl, rfl, rfl, rfl⟩ := he
            exact ⟨rfl, rest.length + m * 4294967296, by simp at hk; omega,
              rest, m, hc2, rfl, hsz1, fun t ht => absurd ht (by simp)⟩
          · have e : q_remove_head h (some q) (some buf) c = some (true, h.free a,
                some { head := n.next, tail := q.tail, size := int_wrap (q.size - 1) },
                some buf1) := by
              simp [q_remove_head, hh, hn, hcopy, hs]
            rw [e] at he
            simp only [Option.some.injEq, Prod.mk.injEq] at he
            obtain ⟨rfl, rfl, rfl, rfl⟩ := he
            refine ⟨rfl, rest.length + m * 4294967296, by simp at hk; omega,
              rest, m, hc2, rfl, hsz1, ?_⟩
            intro t ht
            obtain ⟨l1, l2, j, e1, hj⟩ := htl t ht
            cases l1 with
            | nil =>
              exfalso
              simp at e1
              obtain ⟨_, e3⟩ := e1
              subst e3
              apply hs
              rw [← hsz1, hj]
              unfold int_wrap
              push_cast
              omega
            | cons x l1 =>
              simp at e1
              exact ⟨l1, l2, j, e1.2, hj⟩

/-- One call, whenever it is defined: the number of successful insertions
less the number of successful removals moves by one exactly for a successful
insertion or removal. -/
theorem step_counts (h : Heap) (q : Option queue_t) (op : Op) (k : Nat)
    (hinv : Counts h q k) (hok : MallocOk h op)
    (b : Bool) (h1 : Heap) (q1 : Option queue_t) (out : Option Buffer)
    (he : step h q op = some (b, h1, q1, out)) :
    ∃ k1, Counts h1 q1 k1 ∧
      (k1 : Int) = k + (if op.isInsert && b then 1 else 0)
        - (if op.isRemove && b then 1 else 0) := by
  cases q with
  | none =>
    cases op with
    | insert_head s newh tmp_ok =>
      simp [step, q_insert_head] at he
      obtain ⟨rfl, rfl, rfl, rfl⟩ := he
      exact ⟨k, hinv, by simp⟩
    | insert_tail s newh tmp_ok =>
      simp [step, q_insert_tail] at he
      obtain ⟨rfl, rfl, rfl, rfl⟩ := he
      exact ⟨k, hinv, by simp⟩
    | remove_head sp c =>
      simp [step, q_remove_head] at he
      obtain ⟨rfl, rfl, rfl, rfl⟩ := he
      exact ⟨k, hinv, by simp⟩
  | some q =>
    cases op with
    | insert_head s newh tmp_ok =>
      cases newh with
      | none =>
        simp [step, q_insert_head] at he
        obtain ⟨rfl, rfl, rfl, rfl⟩ := he
        exact ⟨k, hinv, by simp⟩
      | some a =>
        cases tmp_ok with
        | false =>
          simp [step, q_insert_head] at he
          obtain ⟨rfl, rfl, rfl, rfl⟩ := he
          exact ⟨k, hinv, by simp⟩
        | true =>
          obtain ⟨h2, q2, he2, hinv2⟩ := q_insert_head_counts h q s a k hinv (hok a rfl)
          simp [step, he2] at he
          obtain ⟨rfl, rfl, rfl, rfl⟩ := he
          exact ⟨k + 1, hinv2, by simp [Op.isInsert, Op.isRemove]⟩
    | insert_tail s newh tmp_ok =>
      cases newh with
      | none =>
        simp [step, q_insert_tail] at he
        obtain ⟨rfl, rfl, rfl, rfl⟩ := he
        exact ⟨k, hinv, by simp⟩
      | some a =>
        cases tmp_ok with
        | false =>
          simp [step, q_insert_tail] at he
          obtain ⟨rfl, rfl, rfl, rfl⟩ := he
          exact ⟨k, hinv, by simp⟩
        | true =>
          cases hr : q_insert_tail h (some q) s (some a) true with
          | none => simp [step, hr] at he
          | some r =>
            obtain ⟨b2, h2, q2⟩ := r
            obtain ⟨hb, hinv2⟩ := q_insert_tail_counts h q s a k hinv (hok a rfl) b2 h2 q2 hr
            simp [step, hr] at he
            obtain ⟨rfl, rfl, rfl, rfl⟩ := he
            subst hb
            exact ⟨k + 1, hinv2, by simp [Op.isInsert, Op.isRemove]⟩
    | remove_head sp c =>
      have hstep : q_remove_head h (some q) sp c = some (b, h1, q1, out) := he
      rcases q_remove_head_counts h q sp c k hinv b h1 q1 out hstep with ⟨hb, hinv2⟩ |
        ⟨hb, k1, hk1, hinv2⟩
      · subst hb
        exact ⟨k, hinv2, by simp⟩
      · subst hb
        refine ⟨k1, hinv2, ?_⟩
        simp [Op.isInsert, Op.isRemove]
        omega

/-- A sequence of calls, whenever it is defined. -/
theorem run_counts : ∀ (ops : List Op) (h : Heap) (q : Option queue_t) (k : Nat),
    Counts h q k → Admissible h q ops →
    ∀ h1 q1 rs, run h q ops = some (h1, q1, rs) →
      ∃ k1, Counts h1 q1 k1 ∧
        (k1 : Int) = k + countOk Op.isInsert ops rs - countOk Op.isRemove ops rs
  | [], h, q, k, hinv, _, h1, q1, rs, he => by
    simp [run] at he
    obtain ⟨rfl, rfl, rfl⟩ := he
    exact ⟨k, hinv, by simp [countOk]⟩
  | op :: ops, h, q, k, hinv, ⟨hok, hadm⟩, h1, q1, rs, he => by
    cases hs : step h q op with
    | none => simp [run, hs] at he
    | some r =>
      obtain ⟨b, h2, q2, out⟩ := r
      obtain ⟨k2, hinv2, hsz2⟩ := step_counts h q op k hinv hok b h2 q2 out hs
      cases hr : run h2 q2 ops with
      | none => simp [run, hs, hr] at he
      | some r1 =>
        obtain ⟨h3, q3, rs3⟩ := r1
        simp [run, hs, hr] at he
        obtain ⟨rfl, rfl, rfl⟩ := he
        obtain ⟨k3, hinv3, hsz3⟩ :=
          run_counts ops h2 q2 k2 hinv2 (hadm b h2 q2 out hs) _ _ _ hr
        refine ⟨k3, hinv3, ?_⟩
        rw [hsz3, hsz2]
        simp only [countOk]
        omega

/-- After `k` more successful insertions than removals `q_size` returns `k`
as an `int`. -/
theorem q_size_of_counts {h : Heap} {q : Option queue_t} {k : Nat} (hinv : Counts h q k) :
    q_size q = int_wrap (k : Int) := by
  cases q with
  | none =>
    have hk : k = 0 := hinv
    subst hk
    exact int_wrap_zero.symm
  | some q0 =>
    obtain ⟨ns, m, hc, hk, hl, _⟩ := hinv
    unfold q_size
    by_cases hh : q0.head = none
    · rw [hh] at hc
      have hnil : ns = [] := IsChain_none hc
      subst hnil
      simp only [hh, if_true]
      simp at hk
      subst hk
      unfold int_wrap
      push_cast
      omega
    · simp only [hh, if_false]
      rw [← hl, hk]
      unfold int_wrap
      push_cast
      omega

/-- After `k` more successful insertions than removals, `k` below 2^32, the
chain of a non-null queue has `k` nodes. -/
theorem chain_of_counts {h : Heap} {q : queue_t} {k : Nat} (hinv : Counts h (some q) k) :
    ∃ ns, IsChain h q.head ns ∧ ns.length ≤ k ∧ (k < 4294967296 → ns.length = k) := by
  obtain ⟨ns, m, hc, hk, _, _⟩ := hinv
  exact ⟨ns, hc, by omega, fun hlt => by omega⟩

theorem counts_q_new (h : Heap) (malloc_ok : Bool) : Counts h (q_new malloc_ok) 0 := by
  cases malloc_ok with
  | false => exact rfl
  | true => exact ⟨[], 0, rfl, rfl, int_wrap_zero, fun t ht => absurd ht (by simp)⟩

/-- In a state that holds `n` elements `q_size` returns `n` as an `int`. -/
theorem q_size_of_holds {h : Heap} {q : Option queue_t} {n : Nat} (hinv : Holds h q n) :
    q_size q = int_wrap (n : Int) := by
  cases q with
  | none =>
    have hn : n = 0 := hinv
    subst hn
    exact int_wrap_zero.symm
  | some q0 =>
    obtain ⟨ns, hc, hl, _, hlen⟩ := hinv
    subst hlen
    unfold q_size
    by_cases hh : q0.head = none
    · rw [hh] at hc
      have hnil : ns = [] := IsChain_none hc
      subst hnil
      simp [hh, int_wrap_zero]
    · simp [hh, hl]

/-- In a state that holds `n` elements the chain of a non-null queue has `n`
nodes. -/
theorem chain_of_holds {h : Heap} {q : queue_t} {n : Nat} (hinv : Holds h (some q) n) :
    ∃ ns, IsChain h q.head ns ∧ ns.length = n := by
  obtain ⟨ns, hc, _, _, hlen⟩ := hinv
  exact ⟨ns, hc, hlen⟩

/-- One call from a state that holds at most 2^32 elements, whenever it is
defined: the number of elements moves by one exactly for a successful
insertion or removal. -/
theorem step_spec (h : Heap) (q : Option queue_t) (op : Op) (n : Nat)
    (hinv : Holds h q n) (hn : n ≤ 4294967296) (hok : MallocOk h op) (hroom : RoomOk h q op)
    (b : Bool) (h1 : Heap) (q1 : Option queue_t) (out : Option Buffer)
    (he : step h q op = some (b, h1, q1, out)) :
    ∃ n1, Holds h1 q1 n1 ∧ n1 ≤ 4294967296 ∧
      (n1 : Int) = n + (if op.isInsert && b then 1 else 0)
        - (if op.isRemove && b then 1 else 0) := by
  cases q with
  | none =>
    cases op with
    | insert_head s newh tmp_ok =>
      simp [step, q_insert_head] at he
      obtain ⟨rfl, rfl, rfl, rfl⟩ := he
      exact ⟨n, hinv, hn, by simp⟩
    | insert_tail s newh tmp_ok =>
      simp [step, q_insert_tail] at he
      obtain ⟨rfl, rfl, rfl, rfl⟩ := he
      exact ⟨n, hinv, hn, by simp⟩
    | remove_head sp c =>
      simp [step, q_remove_head] at he
      obtain ⟨rfl, rfl, rfl, rfl⟩ := he
      exact ⟨n, hinv, hn, by simp⟩
  | some q =>
    obtain ⟨ns, hc, hl, ht, hlen⟩ := id hinv
    cases op with
    | insert_head s newh tmp_ok =>
      cases newh with
      | none =>
        simp [step, q_insert_head] at he
        obtain ⟨rfl, rfl, rfl, rfl⟩ := he
        exact ⟨n, hinv, hn, by simp⟩
      | some a =>
        cases tmp_ok with
        | false =>
          simp [step, q_insert_head] at he
          obtain ⟨rfl, rfl, rfl, rfl⟩ := he
          exact ⟨n, hinv, hn, by simp⟩
        | true =>
          have hr : ns.length < 4294967296 := hroom q ns rfl hc
          obtain ⟨q2, he2, hc2, _, _, hl2, ht2, _⟩ :=
            q_insert_head_spec h q s a ns hc hl ht (hok a rfl) hr
          simp [step, he2] at he
          obtain ⟨rfl, rfl, rfl, rfl⟩ := he
          refine ⟨n + 1, ⟨a :: ns, hc2, hl2, ht2, by simp [hlen]⟩, by omega, ?_⟩
          simp [Op.isInsert, Op.isRemove]
    | insert_tail s newh tmp_ok =>
      cases newh with
      | none =>
        simp [step, q_insert_tail] at he
        obtain ⟨rfl, rfl, rfl, rfl⟩ := he
        exact ⟨n, hinv, hn, by simp⟩
      | some a =>
        cases tmp_ok with
        | false =>
          simp [step, q_insert_tail] at he
          obtain ⟨rfl, rfl, rfl, rfl⟩ := he
          exact ⟨n, hinv, hn, by simp⟩
        | true =>
          have hr : ns.length < 4294967296 := hroom q ns rfl hc
          obtain ⟨h2, q2, he2, hc2, ht2, _, hl2, _⟩ :=
            q_insert_tail_spec h q s a ns hc hl ht (hok a rfl) hr
          simp [step, he2] at he
          obtain ⟨rfl, rfl, rfl, rfl⟩ := he
          refine ⟨n + 1, ⟨ns ++ [a], hc2, hl2, by simp [ht2], by simp [hlen]⟩, by omega, ?_⟩
          simp [Op.isInsert, Op.isRemove]
    | remove_head sp c =>
      have hstep : q_remove_head h (some q) sp c = some (b, h1, q1, out) := he
      cases sp with
      | none =>
        simp [q_remove_head] at hstep
        obtain ⟨rfl, rfl, rfl, rfl⟩ := hstep
        exact ⟨n, hinv, hn, by simp⟩
      | some buf =>
        cases ns with
        | nil =>
          have hh : q.head = none := hc
          simp [q_remove_head, hh] at hstep
          obtain ⟨rfl, rfl, rfl, rfl⟩ := hstep
          exact ⟨n, hinv, hn, by simp⟩
        | cons a rest =>
          cases hcopy : q_remove_head_copy buf (val h a) c with
          | none =>
            exfalso
            obtain ⟨hh, nd, hnd, _⟩ := hc
            rw [val_of_eq hnd] at hcopy
            simp [q_remove_head, hh, hnd, hcopy] at hstep
          | some buf1 =>
            have hr : rest.length < 4294967296 := by simp at hlen; omega
            obtain ⟨q2, he2, hc2, _, hl2, ht2, _⟩ :=
              q_remove_head_spec h q a rest buf buf1 c hc hl ht hcopy hr
            rw [he2] at hstep
            simp at hstep
            obtain ⟨rfl, rfl, rfl, rfl⟩ := hstep
            refine ⟨rest.length, ⟨rest, hc2, hl2, ht2, rfl⟩, by omega, ?_⟩
            simp at hlen
            simp [Op.isInsert, Op.isRemove]
            omega

/-- One call from a state that holds at most 2^32 elements is defined when
the array of a removal is as announced. -/
theorem step_defined (h : Heap) (q : Option queue_t) (op : Op) (n : Nat)
    (hinv : Holds h q n) (hn : n ≤ 4294967296) (hok : MallocOk h op) (hroom : RoomOk h q op)
    (hbuf : BufferOk op) : ∃ r, step h q op = some r := by
  cases q with
  | none =>
    cases op <;> exact ⟨_, rfl⟩
  | some q =>
    obtain ⟨ns, hc, hl, ht, hlen⟩ := id hinv
    cases op with
    | insert_head s newh tmp_ok => exact ⟨_, rfl⟩
    | insert_tail s newh tmp_ok =>
      cases newh with
      | none => exact ⟨_, rfl⟩
      | some a =>
        cases tmp_ok with
        | false => exact ⟨_, rfl⟩
        | true =>
          obtain ⟨h2, q2, he2, _⟩ :=
            q_insert_tail_spec h q s a ns hc hl ht (hok a rfl) (hroom q ns rfl hc)
          exact ⟨(true, h2, some q2, none), by simp [step, he2]⟩
    | remove_head sp c =>
      cases sp with
      | none => exact ⟨_, rfl⟩
      | some buf =>
        cases ns with
        | nil =>
          have hh : q.head = none := hc
          exact ⟨(false, h, some q, some buf), by simp [step, q_remove_head, hh]⟩
        | cons a rest =>
          obtain ⟨c1, c2, c3⟩ := hbuf buf rfl
          obtain ⟨q2, he2, _⟩ := q_remove_head_spec h q a rest buf _ c hc hl ht
            (q_remove_head_copy_spec buf (val h a) c c1 c2 c3) (by simp at hlen; omega)
          exact ⟨_, he2⟩

/-- A sequence of calls from an empty or null queue, each insertion finding
fewer than 2^32 elements, is defined when the arrays of its removals are as
announced. -/
theorem run_defined : ∀ (ops : List Op) (h : Heap) (q : Option queue_t) (n : Nat),
    Holds h q n → n ≤ 4294967296 → Admissible h q ops → Roomy h q ops →
    (∀ op ∈ ops, BufferOk op) → ∃ r, run h q ops = some r
  | [], h, q, _, _, _, _, _, _ => ⟨_, rfl⟩
  | op :: ops, h, q, n, hinv, hn, ⟨hok, hadm⟩, ⟨hroom, hrm⟩, hbuf => by
    obtain ⟨r, hs⟩ := step_defined h q op n hinv hn hok hroom (hbuf op (List.mem_cons_self _ _))
    obtain ⟨b, h2, q2, out⟩ := r
    obtain ⟨n2, hinv2, hn2, _⟩ := step_spec h q op n hinv hn hok hroom b h2 q2 out hs
    obtain ⟨r1, hr⟩ := run_defined ops h2 q2 n2 hinv2 hn2 (hadm b h2 q2 out hs)
      (hrm b h2 q2 out hs) (fun o ho => hbuf o (List.mem_cons_of_mem _ ho))
    exact ⟨(r1.1, r1.2.1, (b, out) :: r1.2.2), by simp [run, hs, hr]⟩

theorem holds_q_new (h : Heap) (malloc_ok : Bool) : Holds h (q_new malloc_ok) 0 := by
  cases malloc_ok with
  | false => exact rfl
  | true => exact ⟨[], rfl, int_wrap_zero, rfl, rfl⟩

/-- C8, amended: for every finite sequence of `q_insert_head`,
`q_insert_tail` and `q_remove_head` calls, each of which may succeed or fail,
applied to the result of `q_new`: whenever the run is defined, `q_size` of the
final queue is the number of successful insertions minus the number of
successful removals kept as an `int`; it is that number itself whenever the
number is at most `INT_MAX`, and the number is then the number of nodes of the
chain from the head, as it is for every number below 2^32.  The run is defined
when the array of every removal is as announced and every insertion finds
fewer than 2^32 elements.  `q_size` of a null or empty queue is 0. -/
theorem q_size_counts (h : Heap) (malloc_ok : Bool) (ops : List Op)
    (hadm : Admissible h (q_new malloc_ok) ops) :
    ((∀ op ∈ ops, BufferOk op) → Roomy h (q_new malloc_ok) ops →
      ∃ r, run h (q_new malloc_ok) ops = some r) ∧
    (∀ h1 q1 rs, run h (q_new malloc_ok) ops = some (h1, q1, rs) →
      q_size q1 = int_wrap (countOk Op.isInsert ops rs - countOk Op.isRemove ops rs) ∧
      (countOk Op.isInsert ops rs - countOk Op.isRemove ops rs ≤ INT_MAX →
        q_size q1 = countOk Op.isInsert ops rs - countOk Op.isRemove ops rs) ∧
      ∀ q2, q1 = some q2 → ∃ ns, IsChain h1 q2.head ns ∧
        (countOk Op.isInsert ops rs - countOk Op.isRemove ops rs < 4294967296 →
          (ns.length : Int) = countOk Op.isInsert ops rs - countOk Op.isRemove ops rs)) ∧
    q_size none = 0 ∧ ∀ q0 : queue_t, q0.head = none → q_size (some q0) = 0 := by
  refine ⟨fun hbuf hroom => run_defined ops h (q_new malloc_ok) 0 (holds_q_new h malloc_ok)
    (by decide) hadm hroom hbuf, ?_, rfl, fun q0 hq => by simp [q_size, hq]⟩
  intro h1 q1 rs he
  obtain ⟨k1, hinv1, hsz⟩ :=
    run_counts ops h (q_new malloc_ok) 0 (counts_q_new h malloc_ok) hadm h1 q1 rs he
  have hk : countOk Op.isInsert ops rs - countOk Op.isRemove ops rs = (k1 : Int) := by
    rw [hsz]; simp
  rw [hk]
  refine ⟨q_size_of_counts hinv1, ?_, ?_⟩
  · intro hle
    rw [q_size_of_counts hinv1]
    unfold INT_MAX at hle
    unfold int_wrap
    omega
  · intro q2 hq
    subst hq
    obtain ⟨ns, hc, _, hlen⟩ := chain_of_counts hinv1
    exact ⟨ns, hc, fun hlt => by rw [hlen (by omega)]⟩

theorem exOps_admissible : Admissible Heap.empty (q_new true) exOps := by
  refine ⟨fun a _ => rfl, fun b h1 q1 out he => ?_⟩
  simp [step, q_insert_tail, q_new] at he
  obtain ⟨rfl, rfl, rfl, rfl⟩ := he
  refine ⟨fun a ha => by simp at ha, fun b h1 q1 out he => ?_⟩
  simp [step, q_insert_head] at he
  obtain ⟨rfl, rfl, rfl, rfl⟩ := he
  refine ⟨trivial, fun b h1 q1 out he => ?_⟩
  simp [step, q_remove_head, Heap.write, q_remove_head_copy, strncpy, poke, strlen] at he
  obtain ⟨rfl, rfl, rfl, rfl⟩ := he
  exact ⟨trivial, fun b h1 q1 out he => trivial⟩

theorem q_size_counts_witness :
    Admissible Heap.empty (q_new true) exOps ∧
    ((∀ op ∈ exOps, BufferOk op) → Roomy Heap.empty (q_new true) exOps →
      ∃ r, run Heap.empty (q_new true) exOps = some r) ∧
    (∀ h1 q1 rs, run Heap.empty (q_new true) exOps = some (h1, q1, rs) →
      q_size q1 = int_wrap (countOk Op.isInsert exOps rs - countOk Op.isRemove exOps rs) ∧
      (countOk Op.isInsert exOps rs - countOk Op.isRemove exOps rs ≤ INT_MAX →
        q_size q1 = countOk Op.isInsert exOps rs - countOk Op.isRemove exOps rs) ∧
      ∀ q2, q1 = some q2 → ∃ ns, IsChain h1 q2.head ns ∧
        (countOk Op.isInsert exOps rs - countOk Op.isRemove exOps rs < 4294967296 →
          (ns.length : Int) = countOk Op.isInsert exOps rs - countOk Op.isRemove exOps rs)) ∧
    q_size none = 0 ∧ ∀ q0 : queue_t, q0.head = none → q_size (some q0) = 0 :=
  ⟨exOps_admissible, q_size_counts Heap.empty true exOps exOps_admissible⟩

/-! ## First in, first out -/

theorem run_append : ∀ (ops1 ops2 : List Op) (h : Heap) (q : Option queue_t) {h1 h2 : Heap}
    {q1 q2 : Option queue_t} {rs1 rs2 : List (Bool × Option Buffer)},
    run h q ops1 = some (h1, q1, rs1) → run h1 q1 ops2 = some (h2, q2, rs2) →
    run h q (ops1 ++ ops2) = some (h2, q2, rs1 ++ rs2)
  | [], ops2, h, q, _, _, _, _, _, _, he1, he2 => by
    simp [run] at he1
    obtain ⟨rfl, rfl, rfl⟩ := he1
    simpa using he2
  | op :: ops1, ops2, h, q, h1, h2, q1, q2, rs1, rs2, he1, he2 => by
    cases hs : step h q op with
    | none => simp [run, hs] at he1
    | some r =>
      obtain ⟨b, h3, q3, out⟩ := r
      cases hr : run h3 q3 ops1 with
      | none => simp [run, hs, hr] at he1
      | some r1 =>
        obtain ⟨h4, q4, rs4⟩ := r1
        simp [run, hs, hr] at he1
        obtain ⟨rfl, rfl, rfl⟩ := he1
        have := run_append ops1 ops2 h3 q3 hr he2
        simp [run, hs, this]

theorem payloads_congr {h h1 : Heap} {l : List Addr} (hv : ∀ x ∈ l, val h1 x = val h x) :
    payloads h1 l = payloads h l :=
  List.map_congr_left hv

/-- Successful tail insertions append their nodes and texts to the chain in
the order of the calls. -/
theorem run_insertTailOps : ∀ (items : List (Text × Addr)) (h : Heap) (q : queue_t)
    (ns : List Addr), IsChain h q.head ns → int_wrap (ns.length : Int) = q.size →
    ns.getLast? = q.tail → (∀ p ∈ items, h p.2 = none) → (items.map Prod.snd).Nodup →
    ns.length + items.length ≤ 4294967296 →
    ∃ h1 q1, run h (some q) (insertTailOps items) =
        some (h1, some q1, List.replicate items.length (true, none)) ∧
      IsChain h1 q1.head (ns ++ items.map Prod.snd) ∧
      int_wrap ((ns ++ items.map Prod.snd).length : Int) = q1.size ∧
      (ns ++ items.map Prod.snd).getLast? = q1.tail ∧
      payloads h1 (ns ++ items.map Prod.snd) = payloads h ns ++ items.map Prod.fst
  | [], h, q, ns, hc, hl, ht, _, _, _ =>
    ⟨h, q, rfl, by simpa using hc, by simpa using hl, by simpa using ht, by simp⟩
  | (s, a) :: items, h, q, ns, hc, hl, ht, hfresh, hnd, hroom => by
    have hfa : h a = none := hfresh (s, a) (List.mem_cons_self _ _)
    obtain ⟨h1, q1, he, hc1, ht1, _, hsz1, h1a, _, _, hval⟩ :=
      q_insert_tail_spec h q s a ns hc hl ht hfa (by simp at hroom; omega)
    have hnd1 := List.nodup_cons.1 hnd
    have hfresh1 : ∀ p ∈ items, h1 p.2 = none := by
      intro p hp
      have hp2 : p.2 ∈ items.map Prod.snd := List.mem_map_of_mem Prod.snd hp
      have hpa : p.2 ≠ a := fun e => hnd1.1 (e ▸ hp2)
      have := hval p.2 hpa
      rw [hfresh p (List.mem_cons_of_mem _ hp)] at this
      simpa using this
    obtain ⟨h2, q2, he2, hc2, hl2, ht2, hp2⟩ := run_insertTailOps items h1 q1 (ns ++ [a]) hc1
      hsz1 (by simp [ht1]) hfresh1 hnd1.2 (by simp at hroom ⊢; omega)
    have ha : a ∉ ns := by
      intro hm
      obtain ⟨n, hn⟩ := IsChain_alloc hc a hm
      rw [hfa] at hn
      exact absurd hn (by simp)
    have hp1 : payloads h1 (ns ++ [a]) = payloads h ns ++ [s] := by
      have e1 : payloads h1 ns = payloads h ns := by
        refine payloads_congr (fun x hx => ?_)
        have hxa : x ≠ a := fun e => ha (e ▸ hx)
        have := hval x hxa
        unfold val
        cases h1x : h1 x <;> cases hx0 : h x <;> simp_all
      have e2 : val h1 a = s := val_of_eq h1a
      simp only [payloads, List.map_append, List.map_cons, List.map_nil] at e1 ⊢
      rw [e1, e2]
    refine ⟨h2, q2, ?_, ?_, ?_, ?_, ?_⟩
    · have hstep : step h (some q) (Op.insert_tail s (some a) true)
          = some (true, h1, some q1, none) := by simp [step, he]
      show run h (some q) (Op.insert_tail s (some a) true :: insertTailOps items) = _
      simp only [run, hstep, he2, Option.map_some', List.replicate_succ, List.length_cons]
    · simpa using hc2
    · simpa using hl2
    · simpa using ht2
    · simp only [List.map_cons, List.append_assoc, List.singleton_append] at hp2 ⊢
      rw [hp2, hp1]
      simp

/-- Removals into arrays that hold every text take the nodes of the chain in
order, each array receiving the whole text and its terminator, and leave the
queue empty. -/
theorem run_removeHeadOps : ∀ (ns : List Addr) (h : Heap) (q : queue_t)
    (bufs : List (Buffer × Nat)), IsChain h q.head ns → int_wrap (ns.length : Int) = q.size →
    ns.getLast? = q.tail → bufs.length = ns.length → ns.length ≤ 4294967296 →
    (∀ b ∈ bufs, ∀ a ∈ ns, (val h a).length < b.2 ∧ b.2 ≤ b.1.length ∧ b.2 < SIZE_MOD) →
    ∃ h1 outs, run h (some q) (removeHeadOps bufs) =
        some (h1, some { head := none, tail := none, size := 0 },
          outs.map fun o => (true, some o)) ∧
      List.Forall₂ (fun t o => o.take (t.length + 1) = t ++ [0]) (payloads h ns) outs
  | [], h, q, bufs, hc, hl, ht, hlen, _, _ => by
    have hb : bufs = [] := List.length_eq_zero.1 (by simpa using hlen)
    subst hb
    have hq : q = { head := none, tail := none, size := 0 } := by
      have e1 : q.head = none := hc
      have e2 : q.tail = none := by rw [← ht]; rfl
      have e3 : q.size = 0 := by rw [← hl]; rfl
      cases q
      simp_all
    exact ⟨h, [], by simp [removeHeadOps, run, hq], by simp [payloads]⟩
  | a :: rest, h, q, bufs, hc, hl, ht, hlen, hroom, hcap => by
    cases bufs with
    | nil => simp at hlen
    | cons b bs =>
      obtain ⟨buf, c⟩ := b
      obtain ⟨hlt, hcl, hsz⟩ := hcap (buf, c) (List.mem_cons_self _ _) a (List.mem_cons_self _ _)
      simp only at hlt hcl hsz
      have hcopy := q_remove_head_copy_spec buf (val h a) c (by omega) hcl hsz
      have hmin : min (strlen (val h a)) (c - 1) = (val h a).length := by
        unfold strlen; omega
      rw [hmin, List.take_length (val h a)] at hcopy
      obtain ⟨q1, he, hc1, _, hsz1, ht1, _⟩ := q_remove_head_spec h q a rest buf _ c hc hl ht hcopy
        (by simp at hroom; omega)
      have ha : a ∉ rest := (List.nodup_cons.1 (IsChain_nodup hc)).1
      have hval : ∀ x ∈ rest, val (h.free a) x = val h x := by
        intro x hx
        have hxa : x ≠ a := fun e => ha (e ▸ hx)
        simp [val, Heap.free, hxa]
      obtain ⟨h2, outs, he2, hf2⟩ := run_removeHeadOps rest (h.free a) q1 bs hc1
        hsz1 ht1 (by simpa using hlen) (by simp at hroom; omega)
        (fun b1 hb1 x hx => by
          rw [hval x hx]
          exact hcap b1 (List.mem_cons_of_mem _ hb1) x (List.mem_cons_of_mem _ hx))
      rw [payloads_congr hval] at hf2
      refine ⟨h2, (val h a ++ 0 :: buf.drop ((val h a).length + 1)) :: outs, ?_, ?_⟩
      · have hstep : step h (some q) (Op.remove_head (some buf) c)
            = some (true, h.free a, some q1,
              some (val h a ++ 0 :: buf.drop ((val h a).length + 1))) := by simp [step, he]
        show run h (some q) (Op.remove_head (some buf) c :: removeHeadOps bs) = _
        simp only [run, hstep, he2, Option.map_some', List.map_cons]
      · refine List.Forall₂.cons ?_ hf2
        simp [List.take_append_eq_append_take]

/-- C9, amended: first in, first out, for at most 2^32 texts.  Starting from
an empty queue, successful calls `q_insert_tail(s1)`, ...,
`q_insert_tail(sn)`, `n` at most 2^32, followed by `n` calls of
`q_remove_head`, each with an array whose announced size exceeds the length
of every text, are all defined and all return true; the arrays receive
`s1`, ..., `sn` in this order, each followed by its terminator, and the queue
is left empty: head and tail `NULL`, count 0. -/
theorem fifo_order (h : Heap) (items : List (Text × Addr)) (bufs : List (Buffer × Nat))
    (hfresh : ∀ p ∈ items, h p.2 = none) (hnd : (items.map Prod.snd).Nodup)
    (hlen : bufs.length = items.length) (hroom : items.length ≤ 4294967296)
    (hcap : ∀ b ∈ bufs, ∀ p ∈ items, p.1.length < b.2 ∧ b.2 ≤ b.1.length ∧ b.2 < SIZE_MOD) :
    ∃ h1 outs, run h (some { head := none, tail := none, size := 0 })
        (insertTailOps items ++ removeHeadOps bufs) =
          some (h1, some { head := none, tail := none, size := 0 },
            List.replicate items.length (true, none) ++ outs.map fun o => (true, some o)) ∧
      List.Forall₂ (fun t o => o.take (t.length + 1) = t ++ [0]) (items.map Prod.fst) outs := by
  obtain ⟨h1, q1, he1, hc1, hl1, ht1, hp1⟩ :=
    run_insertTailOps items h { head := none, tail := none, size := 0 } [] rfl int_wrap_zero rfl
      hfresh hnd (by simpa using hroom)
  simp only [List.nil_append] at hc1 hl1 ht1 hp1
  have hp1 : payloads h1 (items.map Prod.snd) = items.map Prod.fst := by
    rw [hp1]; simp [payloads]
  have hcap1 : ∀ b ∈ bufs, ∀ a ∈ items.map Prod.snd,
      (val h1 a).length < b.2 ∧ b.2 ≤ b.1.length ∧ b.2 < SIZE_MOD := by
    intro b hb a ha
    have hmem : val h1 a ∈ payloads h1 (items.map Prod.snd) := List.mem_map_of_mem _ ha
    rw [hp1] at hmem
    obtain ⟨p, hp, hpe⟩ := List.mem_map.1 hmem
    rw [← hpe]
    exact hcap b hb p hp
  obtain ⟨h2, outs, he2, hf2⟩ := run_removeHeadOps (items.map Prod.snd) h1 q1 bufs hc1 hl1 ht1
    (by simpa using hlen) (by simpa using hroom) hcap1
  rw [hp1] at hf2
  exact ⟨h2, outs, run_append _ _ _ _ he1 he2, hf2⟩

theorem fifo_order_witness :
    ∃ h1 outs, run Heap.empty (some { head := none, tail := none, size := 0 })
        (insertTailOps [([98], 1), ([97, 99], 2)] ++ removeHeadOps [([7, 7, 7], 3), ([7, 7, 7, 7], 4)]) =
          some (h1, some { head := none, tail := none, size := 0 },
            List.replicate [(([98] : Text), (1 : Addr)), ([97, 99], 2)].length (true, none) ++
              outs.map fun o => (true, some o)) ∧
      List.Forall₂ (fun t o => o.take (t.length + 1) = t ++ [0])
        ([(([98] : Text), (1 : Addr)), ([97, 99], 2)].map Prod.fst) outs :=
  fifo_order Heap.empty [([98], 1), ([97, 99], 2)] [([7, 7, 7], 3), ([7, 7, 7, 7], 4)]
    (fun _ _ => rfl) (by decide) (by decide) (by decide) (by decide)

/-! ## Counts beyond `INT_MAX` -/

theorem lineItems_length (s : Text) (n : Nat) : (lineItems s n).length = n := by
  simp [lineItems]

theorem lineItems_snd (s : Text) (n : Nat) : (lineItems s n).map Prod.snd = List.range n := by
  simp [lineItems, Function.comp_def]

theorem lineItems_nodup (s : Text) (n : Nat) : ((lineItems s n).map Prod.snd).Nodup := by
  rw [lineItems_snd]
  exact List.nodup_range n

theorem lineItems_fst (s : Text) (n : Nat) : ∀ p ∈ lineItems s n, p.1 = s := by
  intro p hp
  unfold lineItems at hp
  simp at hp
  obtain ⟨a, _, rfl⟩ := hp
  rfl

theorem insertTailOps_append (l1 l2 : List (Text × Addr)) :
    insertTailOps (l1 ++ l2) = insertTailOps l1 ++ insertTailOps l2 := by
  simp [insertTailOps]

/-- A `q_insert_tail` allocates no address but the one it is given. -/
theorem q_insert_tail_fresh (h : Heap) (q : Option queue_t) (s : Text) (newh : Option Addr)
    (tmp_ok : Bool) (b : Bool) (h1 : Heap) (q1 : Option queue_t)
    (he : q_insert_tail h q s newh tmp_ok = some (b, h1, q1)) (x : Addr) (hx : h x = none)
    (hne : newh ≠ some x) : h1 x = none := by
  cases q with
  | none =>
    simp [q_insert_tail] at he
    obtain ⟨_, rfl, _⟩ := he
    exact hx
  | some q =>
    cases newh with
    | none =>
      simp [q_insert_tail] at he
      obtain ⟨_, rfl, _⟩ := he
      exact hx
    | some a =>
      have hxa : x ≠ a := fun e => hne (by rw [e])
      cases tmp_ok with
      | false =>
        simp [q_insert_tail] at he
        obtain ⟨_, rfl, _⟩ := he
        exact hx
      | true =>
        by_cases hs : q.size = 0
        · simp [q_insert_tail, hs] at he
          obtain ⟨_, rfl, _⟩ := he
          rw [Heap.write_other _ _ hxa]
          exact hx
        · cases hqt : q.tail with
          | none => simp [q_insert_tail, hs, hqt] at he
          | some t =>
            cases h1t : (h.write a { value := s, next := none }) t with
            | none => simp [q_insert_tail, hs, hqt, h1t] at he
            | some nt =>
              simp [q_insert_tail, hs, hqt, h1t] at he
              obtain ⟨_, rfl, _⟩ := he
              have hxt : x ≠ t := by
                intro e
                subst e
                rw [Heap.write_other _ _ hxa, hx] at h1t
                exact absurd h1t (by simp)
              rw [Heap.write_other _ _ hxt, Heap.write_other _ _ hxa]
              exact hx

/-- Tail insertions at addresses that are free and pairwise distinct find the
allocator of `MallocOk` at every call. -/
theorem admissible_insertTailOps : ∀ (items : List (Text × Addr)) (h : Heap)
    (q : Option queue_t), (∀ p ∈ items, h p.2 = none) → (items.map Prod.snd).Nodup →
    Admissible h q (insertTailOps items)
  | [], _, _, _, _ => trivial
  | (s, a) :: items, h, q, hfresh, hnd => by
    have hnd1 := List.nodup_cons.1 hnd
    refine ⟨fun x hx => ?_, fun b h1 q1 out he => ?_⟩
    · have hxa : x = a := (Option.some.inj hx).symm
      rw [hxa]
      exact hfresh (s, a) (List.mem_cons_self _ _)
    · have he1 : step h q (Op.insert_tail s (some a) true) = some (b, h1, q1, out) := he
      cases hr : q_insert_tail h q s (some a) true with
      | none => simp [step, hr] at he1
      | some r =>
        obtain ⟨b2, h2, q2⟩ := r
        simp [step, hr] at he1
        obtain ⟨rfl, rfl, rfl, rfl⟩ := he1
        refine admissible_insertTailOps items _ _ (fun p hp => ?_) hnd1.2
        refine q_insert_tail_fresh h q s (some a) true _ _ _ hr p.2
          (hfresh p (List.mem_cons_of_mem _ hp)) (fun e => ?_)
        have hpa : a = p.2 := Option.some.inj e
        have hmem : p.2 ∈ items.map Prod.snd := List.mem_map_of_mem Prod.snd hp
        rw [← hpa] at hmem
        exact hnd1.1 hmem

theorem countOk_insertTailOps : ∀ (items : List (Text × Addr)),
    countOk Op.isInsert (insertTailOps items) (List.replicate items.length (true, none))
        = items.length ∧
      countOk Op.isRemove (insertTailOps items) (List.replicate items.length (true, none)) = 0
  | [] => ⟨rfl, rfl⟩
  | p :: items => by
    obtain ⟨h1, h2⟩ := countOk_insertTailOps items
    have e1 : countOk Op.isInsert (insertTailOps (p :: items))
        (List.replicate (p :: items).length (true, none)) =
        1 + countOk Op.isInsert (insertTailOps items)
          (List.replicate items.length (true, none)) := rfl
    have e2 : countOk Op.isRemove (insertTailOps (p :: items))
        (List.replicate (p :: items).length (true, none)) =
        0 + countOk Op.isRemove (insertTailOps items)
          (List.replicate items.length (true, none)) := rfl
    rw [e1, e2, h1, h2]
    constructor
    · simp; omega
    · simp

/-- Successful tail insertions of one text at the addresses `0, ..., n - 1`,
`n` at most 2^32, into the empty queue of `q_new`. -/
theorem run_lineItems (s : Text) (n : Nat) (hn : n ≤ 4294967296) :
    ∃ h1 q1, run Heap.empty (q_new true) (insertTailOps (lineItems s n)) =
        some (h1, some q1, List.replicate (lineItems s n).length (true, none)) ∧
      Holds h1 (some q1) n := by
  obtain ⟨h1, q1, he, hc, hl, ht, _⟩ := run_insertTailOps (lineItems s n) Heap.empty
    { head := none, tail := none, size := 0 } [] rfl int_wrap_zero rfl (fun _ _ => rfl)
    (lineItems_nodup s n) (by rw [lineItems_length]; simpa using hn)
  refine ⟨h1, q1, he, [] ++ (lineItems s n).map Prod.snd, hc, hl, ht, ?_⟩
  simp [lineItems_length]

theorem run_lineItems_size (s : Text) (n : Nat) (hn : n ≤ 4294967296) :
    ∃ h1 q1, run Heap.empty (q_new true) (insertTailOps (lineItems s n)) =
        some (h1, q1, List.replicate (lineItems s n).length (true, none)) ∧
      countOk Op.isInsert (insertTailOps (lineItems s n))
          (List.replicate (lineItems s n).length (true, none))
        - countOk Op.isRemove (insertTailOps (lineItems s n))
          (List.replicate (lineItems s n).length (true, none)) = n ∧
      q_size q1 = int_wrap (n : Int) := by
  obtain ⟨h1, q1, he, hold⟩ := run_lineItems s n hn
  obtain ⟨c1, c2⟩ := countOk_insertTailOps (lineItems s n)
  refine ⟨h1, some q1, he, ?_, q_size_of_holds hold⟩
  rw [c1, c2, lineItems_length]
  simp

/-- C8, the claim fails: after 2^31 successful `q_insert_tail` calls on the
queue of `q_new`, each with a free address, the number of successful
insertions minus removals is 2^31 = 2147483648, and `q_size` returns
-2147483648. -/
theorem q_size_wraps_at_int_max :
    Admissible Heap.empty (q_new true) (insertTailOps (lineItems [] 2147483648)) ∧
    ∃ h1 q1, run Heap.empty (q_new true) (insertTailOps (lineItems [] 2147483648)) =
        some (h1, q1, List.replicate (lineItems [] 2147483648).length (true, none)) ∧
      countOk Op.isInsert (insertTailOps (lineItems [] 2147483648))
          (List.replicate (lineItems [] 2147483648).length (true, none))
        - countOk Op.isRemove (insertTailOps (lineItems [] 2147483648))
          (List.replicate (lineItems [] 2147483648).length (true, none)) = 2147483648 ∧
      q_size q1 = -2147483648 :=
  ⟨admissible_insertTailOps _ _ _ (fun _ _ => rfl) (lineItems_nodup _ _),
    (run_lineItems_size [] 2147483648 (by decide)).imp fun _ hq =>
      hq.imp fun _ hr => ⟨hr.1, hr.2.1.trans (by decide), hr.2.2.trans (by decide)⟩⟩

/-! ## More than 2^32 elements -/

theorem run_append_inv : ∀ (ops1 ops2 : List Op) (h : Heap) (q : Option queue_t) {h1 h2 : Heap}
    {q1 q2 : Option queue_t} {rs1 rs : List (Bool × Option Buffer)},
    run h q ops1 = some (h1, q1, rs1) → run h q (ops1 ++ ops2) = some (h2, q2, rs) →
    ∃ rs2, run h1 q1 ops2 = some (h2, q2, rs2) ∧ rs = rs1 ++ rs2
  | [], ops2, h, q, _, _, _, _, _, rs, he1, he2 => by
    simp [run] at he1
    obtain ⟨rfl, rfl, rfl⟩ := he1
    exact ⟨rs, by simpa using he2, by simp⟩
  | op :: ops1, ops2, h, q, h1, h2, q1, q2, rs1, rs, he1, he2 => by
    cases hs : step h q op with
    | none => simp [run, hs] at he1
    | some r =>
      obtain ⟨b, h3, q3, out⟩ := r
      cases hr : run h3 q3 ops1 with
      | none => simp [run, hs, hr] at he1
      | some r1 =>
        obtain ⟨h4, q4, rs4⟩ := r1
        simp [run, hs, hr] at he1
        obtain ⟨rfl, rfl, rfl⟩ := he1
        cases hr2 : run h3 q3 (ops1 ++ ops2) with
        | none => simp [run, hs, hr2] at he2
        | some r2 =>
          obtain ⟨h5, q5, rs5⟩ := r2
          simp [run, hs, hr2] at he2
          obtain ⟨rfl, rfl, rfl⟩ := he2
          obtain ⟨rs2, e1, e2⟩ := run_append_inv ops1 ops2 h3 q3 hr hr2
          exact ⟨rs2, e1, by simp [e2]⟩

theorem lineItems_head (s : Text) (n : Nat) (hn : 0 < n) :
    ∃ rest, lineItems s n = (s, 0) :: rest := by
  cases n with
  | zero => exact absurd hn (by decide)
  | succ m =>
    unfold lineItems
    rw [List.range_succ_eq_map]
    exact ⟨_, rfl⟩

/-- Removing the only element "b" of a queue into an array of two bytes. -/
theorem step_remove_single (h : Heap) (a : Addr) :
    step (h.write a { value := [98], next := none })
        (some { head := some a, tail := some a, size := 1 }) (Op.remove_head (some [7, 7]) 2) =
      some (true, (h.write a { value := [98], next := none }).free a,
        some { head := none, tail := none, size := 0 }, some [98, 0]) := by
  have e : int_wrap 0 = 0 := by decide
  simp [step, q_remove_head, q_remove_head_copy, strncpy, poke, strlen, e]

/-- After 2^32 successful `q_insert_tail` calls the count is 0 again, the
next `q_insert_tail` makes its node the head, and the next `q_remove_head`
returns the text of that node. -/
theorem fifo_drop (n : Nat) (hn : n = 4294967296) :
    ∃ hI qI, run Heap.empty (some { head := none, tail := none, size := 0 })
        (insertTailOps (lineItems [97] n ++ [([98], n)])) =
        some (hI, some qI,
          List.replicate (lineItems [97] n ++ [([98], n)]).length (true, none)) ∧
      ∃ h2 q2, step hI (some qI) (Op.remove_head (some [7, 7]) 2) =
        some (true, h2, q2, some [98, 0]) := by
  obtain ⟨h1, q1, he, hc, hl, ht, _⟩ := run_insertTailOps (lineItems [97] n) Heap.empty
    { head := none, tail := none, size := 0 } [] rfl int_wrap_zero rfl (fun _ _ => rfl)
    (lineItems_nodup _ n) (by rw [lineItems_length]; simp; omega)
  have hlen : ([] ++ (lineItems [97] n).map Prod.snd).length = n := by
    simp [lineItems_length]
  rw [hlen, hn] at hl
  have hs : q1.size = 0 := hl.symm.trans (by decide)
  have e : q_insert_tail h1 (some q1) [98] (some n) true = some (true,
      h1.write n { value := [98], next := none },
      some { head := some n, tail := some n, size := 1 }) := by
    have e1 : int_wrap 1 = 1 := by decide
    simp [q_insert_tail, hs, e1]
  have hrun2 : run h1 (some q1) (insertTailOps [([98], n)]) =
      some (h1.write n { value := [98], next := none },
        some { head := some n, tail := some n, size := 1 }, [(true, none)]) := by
    simp [insertTailOps, run, step, e]
  have hrun := run_append _ _ _ _ he hrun2
  refine ⟨_, _, ?_, _, _, step_remove_single h1 n⟩
  rw [insertTailOps_append, hrun, List.length_append, List.length_singleton,
    List.replicate_succ']

/-- With 2^32 + 1 texts the first removal does not return the first text. -/
theorem fifo_fails (n : Nat) (hn : n = 4294967296) :
    ¬ ∃ h1 outs, run Heap.empty (some { head := none, tail := none, size := 0 })
        (insertTailOps (lineItems [97] n ++ [([98], n)]) ++
          removeHeadOps (List.replicate (n + 1) ([7, 7], 2))) =
          some (h1, some { head := none, tail := none, size := 0 },
            List.replicate (lineItems [97] n ++ [([98], n)]).length (true, none) ++
              outs.map fun o => (true, some o)) ∧
      List.Forall₂ (fun t o => o.take (t.length + 1) = t ++ [0])
        ((lineItems [97] n ++ [([98], n)]).map Prod.fst) outs := by
  rintro ⟨h1, outs, he, hf⟩
  obtain ⟨hI, qI, heI, h2, q2, hstep⟩ := fifo_drop n hn
  obtain ⟨rs2, he2, hrs⟩ := run_append_inv _ _ _ _ heI he
  have hout : (outs.map fun o => ((true, some o) : Bool × Option Buffer)) = rs2 :=
    List.append_cancel_left hrs
  have hR : removeHeadOps (List.replicate (n + 1) (([7, 7], 2) : Buffer × Nat)) =
      Op.remove_head (some [7, 7]) 2 :: removeHeadOps (List.replicate n ([7, 7], 2)) := by
    simp [removeHeadOps, List.replicate_succ]
  rw [hR] at he2
  cases hr : run h2 q2 (removeHeadOps (List.replicate n ([7, 7], 2))) with
  | none => simp [run, hstep, hr] at he2
  | some r1 =>
    obtain ⟨h3, q3, rs3⟩ := r1
    simp [run, hstep, hr] at he2
    obtain ⟨_, _, hrs2⟩ := he2
    rw [← hrs2] at hout
    obtain ⟨rest, hrest⟩ := lineItems_head [97] n (by omega)
    rw [hrest] at hf
    cases outs with
    | nil => simp at hout
    | cons o os =>
      simp at hout
      have ho : o = [98, 0] := hout.1
      subst ho
      simp at hf

/-- The texts and arrays of `fifo_fails`: the addresses are free and pairwise
distinct, there is one array for each text, and each array has room for every
text. -/
theorem fifo_inputs (n : Nat) :
    (∀ p ∈ lineItems [97] n ++ [([98], n)], Heap.empty p.2 = none) ∧
      ((lineItems [97] n ++ [([98], n)]).map Prod.snd).Nodup ∧
      (List.replicate (n + 1) (([7, 7], 2) : Buffer × Nat)).length =
        (lineItems [97] n ++ [([98], n)]).length ∧
      ∀ b ∈ List.replicate (n + 1) (([7, 7], 2) : Buffer × Nat),
        ∀ p ∈ lineItems [97] n ++ [([98], n)],
          p.1.length < b.2 ∧ b.2 ≤ b.1.length ∧ b.2 < SIZE_MOD := by
  refine ⟨fun _ _ => rfl, ?_, ?_, ?_⟩
  · rw [List.map_append, lineItems_snd]
    simp only [List.map_cons, List.map_nil]
    rw [← List.range_succ]
    exact List.nodup_range _
  · simp [lineItems_length]
  · intro b hb p hp
    have hbe : b = ([7, 7], 2) := List.eq_of_mem_replicate hb
    subst hbe
    have hp1 : p.1.length = 1 := by
      rcases List.mem_append.1 hp with hp | hp
      · rw [lineItems_fst _ _ p hp]; rfl
      · simp at hp
        subst hp
        rfl
    rw [hp1]
    decide

/-- C9, the claim fails: take 2^32 + 1 texts, the first 2^32 of them "a" and
the last one "b", each with a free address of its own, and as many arrays of
two bytes.  The insertions all return true; the first `q_remove_head` after
them returns "b", not "a"; and the run is not the first-in, first-out run. -/
theorem fifo_lost_beyond_2_32 :
    ((∀ p ∈ lineItems [97] 4294967296 ++ [([98], 4294967296)], Heap.empty p.2 = none) ∧
      ((lineItems [97] 4294967296 ++ [([98], 4294967296)]).map Prod.snd).Nodup ∧
      (List.replicate (4294967296 + 1) (([7, 7], 2) : Buffer × Nat)).length =
        (lineItems [97] 4294967296 ++ [([98], 4294967296)]).length ∧
      ∀ b ∈ List.replicate (4294967296 + 1) (([7, 7], 2) : Buffer × Nat),
        ∀ p ∈ lineItems [97] 4294967296 ++ [([98], 4294967296)],
          p.1.length < b.2 ∧ b.2 ≤ b.1.length ∧ b.2 < SIZE_MOD) ∧
    (∃ hI qI, run Heap.empty (some { head := none, tail := none, size := 0 })
        (insertTailOps (lineItems [97] 4294967296 ++ [([98], 4294967296)])) =
        some (hI, some qI,
          List.replicate (lineItems [97] 4294967296 ++ [([98], 4294967296)]).length
            (true, none)) ∧
      ∃ h2 q2, step hI (some qI) (Op.remove_head (some [7, 7]) 2) =
        some (true, h2, q2, some [98, 0])) ∧
    ¬ ∃ h1 outs, run Heap.empty (some { head := none, tail := none, size := 0 })
        (insertTailOps (lineItems [97] 4294967296 ++ [([98], 4294967296)]) ++
          removeHeadOps (List.replicate (4294967296 + 1) ([7, 7], 2))) =
          some (h1, some { head := none, tail := none, size := 0 },
            List.replicate (lineItems [97] 4294967296 ++ [([98], 4294967296)]).length
                (true, none) ++
              outs.map fun o => (true, some o)) ∧
      List.Forall₂ (fun t o => o.take (t.length + 1) = t ++ [0])
        ((lineItems [97] 4294967296 ++ [([98], 4294967296)]).map Prod.fst) outs :=
  ⟨fifo_inputs 4294967296, fifo_drop 4294967296 rfl, fifo_fails 4294967296 rfl⟩

/-! ## Truncation on removal -/

/-- C10: removal truncation.  For every queue whose head node holds a text
`p` of length `L`, every array `buf` and every announced size `c ≥ 1` (a
`size_t`, at most the real size of the array), `q_remove_head` returns true
and leaves in the array exactly the first `min L (c - 1)` bytes of `p`, then a
terminator, the rest of the array being untouched; so when `L > c - 1` the
output is `c - 1` bytes of `p` plus the terminator, and when `L ≤ c - 1` it is
`p` plus the terminator. -/
theorem q_remove_head_truncates (h : Heap) (q : queue_t) (a : Addr) (n : list_ele_t)
    (buf : Buffer) (c : Nat) (hq : q.head = some a) (hn : h a = some n) (hc1 : 1 ≤ c)
    (hcap : c ≤ buf.length) (hsz : c < SIZE_MOD) :
    ∃ h1 q1 out, q_remove_head h (some q) (some buf) c = some (true, h1, some q1, some out) ∧
      out.take (min (strlen n.value) (c - 1)) = n.value.take (min (strlen n.value) (c - 1)) ∧
      out[min (strlen n.value) (c - 1)]? = some 0 ∧
      out.drop (min (strlen n.value) (c - 1) + 1) = buf.drop (min (strlen n.value) (c - 1) + 1) ∧
      out.length = buf.length ∧
      (c - 1 < strlen n.value → out.take c = n.value.take (c - 1) ++ [0]) ∧
      (strlen n.value ≤ c - 1 → out.take (strlen n.value + 1) = n.value ++ [0]) := by
  have hcopy := q_remove_head_copy_spec buf n.value c hc1 hcap hsz
  set k := min (strlen n.value) (c - 1) with hk
  have hklen : (n.value.take k).length = k := by
    rw [List.length_take]; unfold strlen at hk; omega
  refine ⟨h.free a,
    (if int_wrap (q.size - 1) = 0 then
        ({ head := n.next, tail := none, size := int_wrap (q.size - 1) } : queue_t)
      else { head := n.next, tail := q.tail, size := int_wrap (q.size - 1) }),
    n.value.take k ++ 0 :: buf.drop (k + 1), ?_, ?_, ?_, ?_, ?_, ?_, ?_⟩
  · simp only [q_remove_head, hq, hn, hcopy]
  · rw [List.take_append_eq_append_take, hklen]
    simp [hklen]
  · rw [List.getElem?_append_right (by omega), hklen]
    simp
  · rw [List.drop_append_eq_append_drop, hklen]
    simp [hklen]
  · simp [hklen]
    omega
  · intro hlt
    have hkc : k = c - 1 := by omega
    have hcc : c = k + 1 := by omega
    rw [← hkc]
    conv_lhs => rw [hcc]
    rw [List.take_append_eq_append_take, hklen]
    simp [hklen]
  · intro hle
    have hkl : k = strlen n.value := by omega
    rw [hkl]
    have e1 : n.value.take (strlen n.value) = n.value := List.take_length n.value
    rw [e1, List.take_append_eq_append_take]
    simp [strlen]

theorem q_remove_head_truncates_witness :
    exQueue.head = some 1 ∧ exHeap 1 = some ⟨[98], some 2⟩ ∧
    ∃ h1 q1 out, q_remove_head exHeap (some exQueue) (some [7, 7, 7]) 1 =
        some (true, h1, some q1, some out) ∧
      out.take (min (strlen [98]) (1 - 1)) = [98].take (min (strlen [98]) (1 - 1)) ∧
      out[min (strlen [98]) (1 - 1)]? = some 0 ∧
      out.drop (min (strlen [98]) (1 - 1) + 1) = [7, 7, 7].drop (min (strlen [98]) (1 - 1) + 1) ∧
      out.length = [7, 7, 7].length ∧
      (1 - 1 < strlen [98] → out.take 1 = [98].take (1 - 1) ++ [0]) ∧
      (strlen [98] ≤ 1 - 1 → out.take (strlen [98] + 1) = [98] ++ [0]) :=
  ⟨rfl, rfl, q_remove_head_truncates exHeap exQueue 1 ⟨[98], some 2⟩ [7, 7, 7] 1 rfl rfl
    (by decide) (by decide) (by decide)⟩

/-! ## The split -/

/-- C17: `front_back_split` partitions a chain at its midpoint without
reordering.  For every chain `l` of `n` nodes that reaches `NULL`, the call
returns a front chain and a back chain with `front ++ back = l`,
`⌈n / 2⌉` nodes in the front and `⌊n / 2⌋` in the back; for `n ≤ 1` the front
is `l` and the back is empty, and for `n ≥ 2` both halves are non-empty and
strictly shorter than `l`. -/
theorem front_back_split_partitions (h : Heap) (fuel : Nat) (l : List Addr) (p : Option Addr)
    (hc : IsChain h p l) (hfuel : l.length ≤ fuel + 1) :
    ∃ h1 a b lf lb, front_back_split fuel h p = some (h1, a, b) ∧
      IsChain h1 a lf ∧ IsChain h1 b lb ∧ lf ++ lb = l ∧
      lf.length = (l.length + 1) / 2 ∧ lb.length = l.length / 2 ∧
      (l.length ≤ 1 → lf = l ∧ lb = [] ∧ a = p ∧ b = none) ∧
      (2 ≤ l.length → lf ≠ [] ∧ lb ≠ [] ∧ lf.length < l.length ∧ lb.length < l.length) ∧
      payloads h1 l = payloads h l := by
  obtain ⟨h1, a, b, he, hfa, hfb, _, hsv⟩ := front_back_split_spec h fuel l p hc hfuel
  have hlf : (l.take ((l.length + 1) / 2)).length = (l.length + 1) / 2 := by
    rw [List.length_take]; omega
  have hlb : (l.drop ((l.length + 1) / 2)).length = l.length / 2 := by
    rw [List.length_drop]; omega
  refine ⟨h1, a, b, _, _, he, hfa, hfb, List.take_append_drop _ l, hlf, hlb, ?_, ?_,
    hsv.payloads_eq l⟩
  · intro h1len
    have e1 : l.take ((l.length + 1) / 2) = l := by
      apply List.take_of_length_le; omega
    have e2 : l.drop ((l.length + 1) / 2) = [] := by
      apply List.drop_eq_nil_of_le; omega
    rw [e1] at hfa
    rw [e2] at hfb
    exact ⟨e1, e2, (IsChain_head hfa).trans (IsChain_head hc).symm, hfb⟩
  · intro h2len
    refine ⟨?_, ?_, by omega, by omega⟩
    · intro e
      rw [e] at hlf
      simp at hlf; omega
    · intro e
      rw [e] at hlb
      simp at hlb; omega

theorem front_back_split_partitions_witness :
    IsChain exHeap (some 1) [1, 2, 3] ∧
    ∃ h1 a b lf lb, front_back_split 2 exHeap (some 1) = some (h1, a, b) ∧
      IsChain h1 a lf ∧ IsChain h1 b lb ∧ lf ++ lb = [1, 2, 3] ∧
      lf.length = ([1, 2, 3].length + 1) / 2 ∧ lb.length = [1, 2, 3].length / 2 ∧
      ([1, 2, 3].length ≤ 1 → lf = [1, 2, 3] ∧ lb = [] ∧ a = some 1 ∧ b = none) ∧
      (2 ≤ [1, 2, 3].length →
        lf ≠ [] ∧ lb ≠ [] ∧ lf.length < [1, 2, 3].length ∧ lb.length < [1, 2, 3].length) ∧
      payloads h1 [1, 2, 3] = payloads exHeap [1, 2, 3] :=
  ⟨exHeap_chain, front_back_split_partitions exHeap 2 [1, 2, 3] (some 1) exHeap_chain
    (by decide)⟩

/-! ## The merge -/

/-- The merge keeps the order of the elements of its left input. -/
theorem mergeL_sublist_left {α : Type} (cmp : α → α → Int) : ∀ (a b : List α),
    List.Sublist a (mergeL cmp a b)
  | [], b => List.nil_sublist _
  | x :: a, [] => by rw [mergeL_nil_right]
  | x :: a, y :: b => by
    rw [mergeL_cons_cons]
    split
    · exact List.Sublist.cons₂ _ (mergeL_sublist_left cmp a (y :: b))
    · exact List.Sublist.cons _ (mergeL_sublist_left cmp (x :: a) b)

/-- The merge keeps the order of the elements of its right input. -/
theorem mergeL_sublist_right {α : Type} (cmp : α → α → Int) : ∀ (a b : List α),
    List.Sublist b (mergeL cmp a b)
  | [], b => by rw [mergeL_nil_left]
  | x :: a, [] => List.nil_sublist _
  | x :: a, y :: b => by
    rw [mergeL_cons_cons]
    split
    · exact List.Sublist.cons _ (mergeL_sublist_right cmp a (y :: b))
    · exact List.Sublist.cons₂ _ (mergeL_sublist_right cmp (x :: a) b)

/-- An ascending payload sequence is ascending pair by pair. -/
theorem pairwise_of_ascending {cmp : Text → Text → Int} (hcmp : TotalPreorder cmp) (h : Heap)
    {l : List Addr} (hasc : List.Chain' (fun x y => cmp x y ≤ 0) (payloads h l)) :
    l.Pairwise (fun a b => cmpAt cmp h a b ≤ 0) := by
  rw [payloads, List.chain'_map] at hasc
  have hasc2 : List.Chain' (fun a b => cmpAt cmp h a b ≤ 0) l := hasc
  haveI : IsTrans Addr (fun a b => cmpAt cmp h a b ≤ 0) :=
    ⟨fun a b c hab hbc => (hcmp.cmpAt h).trans a b c hab hbc⟩
  exact List.chain'_iff_pairwise.1 hasc2

theorem sorted_merge_nil_left (cmp : Text → Text → Int) (fuel : Nat) (h : Heap)
    (b : Option Addr) : sorted_merge cmp (fuel + 1) h none b = some (h, b) := by
  simp [sorted_merge, sorted_merge_loop, MergeMem.setNext]

theorem sorted_merge_nil_right (cmp : Text → Text → Int) (fuel : Nat) (h : Heap)
    (a : Option Addr) : sorted_merge cmp (fuel + 1) h a none = some (h, a) := by
  cases a <;> simp [sorted_merge, sorted_merge_loop, MergeMem.setNext]

/-- C18: `sorted_merge` is a correct merge.  For two chains `la` and `lb`
without a common node, each ascending under a total preorder, the call
returns a chain that is ascending, is a permutation of `la ++ lb` (nodes and
payloads) and keeps the order of the nodes of `la` and of the nodes of `lb`;
when either input is `NULL` the result is the other input, and the heap is
untouched. -/
theorem sorted_merge_merges (cmp : Text → Text → Int) (hcmp : TotalPreorder cmp) (fuel : Nat)
    (h : Heap) (la lb : List Addr) (a b : Option Addr) (ha : IsChain h a la)
    (hb : IsChain h b lb) (hnd : (la ++ lb).Nodup)
    (hsa : List.Chain' (fun x y => cmp x y ≤ 0) (payloads h la))
    (hsb : List.Chain' (fun x y => cmp x y ≤ 0) (payloads h lb))
    (hfuel : la.length + lb.length < fuel) :
    ∃ h1 r lr, sorted_merge cmp fuel h a b = some (h1, r) ∧ IsChain h1 r lr ∧
      List.Chain' (fun x y => cmp x y ≤ 0) (payloads h1 lr) ∧
      lr.Perm (la ++ lb) ∧ (payloads h1 lr).Perm (payloads h la ++ payloads h lb) ∧
      List.Sublist la lr ∧ List.Sublist lb lr ∧
      (a = none → r = b ∧ lr = lb ∧ h1 = h) ∧ (b = none → r = a ∧ lr = la ∧ h1 = h) := by
  obtain ⟨h1, r, he, hc, _, hsv⟩ := sorted_merge_spec cmp fuel h la lb a b ha hb hnd hfuel
  have hperm := mergeL_perm (cmpAt cmp h) la lb
  have hsorted := mergeL_sorted (hcmp.cmpAt h) la lb (pairwise_of_ascending hcmp h hsa)
    (pairwise_of_ascending hcmp h hsb)
  obtain ⟨f, rfl⟩ : ∃ f, fuel = f + 1 := ⟨fuel - 1, by omega⟩
  refine ⟨h1, r, _, he, hc, ?_, hperm, ?_, mergeL_sublist_left _ la lb,
    mergeL_sublist_right _ la lb, ?_, ?_⟩
  · rw [payloads, List.chain'_map]
    refine List.Pairwise.chain' (hsorted.imp ?_)
    intro x y hxy
    have : cmpAt cmp h x y ≤ 0 := hxy
    simpa [cmpAt, hsv.val_eq] using this
  · rw [hsv.payloads_eq]
    have := hperm.map (val h)
    simpa [payloads] using this
  · intro hnone
    subst hnone
    have hla : la = [] := IsChain_none ha
    subst hla
    rw [sorted_merge_nil_left] at he
    have e := Option.some.inj he
    exact ⟨(congrArg Prod.snd e).symm, mergeL_nil_left _ _, (congrArg Prod.fst e).symm⟩
  · intro hnone
    subst hnone
    have hlb : lb = [] := IsChain_none hb
    subst hlb
    rw [sorted_merge_nil_right] at he
    have e := Option.some.inj he
    exact ⟨(congrArg Prod.snd e).symm, mergeL_nil_right _ _, (congrArg Prod.fst e).symm⟩

theorem mergeHeap_left : IsChain mergeHeap (some 1) [1, 3] :=
  ⟨rfl, _, rfl, rfl, _, rfl, rfl⟩

theorem mergeHeap_right : IsChain mergeHeap (some 2) [2] :=
  ⟨rfl, _, rfl, rfl⟩

theorem sorted_merge_merges_witness :
    IsChain mergeHeap (some 1) [1, 3] ∧ IsChain mergeHeap (some 2) [2] ∧
    ∃ h1 r lr, sorted_merge firstByteCaseCmp 4 mergeHeap (some 1) (some 2) = some (h1, r) ∧
      IsChain h1 r lr ∧
      List.Chain' (fun x y => firstByteCaseCmp x y ≤ 0) (payloads h1 lr) ∧
      lr.Perm ([1, 3] ++ [2]) ∧
      (payloads h1 lr).Perm (payloads mergeHeap [1, 3] ++ payloads mergeHeap [2]) ∧
      List.Sublist [1, 3] lr ∧ List.Sublist [2] lr ∧
      ((some 1 : Option Addr) = none → r = some 2 ∧ lr = [2] ∧ h1 = mergeHeap) ∧
      ((some 2 : Option Addr) = none → r = some 1 ∧ lr = [1, 3] ∧ h1 = mergeHeap) :=
  ⟨mergeHeap_left, mergeHeap_right,
    sorted_merge_merges firstByteCaseCmp firstByteCaseCmp_totalPreorder 4 mergeHeap [1, 3] [2]
      (some 1) (some 2) mergeHeap_left mergeHeap_right (by decide)
      (List.chain'_cons.2 ⟨by decide, List.chain'_singleton _⟩) (List.chain'_singleton _)
      (by decide)⟩

/-! ## Ties in the merge -/

theorem tiePairHeap_left : IsChain tiePairHeap (some 1) [1] := ⟨rfl, _, rfl, rfl⟩

theorem tiePairHeap_right : IsChain tiePairHeap (some 2) [2] := ⟨rfl, _, rfl, rfl⟩

/-- C19, the claim fails: the chains "a" (node 1) and "A" (node 2) are
non-empty and their heads compare equal; `sorted_merge` of the first with the
second returns the chain 2, 1, whose first node is the head of the second
(right) input, and the payload sequence "A", "a". -/
theorem sorted_merge_tie_not_left :
    IsChain tiePairHeap (some 1) [1] ∧ IsChain tiePairHeap (some 2) [2] ∧
      firstByteCaseCmp (val tiePairHeap 1) (val tiePairHeap 2) = 0 ∧
      (sorted_merge firstByteCaseCmp 3 tiePairHeap (some 1) (some 2)).map (fun r => r.2)
        = some (some 2) ∧
      (sorted_merge firstByteCaseCmp 3 tiePairHeap (some 1) (some 2)).bind
          (fun r => nodesFrom 3 r.1 r.2) = some [2, 1] ∧
      (sorted_merge firstByteCaseCmp 3 tiePairHeap (some 1) (some 2)).bind
          (fun r => (nodesFrom 3 r.1 r.2).map (payloads r.1)) = some [[65], [97]] :=
  ⟨tiePairHeap_left, tiePairHeap_right, by decide, by decide, by decide, by decide⟩

/-- C19, amended: tie rule of the merge.  For every two non-empty chains `a`
and `b` without a common node whose head payloads compare equal,
`sorted_merge(a, b)` takes the node from the second (right) input `b`: the
first node of the result is the head of `b`, and the rest of the result is
the merge of `a` with the rest of `b`. -/
theorem sorted_merge_tie_takes_right (cmp : Text → Text → Int) (fuel : Nat) (h : Heap)
    (x y : Addr) (la lb : List Addr) (ha : IsChain h (some x) (x :: la))
    (hb : IsChain h (some y) (y :: lb)) (hnd : ((x :: la) ++ (y :: lb)).Nodup)
    (h0 : cmp (val h x) (val h y) = 0) (hfuel : la.length + lb.length + 2 < fuel) :
    ∃ h1 lr, sorted_merge cmp fuel h (some x) (some y) = some (h1, some y) ∧
      IsChain h1 (some y) (y :: lr) ∧ lr = mergeL (cmpAt cmp h) (x :: la) lb ∧
      val h1 y = val h y := by
  obtain ⟨h1, r, he, hc, _, hsv⟩ :=
    sorted_merge_spec cmp fuel h (x :: la) (y :: lb) (some x) (some y) ha hb hnd
      (by simp; omega)
  have hm : mergeL (cmpAt cmp h) (x :: la) (y :: lb)
      = y :: mergeL (cmpAt cmp h) (x :: la) lb := by
    rw [mergeL_cons_cons, if_neg]
    show ¬ cmp (val h x) (val h y) < 0
    omega
  rw [hm] at hc
  have hr : r = some y := hc.1
  subst hr
  exact ⟨h1, _, he, hc, rfl, hsv.val_eq y⟩

theorem sorted_merge_tie_takes_right_witness :
    IsChain tiePairHeap (some 1) [1] ∧ IsChain tiePairHeap (some 2) [2] ∧
    firstByteCaseCmp (val tiePairHeap 1) (val tiePairHeap 2) = 0 ∧
    ∃ h1 lr, sorted_merge firstByteCaseCmp 3 tiePairHeap (some 1) (some 2) = some (h1, some 2) ∧
      IsChain h1 (some 2) (2 :: lr) ∧ lr = mergeL (cmpAt firstByteCaseCmp tiePairHeap) [1] [] ∧
      val h1 2 = val tiePairHeap 2 :=
  ⟨tiePairHeap_left, tiePairHeap_right, by decide,
    sorted_merge_tie_takes_right firstByteCaseCmp 3 tiePairHeap 1 2 [] [] tiePairHeap_left
      tiePairHeap_right (by decide) (by decide) (by decide)⟩

/-! ## Sorting equal elements -/

/-- When no element of the left sequence is strictly less than an element of
the right one, the merge is the right sequence followed by the left one. -/
theorem mergeL_of_not_lt {α : Type} (cmp : α → α → Int) : ∀ (a b : List α),
    (∀ u ∈ a, ∀ v ∈ b, ¬ cmp u v < 0) → mergeL cmp a b = b ++ a
  | [], b, _ => by rw [mergeL_nil_left]; simp
  | x :: a, [], _ => by rw [mergeL_nil_right]; rfl
  | x :: a, y :: b, hlt => by
    rw [mergeL_cons_cons, if_neg (hlt x (List.mem_cons_self _ _) y (List.mem_cons_self _ _)),
      mergeL_of_not_lt cmp (x :: a) b (fun u hu v hv => hlt u hu v (List.mem_cons_of_mem _ hv))]
    rfl

/-- The sort reverses a sequence none of whose elements is strictly less than
another. -/
theorem msortL_of_not_lt {α : Type} (cmp : α → α → Int) : ∀ (n : Nat) (l : List α), l.length ≤ n →
    (∀ u ∈ l, ∀ v ∈ l, ¬ cmp u v < 0) → msortL cmp l = l.reverse
  | 0, l, hl, _ => by
    have : l = [] := List.length_eq_zero.1 (by omega)
    subst this
    rw [msortL_short cmp (by simp)]; rfl
  | n + 1, l, hl, hp => by
    by_cases h2 : l.length < 2
    · rw [msortL_short cmp h2]
      match l, h2 with
      | [], _ => rfl
      | [x], _ => rfl
      | _ :: _ :: _, h2 => exact absurd h2 (by simp)
    · rw [msortL_long cmp h2]
      set k := (l.length + 1) / 2
      have ht : ∀ u ∈ l.take k, u ∈ l := fun u hu => List.mem_of_mem_take hu
      have hd : ∀ u ∈ l.drop k, u ∈ l := fun u hu => List.mem_of_mem_drop hu
      rw [msortL_of_not_lt cmp n _ (by simp; omega)
          (fun u hu v hv => hp u (ht u hu) v (ht v hv)),
        msortL_of_not_lt cmp n _ (by simp; omega)
          (fun u hu v hv => hp u (hd u hu) v (hd v hv)),
        mergeL_of_not_lt cmp _ _ (fun u hu v hv =>
          hp u (ht u (List.mem_reverse.1 hu)) v (hd v (List.mem_reverse.1 hv))),
        ← List.reverse_append, List.take_append_drop]

/-- C20: for every well-formed queue all of whose payloads compare equal to
one another, `merge_sort` returns the chain in exactly the reverse of its
original order, and `q_sort` leaves that chain in the queue with the original
first node as the tail; the count is unchanged. -/
theorem q_sort_all_equal_reverses (cmp : Text → Text → Int) (h : Heap) (q : queue_t)
    (fuel : Nat) (ns : List Addr) (hwf : WellFormed h q) (hfuel : q.size + 2 ≤ fuel)
    (hc : IsChain h q.head ns)
    (hties : ∀ x ∈ ns, ∀ y ∈ ns, cmp (val h x) (val h y) = 0) :
    (∃ h2 r, merge_sort cmp fuel h q.head = some (h2, r) ∧ IsChain h2 r ns.reverse ∧
      payloads h2 ns.reverse = (payloads h ns).reverse) ∧
    ∃ h1 q1, q_sort cmp fuel h (some q) = some (h1, some q1) ∧
      IsChain h1 q1.head ns.reverse ∧
      payloads h1 ns.reverse = (payloads h ns).reverse ∧
      q1.head = ns.getLast? ∧ q1.tail = ns.head? ∧ q1.size = q.size := by
  obtain ⟨ns0, hc0, hl, ht⟩ := WellFormed.chain hwf
  have : ns0 = ns := IsChain_det hc0 hc
  subst this
  have hrev : msortL (cmpAt cmp h) ns0 = ns0.reverse :=
    msortL_of_not_lt _ _ ns0 le_rfl (fun u hu v hv => by
      have : cmpAt cmp h u v = 0 := hties u hu v hv
      omega)
  have hpay : ∀ h3 : Heap, SameValues h3 h →
      payloads h3 ns0.reverse = (payloads h ns0).reverse := by
    intro h3 hsv
    rw [hsv.payloads_eq]; simp [payloads]
  constructor
  · obtain ⟨h2, r, he, hs, _, hsv⟩ := merge_sort_spec cmp fuel ns0 h q.head hc (by omega)
    rw [hrev] at hs
    exact ⟨h2, r, he, hs, hpay h2 hsv⟩
  · obtain ⟨h1, q1, he, hs, ht1, hsz, _, hsv⟩ := q_sort_spec cmp fuel h q ns0 hc ht (by omega)
    rw [hrev] at hs ht1
    refine ⟨h1, q1, he, hs, hpay h1 hsv, ?_, ?_, hsz⟩
    · rw [IsChain_head hs, List.head?_reverse]
    · rw [ht1, List.getLast?_reverse]

theorem q_sort_all_equal_reverses_witness :
    WellFormed tieHeap tieQueue ∧
    (∃ h2 r, merge_sort firstByteCaseCmp 5 tieHeap tieQueue.head = some (h2, r) ∧
      IsChain h2 r [1, 2].reverse ∧
      payloads h2 [1, 2].reverse = (payloads tieHeap [1, 2]).reverse) ∧
    ∃ h1 q1, q_sort firstByteCaseCmp 5 tieHeap (some tieQueue) = some (h1, some q1) ∧
      IsChain h1 q1.head [1, 2].reverse ∧
      payloads h1 [1, 2].reverse = (payloads tieHeap [1, 2]).reverse ∧
      q1.head = [1, 2].getLast? ∧ q1.tail = [1, 2].head? ∧ q1.size = tieQueue.size :=
  ⟨tieQueue_wellFormed,
    q_sort_all_equal_reverses firstByteCaseCmp tieHeap tieQueue 5 [1, 2] tieQueue_wellFormed
      (by decide) tieHeap_chain (by decide)⟩

/-! ## Writes of `q_remove_head` and the announced size -/

/-- For an announced size `c ≥ 1` the copy of `q_remove_head` stays inside
the first `c` bytes: it is defined on an array of exactly `c` bytes, and on a
longer array the bytes from index `c` on are untouched. -/
theorem q_remove_head_copy_within (buf : Buffer) (v : Text) (c : Nat) (h1 : 1 ≤ c)
    (hcap : c ≤ buf.length) (hsz : c < SIZE_MOD) :
    ∃ out, q_remove_head_copy buf v c = some out ∧ out.length = buf.length ∧
      out.drop c = buf.drop c ∧ out[min (strlen v) (c - 1)]? = some 0 := by
  have hcopy := q_remove_head_copy_spec buf v c h1 hcap hsz
  set k := min (strlen v) (c - 1) with hk
  have hklen : (v.take k).length = k := by
    rw [List.length_take]; unfold strlen at hk; omega
  refine ⟨_, hcopy, ?_, ?_, ?_⟩
  · simp [hklen]; omega
  · have hck : c = k + 1 + (c - (k + 1)) := by omega
    rw [List.drop_append_eq_append_drop, hklen]
    have e1 : (v.take k).drop c = [] := List.drop_eq_nil_of_le (by omega)
    have e2 : c - k = (c - (k + 1)) + 1 := by omega
    rw [e1, e2, List.nil_append, List.drop_succ_cons, List.drop_drop]
    congr 1
    omega
  · rw [List.getElem?_append_right (by omega), hklen]
    simp

theorem size_dec_zero : size_dec 0 = SIZE_MOD - 1 := by
  unfold size_dec SIZE_MOD
  rfl

/-- C11, where the code fails the claim: with an announced size of 0 and a
non-empty queue, `q_remove_head` takes the branch for a text that does not
fit, computes `bufsize - 1` as the largest `size_t` and asks `strncpy` for
that many bytes; on every array shorter than that the write leaves the array
and the call is undefined. -/
theorem q_remove_head_size_zero_overflows (h : Heap) (q : queue_t) (a : Addr) (n : list_ele_t)
    (buf : Buffer) (hq : q.head = some a) (hn : h a = some n)
    (hlen : buf.length < SIZE_MOD - 1) :
    size_dec 0 = 18446744073709551615 ∧ strncpy buf n.value (size_dec 0) = none ∧
      q_remove_head_copy buf n.value 0 = none ∧
      q_remove_head h (some q) (some buf) 0 = none := by
  have hs : strncpy buf n.value (size_dec 0) = none := by
    rw [size_dec_zero]
    unfold strncpy
    rw [if_neg (by omega)]
  have hcopy : q_remove_head_copy buf n.value 0 = none := by
    unfold q_remove_head_copy
    rw [if_neg (by omega), hs]
    rfl
  exact ⟨rfl, hs, hcopy, by simp only [q_remove_head, hq, hn, hcopy]⟩

theorem q_remove_head_size_zero_overflows_witness :
    exQueue.head = some 1 ∧ exHeap 1 = some ⟨[98], some 2⟩ ∧
    size_dec 0 = 18446744073709551615 ∧ strncpy [7, 7, 7] [98] (size_dec 0) = none ∧
      q_remove_head_copy [7, 7, 7] [98] 0 = none ∧
      q_remove_head exHeap (some exQueue) (some [7, 7, 7]) 0 = none :=
  ⟨rfl, rfl, q_remove_head_size_zero_overflows exHeap exQueue 1 ⟨[98], some 2⟩ [7, 7, 7] rfl rfl
    (by decide)⟩

/-! ## Failure and success of `q_remove_head` -/

/-- C12: `q_remove_head` returns false exactly when the queue is null, the
output array is null or the queue is empty: in these cases the call is
defined and returns false with the heap, the queue and the array exactly as
before; whenever the call is defined, it returns false only in these cases
and then leaves everything as before; and with a non-null array of the
announced positive size on a non-empty queue it returns true. -/
theorem q_remove_head_false_iff (h : Heap) (q : Option queue_t) (sp : Option Buffer) (c : Nat) :
    ((q = none ∨ sp = none ∨ ∃ q0, q = some q0 ∧ q0.head = none) →
      q_remove_head h q sp c = some (false, h, q, sp)) ∧
    (∀ r, q_remove_head h q sp c = some r →
      (r.1 = false ↔ (q = none ∨ sp = none ∨ ∃ q0, q = some q0 ∧ q0.head = none)) ∧
      (r.1 = false → r.2.1 = h ∧ r.2.2.1 = q ∧ r.2.2.2 = sp)) ∧
    (∀ q0 buf a n, q = some q0 → sp = some buf → q0.head = some a → h a = some n →
      1 ≤ c → c ≤ buf.length → c < SIZE_MOD →
      ∃ h1 q1 out, q_remove_head h q sp c = some (true, h1, q1, out)) := by
  have hfail : (q = none ∨ sp = none ∨ ∃ q0, q = some q0 ∧ q0.head = none) →
      q_remove_head h q sp c = some (false, h, q, sp) := by
    intro hcond
    cases q with
    | none => rfl
    | some q0 =>
      cases sp with
      | none => simp [q_remove_head]
      | some buf =>
        rcases hcond with hq | hs | ⟨q1, hq1, hh⟩
        · exact absurd hq (by simp)
        · exact absurd hs (by simp)
        · have : q1 = q0 := (Option.some.inj hq1).symm
          subst this
          simp [q_remove_head, hh]
  refine ⟨hfail, ?_, ?_⟩
  · intro r hr
    by_cases hcond : q = none ∨ sp = none ∨ ∃ q0, q = some q0 ∧ q0.head = none
    · rw [hfail hcond] at hr
      have : r = (false, h, q, sp) := (Option.some.inj hr).symm
      subst this
      exact ⟨⟨fun _ => hcond, fun _ => rfl⟩, fun _ => ⟨rfl, rfl, rfl⟩⟩
    · have htrue : r.1 = true := by
        cases q with
        | none => exact absurd (Or.inl rfl) hcond
        | some q0 =>
          cases sp with
          | none => exact absurd (Or.inr (Or.inl rfl)) hcond
          | some buf =>
            cases hh : q0.head with
            | none => exact absurd (Or.inr (Or.inr ⟨q0, rfl, hh⟩)) hcond
            | some a =>
              cases hn : h a with
              | none => simp [q_remove_head, hh, hn] at hr
              | some n =>
                cases hcopy : q_remove_head_copy buf n.value c with
                | none => simp [q_remove_head, hh, hn, hcopy] at hr
                | some buf1 =>
                  simp only [q_remove_head, hh, hn, hcopy] at hr
                  rw [← Option.some.inj hr]
      refine ⟨⟨fun hf => ?_, fun hc0 => absurd hc0 hcond⟩, fun hf => ?_⟩
      · rw [htrue] at hf; exact absurd hf (by simp)
      · rw [htrue] at hf; exact absurd hf (by simp)
  · intro q0 buf a n hq hs hh hn h1 hcap hsz
    subst hq; subst hs
    have hcopy := q_remove_head_copy_spec buf n.value c h1 hcap hsz
    refine ⟨h.free a,
      some (if int_wrap (q0.size - 1) = 0 then
          ({ head := n.next, tail := none, size := int_wrap (q0.size - 1) } : queue_t)
        else { head := n.next, tail := q0.tail, size := int_wrap (q0.size - 1) }),
      some (n.value.take (min (strlen n.value) (c - 1))
        ++ 0 :: buf.drop (min (strlen n.value) (c - 1) + 1)), ?_⟩
    simp only [q_remove_head, hh, hn, hcopy]

/-- C13: on a well-formed non-empty queue with chain `a :: rest`, a
`q_remove_head` that returns true releases the node `a` and leaves the chain
`rest`, hence the payload sequence without its first element, in the same
order; the count goes down by exactly one, the tail is unchanged when nodes
remain, and head and tail are both `NULL` when none remains.  Such a call
exists: with an array of the announced positive size the call returns
true. -/
theorem q_remove_head_pops (h : Heap) (q : queue_t) (ns : List Addr) (sp : Option Buffer)
    (c : Nat) (hwf : WellFormed h q) (hc : IsChain h q.head ns) (hne : ns ≠ []) :
    (∀ buf, sp = some buf → 1 ≤ c → c ≤ buf.length → c < SIZE_MOD →
      ∃ r, q_remove_head h (some q) sp c = some r ∧ r.1 = true) ∧
    (∀ r, q_remove_head h (some q) sp c = some r → r.1 = true →
      ∃ a rest q1, ns = a :: rest ∧ r.2.1 = h.free a ∧ r.2.2.1 = some q1 ∧
        IsChain r.2.1 q1.head rest ∧ payloads r.2.1 rest = (payloads h ns).tail ∧
        q1.size = q.size - 1 ∧ (rest ≠ [] → q1.tail = q.tail) ∧
        (rest = [] → q1.head = none ∧ q1.tail = none)) := by
  obtain ⟨ns0, hc0, hl, ht⟩ := WellFormed.chain hwf
  have : ns0 = ns := IsChain_det hc0 hc
  subst this
  cases ns0 with
  | nil => exact absurd rfl hne
  | cons a rest =>
    have ha : a ∉ rest := (List.nodup_cons.1 (IsChain_nodup hc)).1
    obtain ⟨hlw, hlt⟩ := int_wrap_of_wellFormed hwf hl
    have hroom : rest.length < 4294967296 := by
      simp only [List.length_cons] at hlt
      omega
    have hdec : int_wrap (q.size - 1) = q.size - 1 := by
      simp only [List.length_cons] at hl hlt
      exact int_wrap_of_range (by omega) (by omega)
    constructor
    · intro buf hs h1 hcap hsz
      subst hs
      obtain ⟨q1, he, _⟩ := q_remove_head_spec h q a rest buf _ c hc hlw ht
        (q_remove_head_copy_spec buf (val h a) c h1 hcap hsz) hroom
      exact ⟨_, he, rfl⟩
    · intro r hr htrue
      cases sp with
      | none =>
        simp [q_remove_head] at hr
        rw [← hr] at htrue
        exact absurd htrue (by simp)
      | some buf =>
        cases hcopy : q_remove_head_copy buf (val h a) c with
        | none =>
          exfalso
          obtain ⟨hh, n, hn, _⟩ := hc
          rw [val_of_eq hn] at hcopy
          simp [q_remove_head, hh, hn, hcopy] at hr
        | some buf1 =>
          obtain ⟨q1, he, hc1, hsz1, _, ht1, htl⟩ :=
            q_remove_head_spec h q a rest buf buf1 c hc hlw ht hcopy hroom
          rw [hdec] at hsz1
          rw [he] at hr
          have : r = (true, h.free a, some q1, some buf1) := (Option.some.inj hr).symm
          subst this
          refine ⟨a, rest, q1, rfl, rfl, rfl, hc1, ?_, hsz1, htl, ?_⟩
          · refine payloads_congr (fun x hx => ?_)
            have hxa : x ≠ a := fun e => ha (e ▸ hx)
            simp [val, Heap.free, hxa]
          · intro hnil
            subst hnil
            exact ⟨hc1, ht1.symm⟩

theorem q_remove_head_pops_witness :
    WellFormed exHeap exQueue ∧ IsChain exHeap exQueue.head [1, 2, 3] ∧
    (∀ buf, some [7, 7, 7] = some buf → 1 ≤ 3 → 3 ≤ buf.length → 3 < SIZE_MOD →
      ∃ r, q_remove_head exHeap (some exQueue) (some [7, 7, 7]) 3 = some r ∧ r.1 = true) ∧
    (∀ r, q_remove_head exHeap (some exQueue) (some [7, 7, 7]) 3 = some r → r.1 = true →
      ∃ a rest q1, [1, 2, 3] = a :: rest ∧ r.2.1 = exHeap.free a ∧ r.2.2.1 = some q1 ∧
        IsChain r.2.1 q1.head rest ∧ payloads r.2.1 rest = (payloads exHeap [1, 2, 3]).tail ∧
        q1.size = exQueue.size - 1 ∧ (rest ≠ [] → q1.tail = exQueue.tail) ∧
        (rest = [] → q1.head = none ∧ q1.tail = none)) :=
  ⟨exQueue_wellFormed, exHeap_chain,
    q_remove_head_pops exHeap exQueue [1, 2, 3] (some [7, 7, 7]) 3 exQueue_wellFormed
      exHeap_chain (by simp)⟩

/-! ## Success and failure of the insertions -/

theorem val_eq_of_value_eq {h h1 : Heap} {x : Addr}
    (hv : (h1 x).map (fun n => n.value) = (h x).map (fun n => n.value)) : val h1 x = val h x := by
  unfold val
  cases h1x : h1 x <;> cases hx0 : h x <;> simp_all

/-- C14, the claim fails: on the well-formed queue of `INT_MAX` elements a
successful `q_insert_head` leaves the count -2147483648, not `INT_MAX + 1`. -/
theorem q_insert_head_wraps_at_int_max :
    WellFormed fullHeap fullQueue ∧ fullHeap 2147483647 = none ∧
      ∃ h1 q1, q_insert_head fullHeap (some fullQueue) [] (some 2147483647) true
          = (true, h1, some q1) ∧ q1.size = -2147483648 ∧ q1.size ≠ fullQueue.size + 1 :=
  ⟨fullQueue_wellFormed, by decide, _, _, rfl, by decide, by decide⟩

/-- C14, amended: on a well-formed queue with chain `ns`, a successful
`q_insert_head` (the queue is not null and both allocations succeed, the node
being at a fresh address `a`) leaves the chain `a :: ns`, hence the payload
sequence `s :: xs`, with the payload of the new node equal to `s`; the count
is incremented as an `int`, so it goes up by exactly one unless it was
`INT_MAX`; the tail is the new node if the queue was empty and is unchanged
otherwise, and every other node of the heap is unchanged. -/
theorem q_insert_head_pushes (h : Heap) (q : queue_t) (ns : List Addr) (s : Text) (a : Addr)
    (hwf : WellFormed h q) (hc : IsChain h q.head ns) (hfresh : h a = none) :
    ∃ h1 q1, q_insert_head h (some q) s (some a) true = (true, h1, some q1) ∧
      IsChain h1 q1.head (a :: ns) ∧ payloads h1 (a :: ns) = s :: payloads h ns ∧
      val h1 a = s ∧ q1.head = some a ∧ q1.size = int_wrap (q.size + 1) ∧
      (q.size < INT_MAX → q1.size = q.size + 1) ∧
      (ns = [] → q1.tail = some a) ∧ (ns ≠ [] → q1.tail = q.tail) ∧
      (∀ x, x ≠ a → h1 x = h x) := by
  obtain ⟨ns0, hc0, hl, ht⟩ := WellFormed.chain hwf
  have : ns0 = ns := IsChain_det hc0 hc
  subst this
  obtain ⟨hlw, hlt⟩ := int_wrap_of_wellFormed hwf hl
  obtain ⟨q1, he, hc1, hhd, hsz, _, ht1, htl⟩ :=
    q_insert_head_spec h q s a ns0 hc hlw ht hfresh (by omega)
  have hinc : q.size < INT_MAX → q1.size = q.size + 1 := by
    intro hlt1
    rw [hsz]
    unfold INT_MAX at hlt1
    exact int_wrap_of_range (by omega) (by omega)
  have ha : a ∉ ns0 := by
    intro hm
    obtain ⟨n, hn⟩ := IsChain_alloc hc a hm
    rw [hfresh] at hn
    exact absurd hn (by simp)
  have hva : val (h.write a { value := s, next := q.head }) a = s :=
    val_of_eq (Heap.write_same _ _ _)
  refine ⟨_, q1, he, hc1, ?_, hva, hhd, hsz, hinc, ?_, htl, fun x hx => Heap.write_other _ _ hx⟩
  · have e1 : payloads (h.write a { value := s, next := q.head }) ns0 = payloads h ns0 := by
      refine payloads_congr (fun x hx => ?_)
      have hxa : x ≠ a := fun e => ha (e ▸ hx)
      simp [val, Heap.write_other _ _ hxa]
    simp only [payloads, List.map_cons] at e1 ⊢
    rw [e1, hva]
  · intro hnil
    subst hnil
    rw [← ht1]; rfl

theorem q_insert_head_pushes_witness :
    WellFormed exHeap exQueue ∧ IsChain exHeap exQueue.head [1, 2, 3] ∧ exHeap 9 = none ∧
    ∃ h1 q1, q_insert_head exHeap (some exQueue) [100] (some 9) true = (true, h1, some q1) ∧
      IsChain h1 q1.head (9 :: [1, 2, 3]) ∧
      payloads h1 (9 :: [1, 2, 3]) = [100] :: payloads exHeap [1, 2, 3] ∧
      val h1 9 = [100] ∧ q1.head = some 9 ∧ q1.size = int_wrap (exQueue.size + 1) ∧
      (exQueue.size < INT_MAX → q1.size = exQueue.size + 1) ∧
      (([1, 2, 3] : List Addr) = [] → q1.tail = some 9) ∧
      (([1, 2, 3] : List Addr) ≠ [] → q1.tail = exQueue.tail) ∧
      (∀ x, x ≠ 9 → h1 x = exHeap x) :=
  ⟨exQueue_wellFormed, exHeap_chain, rfl,
    q_insert_head_pushes exHeap exQueue [1, 2, 3] [100] 9 exQueue_wellFormed exHeap_chain rfl⟩

/-- C15, the claim fails: on the well-formed queue of `INT_MAX` elements a
successful `q_insert_tail` leaves the count -2147483648, not `INT_MAX + 1`. -/
theorem q_insert_tail_wraps_at_int_max :
    WellFormed fullHeap fullQueue ∧ fullHeap 2147483647 = none ∧
      ∃ h1 q1, q_insert_tail fullHeap (some fullQueue) [] (some 2147483647) true
          = some (true, h1, some q1) ∧ q1.size = -2147483648 ∧
        q1.size ≠ fullQueue.size + 1 :=
  ⟨fullQueue_wellFormed, by decide, _, _, rfl, by decide, by decide⟩

/-- C15, amended: on a well-formed queue with chain `ns`, a successful
`q_insert_tail` (the queue is not null and both allocations succeed, the node
being at a fresh address `a`) leaves the chain `ns ++ [a]`, hence the payload
sequence `xs ++ [s]`, with the payload of the new node equal to `s`; the
count is incremented as an `int`, so it goes up by exactly one unless it was
`INT_MAX`; the new node is the tail and its link is `NULL`, it is also the
head if the queue was empty and the head is unchanged otherwise. -/
theorem q_insert_tail_appends (h : Heap) (q : queue_t) (ns : List Addr) (s : Text) (a : Addr)
    (hwf : WellFormed h q) (hc : IsChain h q.head ns) (hfresh : h a = none) :
    ∃ h1 q1, q_insert_tail h (some q) s (some a) true = some (true, h1, some q1) ∧
      IsChain h1 q1.head (ns ++ [a]) ∧ payloads h1 (ns ++ [a]) = payloads h ns ++ [s] ∧
      h1 a = some { value := s, next := none } ∧ q1.tail = some a ∧
      q1.size = int_wrap (q.size + 1) ∧ (q.size < INT_MAX → q1.size = q.size + 1) ∧
      (ns = [] → q1.head = some a) ∧ (ns ≠ [] → q1.head = q.head) := by
  obtain ⟨ns0, hc0, hl, ht⟩ := WellFormed.chain hwf
  have : ns0 = ns := IsChain_det hc0 hc
  subst this
  obtain ⟨hlw, hlt⟩ := int_wrap_of_wellFormed hwf hl
  obtain ⟨h1, q1, he, hc1, ht1, hsz, _, h1a, hhd, hhd0, hval⟩ :=
    q_insert_tail_spec h q s a ns0 hc hlw ht hfresh (by omega)
  have hinc : q.size < INT_MAX → q1.size = q.size + 1 := by
    intro hlt1
    rw [hsz]
    unfold INT_MAX at hlt1
    exact int_wrap_of_range (by omega) (by omega)
  have ha : a ∉ ns0 := by
    intro hm
    obtain ⟨n, hn⟩ := IsChain_alloc hc a hm
    rw [hfresh] at hn
    exact absurd hn (by simp)
  refine ⟨h1, q1, he, hc1, ?_, h1a, ht1, hsz, hinc, hhd0, hhd⟩
  have e1 : payloads h1 ns0 = payloads h ns0 :=
    payloads_congr (fun x hx => val_eq_of_value_eq (hval x (fun e => ha (e ▸ hx))))
  have e2 : val h1 a = s := val_of_eq h1a
  simp only [payloads, List.map_append, List.map_cons, List.map_nil] at e1 ⊢
  rw [e1, e2]

theorem q_insert_tail_appends_witness :
    WellFormed exHeap exQueue ∧ IsChain exHeap exQueue.head [1, 2, 3] ∧ exHeap 9 = none ∧
    ∃ h1 q1, q_insert_tail exHeap (some exQueue) [100] (some 9) true = some (true, h1, some q1) ∧
      IsChain h1 q1.head ([1, 2, 3] ++ [9]) ∧
      payloads h1 ([1, 2, 3] ++ [9]) = payloads exHeap [1, 2, 3] ++ [[100]] ∧
      h1 9 = some { value := [100], next := none } ∧ q1.tail = some 9 ∧
      q1.size = int_wrap (exQueue.size + 1) ∧
      (exQueue.size < INT_MAX → q1.size = exQueue.size + 1) ∧
      (([1, 2, 3] : List Addr) = [] → q1.head = some 9) ∧
      (([1, 2, 3] : List Addr) ≠ [] → q1.head = exQueue.head) :=
  ⟨exQueue_wellFormed, exHeap_chain, rfl,
    q_insert_tail_appends exHeap exQueue [1, 2, 3] [100] 9 exQueue_wellFormed exHeap_chain rfl⟩

/-- C16: insertion is all or nothing.  `q_insert_head` returns false exactly
when the queue is null or the allocation of the node or of its text fails,
and then the heap and the queue are exactly as before; it returns true in
every other case.  The same holds of `q_insert_tail` whenever it is defined,
and it is defined in the three failure cases and on every well-formed queue
with a fresh node. -/
theorem insert_all_or_nothing (h : Heap) (q : Option queue_t) (s : Text) (newh : Option Addr)
    (tmp_ok : Bool) :
    ((q_insert_head h q s newh tmp_ok).1 = false ↔
      (q = none ∨ newh = none ∨ tmp_ok = false)) ∧
    ((q_insert_head h q s newh tmp_ok).1 = false →
      (q_insert_head h q s newh tmp_ok).2 = (h, q)) ∧
    ((q = none ∨ newh = none ∨ tmp_ok = false) →
      q_insert_tail h q s newh tmp_ok = some (false, h, q)) ∧
    (∀ r, q_insert_tail h q s newh tmp_ok = some r →
      (r.1 = false ↔ (q = none ∨ newh = none ∨ tmp_ok = false)) ∧
      (r.1 = false → r.2 = (h, q))) ∧
    (∀ q0, q = some q0 → WellFormed h q0 → (∀ a, newh = some a → h a = none) →
      ∃ r, q_insert_tail h q s newh tmp_ok = some r) := by
  have hfail : (q = none ∨ newh = none ∨ tmp_ok = false) →
      q_insert_head h q s newh tmp_ok = (false, h, q) ∧
      q_insert_tail h q s newh tmp_ok = some (false, h, q) := by
    intro hcond
    cases q with
    | none => exact ⟨rfl, rfl⟩
    | some q0 =>
      cases newh with
      | none => exact ⟨rfl, rfl⟩
      | some a =>
        cases tmp_ok with
        | false => exact ⟨rfl, rfl⟩
        | true =>
          rcases hcond with hq | hn | ht
          · exact absurd hq (by simp)
          · exact absurd hn (by simp)
          · exact absurd ht (by simp)
  have hsucc : ¬ (q = none ∨ newh = none ∨ tmp_ok = false) →
      (q_insert_head h q s newh tmp_ok).1 = true ∧
      ∀ r, q_insert_tail h q s newh tmp_ok = some r → r.1 = true := by
    intro hcond
    cases q with
    | none => exact absurd (Or.inl rfl) hcond
    | some q0 =>
      cases newh with
      | none => exact absurd (Or.inr (Or.inl rfl)) hcond
      | some a =>
        cases tmp_ok with
        | false => exact absurd (Or.inr (Or.inr rfl)) hcond
        | true =>
          refine ⟨by simp [q_insert_head], fun r hr => ?_⟩
          by_cases hs : q0.size = 0
          · simp only [q_insert_tail, hs, if_true] at hr
            split at hr
            · contradiction
            · rw [← Option.some.inj hr]
          · cases htl : q0.tail with
            | none =>
              simp only [q_insert_tail, hs, htl, if_false] at hr
              split at hr
              · contradiction
              · simp at hr
            | some t =>
              cases hnt : (h.write a { value := s, next := none }) t with
              | none =>
                simp only [q_insert_tail, hs, htl, hnt, if_false] at hr
                split at hr
                · contradiction
                · simp at hr
              | some nt =>
                simp only [q_insert_tail, hs, htl, hnt, if_false] at hr
                split at hr
                · contradiction
                · rw [← Option.some.inj hr]
  refine ⟨?_, ?_, fun hcond => (hfail hcond).2, ?_, ?_⟩
  · constructor
    · intro hf
      by_contra hcond
      rw [(hsucc hcond).1] at hf
      exact absurd hf (by simp)
    · intro hcond
      rw [(hfail hcond).1]
  · intro hf
    by_cases hcond : q = none ∨ newh = none ∨ tmp_ok = false
    · rw [(hfail hcond).1]
    · rw [(hsucc hcond).1] at hf
      exact absurd hf (by simp)
  · intro r hr
    by_cases hcond : q = none ∨ newh = none ∨ tmp_ok = false
    · rw [(hfail hcond).2] at hr
      have : r = (false, h, q) := (Option.some.inj hr).symm
      subst this
      exact ⟨⟨fun _ => hcond, fun _ => rfl⟩, fun _ => rfl⟩
    · have htrue := (hsucc hcond).2 r hr
      refine ⟨⟨fun hf => ?_, fun hc0 => absurd hc0 hcond⟩, fun hf => ?_⟩
      · rw [htrue] at hf; exact absurd hf (by simp)
      · rw [htrue] at hf; exact absurd hf (by simp)
  · intro q0 hq hwf hfresh
    subst hq
    cases newh with
    | none => exact ⟨_, rfl⟩
    | some a =>
      cases tmp_ok with
      | false => exact ⟨_, rfl⟩
      | true =>
        obtain ⟨ns, hc, hl, ht⟩ := WellFormed.chain hwf
        obtain ⟨hlw, hlt⟩ := int_wrap_of_wellFormed hwf hl
        obtain ⟨h1, q1, he, _⟩ :=
          q_insert_tail_spec h q0 s a ns hc hlw ht (hfresh a rfl) (by omega)
        exact ⟨_, he⟩

/-! ## Sorting an ascending queue -/

theorem revTies_nil {α : Type} (cmp : α → α → Int) : revTies cmp [] = [] := by
  rw [revTies]

theorem revTies_cons {α : Type} (cmp : α → α → Int) (x : α) (l : List α) :
    revTies cmp (x :: l) = (l.takeWhile fun y => decide (cmp x y = 0)).reverse ++
      x :: revTies cmp (l.dropWhile fun y => decide (cmp x y = 0)) := by
  rw [revTies]

theorem revTies_perm {α : Type} (cmp : α → α → Int) : ∀ (l : List α), (revTies cmp l).Perm l
  | [] => by rw [revTies_nil]
  | x :: l => by
    rw [revTies_cons]
    have ih := revTies_perm cmp (l.dropWhile fun y => decide (cmp x y = 0))
    have h1 : ((l.takeWhile fun y => decide (cmp x y = 0)).reverse ++
        x :: revTies cmp (l.dropWhile fun y => decide (cmp x y = 0))).Perm
        (x :: ((l.takeWhile fun y => decide (cmp x y = 0)).reverse ++
          revTies cmp (l.dropWhile fun y => decide (cmp x y = 0)))) := List.perm_middle
    refine h1.trans (List.Perm.cons x ?_)
    have h2 := (List.reverse_perm (l.takeWhile fun y => decide (cmp x y = 0))).append ih
    rw [List.takeWhile_append_dropWhile] at h2
    exact h2
termination_by l => l.length
decreasing_by
  simp_wf
  exact Nat.lt_succ_of_le (List.dropWhile_sublist _).length_le

theorem TotalPreorder.tie_symm {α : Type} {cmp : α → α → Int} (hcmp : TotalPreorder cmp)
    {x y : α} (h : cmp x y = 0) : cmp y x = 0 := by
  have h1 := hcmp.antisymm x y
  have h2 := hcmp.antisymm y x
  by_contra hne
  rcases lt_or_gt_of_ne hne with hlt | hgt
  · have := h2.1 hlt
    omega
  · have := h1.2 hgt
    omega

theorem TotalPreorder.lt_of_le_of_lt {α : Type} {cmp : α → α → Int} (hcmp : TotalPreorder cmp)
    {x y z : α} (hxy : cmp x y ≤ 0) (hyz : cmp y z < 0) : cmp x z < 0 := by
  by_contra hc
  have hzx : cmp z x ≤ 0 := hcmp.le_of_not_lt hc
  have hzy : cmp z y ≤ 0 := hcmp.trans z x y hzx hxy
  have := (hcmp.antisymm y z).1 hyz
  omega

theorem TotalPreorder.tie_of_ties {α : Type} {cmp : α → α → Int} (hcmp : TotalPreorder cmp)
    {x u v : α} (hu : cmp x u = 0) (hv : cmp x v = 0) : cmp u v = 0 := by
  have hux : cmp u x = 0 := hcmp.tie_symm hu
  have hvx : cmp v x = 0 := hcmp.tie_symm hv
  have h1 : cmp u v ≤ 0 := hcmp.trans u x v (by omega) (by omega)
  have h2 : cmp v u ≤ 0 := hcmp.trans v x u (by omega) (by omega)
  by_contra hne
  have hlt : cmp u v < 0 := by omega
  have := (hcmp.antisymm u v).1 hlt
  omega

/-- In an ascending sequence, what follows the elements that compare equal to
the first element is strictly greater than it. -/
theorem dropWhile_tie_lt {α : Type} {cmp : α → α → Int} (hcmp : TotalPreorder cmp) (x : α) :
    ∀ (l : List α), (x :: l).Pairwise (fun a b => cmp a b ≤ 0) →
      ∀ d ∈ l.dropWhile (fun y => decide (cmp x y = 0)), cmp x d < 0
  | [], _, d, hd => by simp at hd
  | y :: l, hp, d, hd => by
    have hp1 := List.pairwise_cons.1 hp
    have hp2 := List.pairwise_cons.1 hp1.2
    by_cases hxy : cmp x y = 0
    · rw [List.dropWhile_cons_of_pos (by simpa using hxy)] at hd
      refine dropWhile_tie_lt hcmp x l (List.pairwise_cons.2 ⟨fun z hz => ?_, hp2.2⟩) d hd
      exact hp1.1 z (List.mem_cons_of_mem _ hz)
    · rw [List.dropWhile_cons_of_neg (by simpa using hxy)] at hd
      have hlt : cmp x y < 0 := by
        have := hp1.1 y (List.mem_cons_self _ _)
        omega
      rcases List.mem_cons.1 hd with rfl | hd1
      · exact hlt
      · exact hcmp.lt_of_lt_of_le hlt (hp2.1 d hd1)

theorem TieRev.mono {α : Type} {cmp : α → α → Int} {l0 l1 : List α} (hsub : List.Sublist l0 l1)
    {u v : α} (h : TieRev cmp l0 u v) : TieRev cmp l1 u v := by
  rcases h with h | ⟨h, hs⟩
  · exact Or.inl h
  · exact Or.inr ⟨h, hs.trans hsub⟩

/-- In `revTies` of an ascending sequence, elements that compare equal stand
in the reverse of their original order. -/
theorem revTies_tieRev {α : Type} {cmp : α → α → Int} (hcmp : TotalPreorder cmp) :
    ∀ (l : List α), l.Pairwise (fun a b => cmp a b ≤ 0) →
      (revTies cmp l).Pairwise (TieRev cmp l)
  | [], _ => by rw [revTies_nil]; exact List.Pairwise.nil
  | x :: l, hp => by
    rw [revTies_cons]
    have hp1 := List.pairwise_cons.1 hp
    have htw : ∀ y ∈ l.takeWhile (fun y => decide (cmp x y = 0)), cmp x y = 0 := by
      intro y hy
      simpa using List.mem_takeWhile_imp hy
    have hdw := dropWhile_tie_lt hcmp x l hp
    have hsubt : List.Sublist (l.takeWhile fun y => decide (cmp x y = 0)) l :=
      List.takeWhile_sublist _
    have hsubd : List.Sublist (l.dropWhile fun y => decide (cmp x y = 0)) l :=
      List.dropWhile_sublist _
    have ih := revTies_tieRev hcmp (l.dropWhile fun y => decide (cmp x y = 0))
      (hp1.2.sublist hsubd)
    have hmemd : ∀ v ∈ revTies cmp (l.dropWhile fun y => decide (cmp x y = 0)),
        v ∈ l.dropWhile (fun y => decide (cmp x y = 0)) :=
      fun v hv => (revTies_perm cmp _).mem_iff.1 hv
    refine List.pairwise_append.2 ⟨?_, ?_, ?_⟩
    · rw [List.pairwise_reverse]
      refine List.pairwise_iff_forall_sublist.2 ?_
      intro a b hab
      have ha : a ∈ l.takeWhile (fun y => decide (cmp x y = 0)) := hab.subset (by simp)
      have hb : b ∈ l.takeWhile (fun y => decide (cmp x y = 0)) := hab.subset (by simp)
      exact Or.inr ⟨hcmp.tie_of_ties (htw b hb) (htw a ha),
        (hab.trans hsubt).trans (List.sublist_cons_self x l)⟩
    · refine List.pairwise_cons.2 ⟨fun v hv => Or.inl (hdw v (hmemd v hv)), ?_⟩
      exact ih.imp (fun h => h.mono (hsubd.trans (List.sublist_cons_self x l)))
    · intro u hu v hv
      have hu1 : u ∈ l.takeWhile (fun y => decide (cmp x y = 0)) := List.mem_reverse.1 hu
      have hxu := htw u hu1
      rcases List.mem_cons.1 hv with rfl | hv1
      · exact Or.inr ⟨hcmp.tie_symm hxu,
          List.Sublist.cons₂ _ (List.singleton_sublist.2 (hsubt.subset hu1))⟩
      · exact Or.inl (hcmp.lt_of_le_of_lt (by rw [hcmp.tie_symm hxu]) (hdw v (hmemd v hv1)))
termination_by l => l.length
decreasing_by
  simp_wf
  exact Nat.lt_succ_of_le (List.dropWhile_sublist _).length_le

theorem tieRev_antisymm {α : Type} {cmp : α → α → Int} (hcmp : TotalPreorder cmp) {l0 : List α}
    (hnd : l0.Nodup) {u v : α} (h1 : TieRev cmp l0 u v) (h2 : TieRev cmp l0 v u) : u = v := by
  exfalso
  rcases h1 with h1 | ⟨h1, s1⟩
  · have := (hcmp.antisymm u v).1 h1
    have := h2.le
    omega
  · rcases h2 with h2 | ⟨_, s2⟩
    · have := (hcmp.antisymm v u).1 h2
      omega
    · exact pair_sublist_asymm hnd s1 s2

/-- An arrangement of given elements that is ascending with ties in the
reverse of their order in a sequence without repetition is unique. -/
theorem eq_of_perm_of_tieRev {α : Type} {cmp : α → α → Int} (hcmp : TotalPreorder cmp)
    {l0 l1 l2 : List α} (hnd : l0.Nodup) (hp : l1.Perm l2) (h1 : l1.Pairwise (TieRev cmp l0))
    (h2 : l2.Pairwise (TieRev cmp l0)) : l1 = l2 := by
  haveI : IsAntisymm α (TieRev cmp l0) := ⟨fun _ _ => tieRev_antisymm hcmp hnd⟩
  exact List.eq_of_perm_of_sorted hp h1 h2

/-- On an ascending sequence without repetition the sort reverses every run
of elements that compare equal and changes nothing else. -/
theorem msortL_eq_revTies {α : Type} {cmp : α → α → Int} (hcmp : TotalPreorder cmp) {l : List α}
    (hs : l.Pairwise (fun a b => cmp a b ≤ 0)) (hnd : l.Nodup) :
    msortL cmp l = revTies cmp l :=
  eq_of_perm_of_tieRev hcmp hnd ((msortL_perm cmp _ l le_rfl).trans (revTies_perm cmp l).symm)
    (msortL_tieRev hcmp l _ l le_rfl (List.Sublist.refl l)) (revTies_tieRev hcmp l hs)

/-- On an ascending sequence without repetition two sorts change nothing. -/
theorem msortL_msortL {α : Type} {cmp : α → α → Int} (hcmp : TotalPreorder cmp) {l : List α}
    (hs : l.Pairwise (fun a b => cmp a b ≤ 0)) (hnd : l.Nodup) :
    msortL cmp (msortL cmp l) = l := by
  have hperm := msortL_perm cmp _ l le_rfl
  have hndm : (msortL cmp l).Nodup := hperm.nodup_iff.2 hnd
  refine eq_of_perm_of_tieRev hcmp hndm ((msortL_perm cmp _ _ le_rfl).trans hperm)
    (msortL_tieRev hcmp _ _ _ le_rfl (List.Sublist.refl _)) ?_
  refine List.pairwise_iff_forall_sublist.2 ?_
  intro a b hab
  have hle : cmp a b ≤ 0 := List.pairwise_iff_forall_sublist.1 hs hab
  by_cases h0 : cmp a b < 0
  · exact Or.inl h0
  · exact Or.inr ⟨by omega, msortL_ties_reversed hcmp hnd hab (by omega)⟩

/-- Reversing the runs of ties of the nodes reverses the runs of ties of
their payloads. -/
theorem map_revTies {α β : Type} (cmp : β → β → Int) (f : α → β) : ∀ (l : List α),
    (revTies (fun a b => cmp (f a) (f b)) l).map f = revTies cmp (l.map f)
  | [] => by simp [revTies_nil]
  | x :: l => by
    have ih := map_revTies cmp f (l.dropWhile fun y => decide (cmp (f x) (f y) = 0))
    rw [revTies_cons, List.map_cons, revTies_cons, List.takeWhile_map, List.dropWhile_map,
      List.map_append, List.map_reverse, List.map_cons]
    have e : ((fun y => decide (cmp (f x) y = 0)) ∘ f) = fun y => decide (cmp (f x) (f y) = 0) :=
      rfl
    rw [e, ih]
termination_by l => l.length
decreasing_by
  simp_wf
  exact Nat.lt_succ_of_le (List.dropWhile_sublist _).length_le

theorem replicate_append_self {α : Type} (x : α) : ∀ (n : Nat) (r : List α),
    List.replicate n x ++ x :: r = x :: (List.replicate n x ++ r)
  | 0, _ => rfl
  | n + 1, r => by
    rw [List.replicate_succ, List.cons_append, replicate_append_self x n r]
    rfl

/-- When elements that compare equal are equal, reversing the runs of ties
changes nothing. -/
theorem revTies_of_ties_eq {α : Type} (cmp : α → α → Int) : ∀ (l : List α),
    (∀ x ∈ l, ∀ y ∈ l, cmp x y = 0 → x = y) → revTies cmp l = l
  | [], _ => revTies_nil cmp
  | x :: l, hties => by
    rw [revTies_cons]
    have hsubd : List.Sublist (l.dropWhile fun y => decide (cmp x y = 0)) l :=
      List.dropWhile_sublist _
    have ih := revTies_of_ties_eq cmp (l.dropWhile fun y => decide (cmp x y = 0))
      (fun a ha b hb => hties a (List.mem_cons_of_mem _ (hsubd.subset ha)) b
        (List.mem_cons_of_mem _ (hsubd.subset hb)))
    have htw : ∀ y ∈ l.takeWhile (fun y => decide (cmp x y = 0)), y = x := by
      intro y hy
      have h0 : cmp x y = 0 := by simpa using List.mem_takeWhile_imp hy
      exact (hties x (List.mem_cons_self _ _) y
        (List.mem_cons_of_mem _ ((List.takeWhile_sublist _).subset hy)) h0).symm
    have hrep : l.takeWhile (fun y => decide (cmp x y = 0)) =
        List.replicate (l.takeWhile fun y => decide (cmp x y = 0)).length x :=
      List.eq_replicate_iff.2 ⟨rfl, htw⟩
    rw [ih]
    conv_lhs => rw [hrep, List.reverse_replicate, replicate_append_self, ← hrep]
    rw [List.takeWhile_append_dropWhile]
termination_by l => l.length
decreasing_by
  simp_wf
  exact Nat.lt_succ_of_le (List.dropWhile_sublist _).length_le

/-- The run "a", "A" of two payloads that compare equal is reversed. -/
theorem revTies_tie_pair : revTies firstByteCaseCmp [[97], [65]] = [[65], [97]] := by
  simp [revTies_cons, revTies_nil, firstByteCaseCmp]

/-- In "a", "a", "b" the run "a", "a" is reversed, which leaves the sequence
as it is. -/
theorem revTies_equal_run :
    revTies firstByteCaseCmp [[97], [97], [98]] = [[97], [97], [98]] := by
  simp [revTies_cons, revTies_nil, firstByteCaseCmp]

/-- On a well-formed queue whose payload sequence is ascending, `q_sort`
reverses every run of ties and a second `q_sort` undoes the first. -/
theorem q_sort_on_ascending (cmp : Text → Text → Int) (hcmp : TotalPreorder cmp) (h : Heap)
    (q : queue_t) (fuel : Nat) (ns : List Addr) (hwf : WellFormed h q)
    (hfuel : q.size + 2 ≤ fuel) (hc : IsChain h q.head ns)
    (hasc : List.Chain' (fun x y => cmp x y ≤ 0) (payloads h ns)) :
    ∃ h1 q1, q_sort cmp fuel h (some q) = some (h1, some q1) ∧
      IsChain h1 q1.head (revTies (cmpAt cmp h) ns) ∧
      payloads h1 (revTies (cmpAt cmp h) ns) = revTies cmp (payloads h ns) ∧
      ((∀ x ∈ payloads h ns, ∀ y ∈ payloads h ns, cmp x y = 0 → x = y) →
        payloads h1 (revTies (cmpAt cmp h) ns) = payloads h ns) ∧
      q_sort cmp fuel h1 (some q1) = some (h, some q) := by
  obtain ⟨ns0, hc0, hl, ht⟩ := WellFormed.chain hwf
  have : ns0 = ns := IsChain_det hc0 hc
  subst this
  obtain ⟨h1, q1, he, hs, ht1, hsz, hframe, hsv⟩ := q_sort_spec cmp fuel h q ns0 hc ht (by omega)
  have hnd := IsChain_nodup hc
  have hpw : ns0.Pairwise (fun a b => cmpAt cmp h a b ≤ 0) := by
    rw [payloads, List.chain'_map] at hasc
    have hasc2 : List.Chain' (fun a b => cmpAt cmp h a b ≤ 0) ns0 := hasc
    haveI : IsTrans Addr (fun a b => cmpAt cmp h a b ≤ 0) :=
      ⟨fun a b c hab hbc => (hcmp.cmpAt h).trans a b c hab hbc⟩
    exact List.chain'_iff_pairwise.1 hasc2
  have hperm := msortL_perm (cmpAt cmp h) _ ns0 le_rfl
  have hpay : payloads h1 (revTies (cmpAt cmp h) ns0) = revTies cmp (payloads h ns0) := by
    rw [hsv.payloads_eq]
    exact map_revTies cmp (val h) ns0
  obtain ⟨h2, q2, he2, hs2, ht2, hsz2, hframe2, hsv2⟩ := q_sort_spec cmp fuel h1 q1
    (msortL (cmpAt cmp h) ns0) hs ht1.symm (by rw [hperm.length_eq]; omega)
  rw [hsv.cmpAt_eq, msortL_msortL (hcmp.cmpAt h) hpw hnd] at hs2 ht2
  have hq : q2 = q := by
    have e1 : q2.head = q.head := (IsChain_head hs2).trans (IsChain_head hc).symm
    have e2 : q2.tail = q.tail := ht2.trans ht
    have e3 : q2.size = q.size := hsz2.trans hsz
    cases q; cases q2
    simp_all
  have hh : h2 = h := by
    funext x
    by_cases hx : x ∈ ns0
    · have hs3 : IsChain h2 q.head ns0 := by rw [← hq]; exact hs2
      exact heap_eq_of_chain (hsv2.trans hsv) hc hs3 x hx
    · rw [hframe2 x (fun hm => hx (hperm.mem_iff.1 hm)), hframe x hx]
  rw [msortL_eq_revTies (hcmp.cmpAt h) hpw hnd] at hs
  refine ⟨h1, q1, he, hs, hpay, fun hties => ?_, by rw [he2, hh, hq]⟩
  rw [hpay, revTies_of_ties_eq cmp _ hties]

/-- C4, amended: on a well-formed queue whose payload sequence is ascending
under a total preorder, `q_sort` returns and reverses every maximal run of
elements that compare equal, changing nothing else; so the payload sequence is
the same, element for element, whenever payloads that compare equal are
identical, and a second `q_sort` gives back the heap and the queue exactly as
they were before the first.  In particular, for every well-formed queue `Q`
the same holds of sort(`Q`): sort(sort(`Q`)) is sort(`Q`) with its runs of
ties reversed, it has the payload sequence of sort(`Q`) whenever payloads
that compare equal are identical, and sort(sort(sort(`Q`))) = sort(`Q`). -/
theorem q_sort_reverses_tie_runs (cmp : Text → Text → Int) (hcmp : TotalPreorder cmp)
    (h : Heap) (q : queue_t) (fuel : Nat) (ns : List Addr) (hwf : WellFormed h q)
    (hfuel : q.size + 2 ≤ fuel) (hc : IsChain h q.head ns) :
    (List.Chain' (fun x y => cmp x y ≤ 0) (payloads h ns) →
      ∃ h1 q1, q_sort cmp fuel h (some q) = some (h1, some q1) ∧
        IsChain h1 q1.head (revTies (cmpAt cmp h) ns) ∧
        payloads h1 (revTies (cmpAt cmp h) ns) = revTies cmp (payloads h ns) ∧
        ((∀ x ∈ payloads h ns, ∀ y ∈ payloads h ns, cmp x y = 0 → x = y) →
          payloads h1 (revTies (cmpAt cmp h) ns) = payloads h ns) ∧
        q_sort cmp fuel h1 (some q1) = some (h, some q)) ∧
    ∃ h1 q1 ns1, q_sort cmp fuel h (some q) = some (h1, some q1) ∧ IsChain h1 q1.head ns1 ∧
      ∃ h2 q2, q_sort cmp fuel h1 (some q1) = some (h2, some q2) ∧
        IsChain h2 q2.head (revTies (cmpAt cmp h1) ns1) ∧
        payloads h2 (revTies (cmpAt cmp h1) ns1) = revTies cmp (payloads h1 ns1) ∧
        ((∀ x ∈ payloads h1 ns1, ∀ y ∈ payloads h1 ns1, cmp x y = 0 → x = y) →
          payloads h2 (revTies (cmpAt cmp h1) ns1) = payloads h1 ns1) ∧
        q_sort cmp fuel h2 (some q2) = some (h1, some q1) := by
  refine ⟨q_sort_on_ascending cmp hcmp h q fuel ns hwf hfuel hc, ?_⟩
  obtain ⟨ns0, hc0, hl, ht⟩ := WellFormed.chain hwf
  have : ns0 = ns := IsChain_det hc0 hc
  subst this
  obtain ⟨h1, q1, he, hs, ht1, hsz, _, hsv⟩ := q_sort_spec cmp fuel h q ns0 hc ht (by omega)
  have hperm := msortL_perm (cmpAt cmp h) _ ns0 le_rfl
  have hwf1 : WellFormed h1 q1 :=
    WellFormed_iff.2 ⟨_, hs, by rw [hperm.length_eq, hsz, hl], ht1.symm,
      by rw [hsz]; exact hwf.range⟩
  have hasc1 : List.Chain' (fun x y => cmp x y ≤ 0)
      (payloads h1 (msortL (cmpAt cmp h) ns0)) := by
    have hp := msortL_sorted (hcmp.cmpAt h) _ ns0 le_rfl
    rw [payloads, List.chain'_map]
    refine List.Pairwise.chain' (hp.imp ?_)
    intro a b hab
    have : cmpAt cmp h a b ≤ 0 := hab
    simpa [cmpAt, hsv.val_eq] using this
  exact ⟨h1, q1, _, he, hs,
    q_sort_on_ascending cmp hcmp h1 q1 fuel _ hwf1 (by rw [hsz]; exact hfuel) hs hasc1⟩

theorem q_sort_reverses_tie_runs_witness :
    WellFormed tieHeap tieQueue ∧ tieQueue.size + 2 ≤ ((5 : Nat) : Int) ∧
    IsChain tieHeap tieQueue.head [1, 2] ∧
    List.Chain' (fun x y => firstByteCaseCmp x y ≤ 0) (payloads tieHeap [1, 2]) ∧
    (∃ h1 q1, q_sort firstByteCaseCmp 5 tieHeap (some tieQueue) = some (h1, some q1) ∧
        IsChain h1 q1.head (revTies (cmpAt firstByteCaseCmp tieHeap) [1, 2]) ∧
        payloads h1 (revTies (cmpAt firstByteCaseCmp tieHeap) [1, 2]) =
          revTies firstByteCaseCmp (payloads tieHeap [1, 2]) ∧
        ((∀ x ∈ payloads tieHeap [1, 2], ∀ y ∈ payloads tieHeap [1, 2],
            firstByteCaseCmp x y = 0 → x = y) →
          payloads h1 (revTies (cmpAt firstByteCaseCmp tieHeap) [1, 2]) =
            payloads tieHeap [1, 2]) ∧
        q_sort firstByteCaseCmp 5 h1 (some q1) = some (tieHeap, some tieQueue)) ∧
    ∃ h1 q1 ns1, q_sort firstByteCaseCmp 5 tieHeap (some tieQueue) = some (h1, some q1) ∧
      IsChain h1 q1.head ns1 ∧
      ∃ h2 q2, q_sort firstByteCaseCmp 5 h1 (some q1) = some (h2, some q2) ∧
        IsChain h2 q2.head (revTies (cmpAt firstByteCaseCmp h1) ns1) ∧
        payloads h2 (revTies (cmpAt firstByteCaseCmp h1) ns1) =
          revTies firstByteCaseCmp (payloads h1 ns1) ∧
        ((∀ x ∈ payloads h1 ns1, ∀ y ∈ payloads h1 ns1, firstByteCaseCmp x y = 0 → x = y) →
          payloads h2 (revTies (cmpAt firstByteCaseCmp h1) ns1) = payloads h1 ns1) ∧
        q_sort firstByteCaseCmp 5 h2 (some q2) = some (h1, some q1) :=
  ⟨tieQueue_wellFormed, by decide, tieHeap_chain,
    List.chain'_cons.2 ⟨by decide, List.chain'_singleton _⟩,
    (q_sort_reverses_tie_runs firstByteCaseCmp firstByteCaseCmp_totalPreorder tieHeap tieQueue 5
      [1, 2] tieQueue_wellFormed (by decide) tieHeap_chain).1
      (List.chain'_cons.2 ⟨by decide, List.chain'_singleton _⟩),
    (q_sort_reverses_tie_runs firstByteCaseCmp firstByteCaseCmp_totalPreorder tieHeap tieQueue 5
      [1, 2] tieQueue_wellFormed (by decide) tieHeap_chain).2⟩

/-! ## The invariant beyond `INT_MAX` -/

/-- After 2^32 successful `q_insert_tail` calls on the queue of `q_new` the
count is 0 and the head is not `NULL`. -/
theorem count_zero_not_empty (n : Nat) (hn : n = 4294967296) :
    ∃ h1 q1, run Heap.empty (q_new true) (insertTailOps (lineItems [] n)) =
        some (h1, some q1, List.replicate (lineItems [] n).length (true, none)) ∧
      q1.size = 0 ∧ q1.head ≠ none := by
  obtain ⟨h1, q1, he, ns, hc, hl, _, hlen⟩ := run_lineItems [] n (by omega)
  refine ⟨h1, q1, he, ?_, ?_⟩
  · rw [← hl, hlen, hn]
    decide
  · intro hh
    rw [hh] at hc
    have hnil : ns = [] := IsChain_none hc
    rw [hnil] at hlen
    simp at hlen
    omega

/-- C7, the claim fails: the queue `fullQueue` of `INT_MAX` elements is well
formed and the address `INT_MAX` is not allocated; a successful
`q_insert_head` there stores `INT_MAX + 1` in the `int` count, which becomes
`INT_MIN`, and the queue it leaves is not well formed: its count is negative
while its chain has 2^31 nodes.  And after 2^32 successful `q_insert_tail`
calls on the queue of `q_new` the count is 0 while the head is not `NULL`. -/
theorem wellFormed_lost_at_int_max :
    (WellFormed fullHeap fullQueue ∧ fullHeap 2147483647 = none ∧
      ∃ h1 q1, q_insert_head fullHeap (some fullQueue) [] (some 2147483647) true
          = (true, h1, some q1) ∧ q1.size = -2147483648 ∧ ¬ WellFormed h1 q1) ∧
    ∃ h1 q1, run Heap.empty (q_new true) (insertTailOps (lineItems [] 4294967296)) =
        some (h1, some q1, List.replicate (lineItems [] 4294967296).length (true, none)) ∧
      q1.size = 0 ∧ q1.head ≠ none :=
  ⟨⟨fullQueue_wellFormed, by decide, _, _, rfl, by decide, fun hwf => absurd hwf.1 (by decide)⟩,
    count_zero_not_empty 4294967296 rfl⟩

end QueueC
